import Mathlib

/-!
# open-telemetry-adaptor: trace-context carriers

Shallow embedding of `carrier/carrier.go`, `pulsar/producer.go` and
`pulsar/consumer.go`, together with the parts of the Go runtime and of the
libraries (`propagation.MapCarrier`, `encoding/json`, `unicode/utf8`) that
these files delegate to.

Conventions of the embedding:
* a Go `string` is its sequence of bytes (`List Nat`, every element a byte);
* a Go `map[string]string` is `Option` of an association list with unique
  keys, `none` being the nil map; the iteration order of `range` (unspecified
  in Go) is the order of the association list;
* a Go slice is `Option (List _)`, `none` being the nil slice;
* methods with a pointer receiver return the receiver's new state next to
  their result; a run-time panic is `Except.error`.
-/

namespace OtelAdaptor

/-! ## Go values -/

/-- A Go `string`: a sequence of bytes, not necessarily valid UTF-8. -/
abbrev GoString := List Nat

/-- A non-nil Go `map[string]string`. -/
abbrev StrMap := AList (fun _ : GoString => GoString)

/-- One entry of a map: a key and its value. -/
abbrev Entry := Sigma fun _ : GoString => GoString

/-- A Go value of type `map[string]string`; `none` is the nil map. -/
abbrev GoMap := Option StrMap

/-- A Go value of type `[]string`; `none` is the nil slice. -/
abbrev StrSlice := Option (List GoString)

/-- The bytes of an ASCII text: one byte for each character, its code. -/
def asciiBytes (s : String) : GoString := s.data.map Char.toNat

/-- Run-time panics the modelled code can raise. -/
inductive Panic where
  | nilMapAssignment
  | nilDereference
  | decoderOutOfSync
deriving DecidableEq, Repr

/-- Go map read `m[key]`: the zero value (empty string) when the key is
missing or the map is nil. -/
def mapIndex (m : GoMap) (key : GoString) : GoString :=
  match m with
  | none => []
  | some s => (s.lookup key).getD []

/-- Go map write `m[key] = value`: panics on a nil map. -/
def mapAssign (m : GoMap) (key value : GoString) : Except Panic GoMap :=
  match m with
  | none => .error Panic.nilMapAssignment
  | some s => .ok (some (s.insert key value))

/-- Go `len(m)` of a map: zero for the nil map. -/
def mapLen (m : GoMap) : Nat :=
  match m with
  | none => 0
  | some s => s.entries.length

/-- The keys visited by `for key := range m`, in visiting order. -/
def mapRange (m : GoMap) : List GoString :=
  match m with
  | none => []
  | some s => s.keys

/-! ## propagation.MapCarrier (go.opentelemetry.io/otel/propagation) -/

/-- The library type `type MapCarrier map[string]string`. -/
abbrev MapCarrier := GoMap

/-- Library method `func (c MapCarrier) Get(key string) string { return c[key] }`. -/
def MapCarrier.Get (c : MapCarrier) (key : GoString) : GoString :=
  mapIndex c key

/-- Library method `func (c MapCarrier) Set(key, value string) { c[key] = value }`. -/
def MapCarrier.Set (c : MapCarrier) (key value : GoString) : Except Panic MapCarrier :=
  mapAssign c key value

/-- Library method `Keys`: `keys := make([]string, 0, len(c))`, then one
`append(keys, k)` for each `k` of `range c`. -/
def MapCarrier.Keys (c : MapCarrier) : StrSlice :=
  some ((mapRange c).foldl (fun keys k => keys ++ [k]) [])


/-! ## unicode/utf8 and unicode/utf16 -/

/-- Constant `utf8.RuneError`, U+FFFD. -/
def RuneError : Nat := 0xFFFD

/-- Library function `utf8.DecodeRune`: the first rune of `p` and its width in
bytes. `(RuneError, 0)` for empty input, `(RuneError, 1)` for an invalid
encoding. The masks `p0 & mask2`, `b & maskx`, ... are written as remainders
and the shifts and ors of the disjoint bit fields as products and sums. -/
def decodeRune (p : List Nat) : Nat × Nat :=
  match p with
  | [] => (RuneError, 0)
  | p0 :: t =>
    if p0 < 0x80 then (p0, 1)
    else if p0 < 0xC2 ∨ 0xF4 < p0 then (RuneError, 1)
    else
      let sz := if p0 < 0xE0 then 2 else if p0 < 0xF0 then 3 else 4
      let lo := if p0 = 0xE0 then 0xA0 else if p0 = 0xF0 then 0x90 else 0x80
      let hi := if p0 = 0xED then 0x9F else if p0 = 0xF4 then 0x8F else 0xBF
      if t.length + 1 < sz then (RuneError, 1)
      else
        match t with
        | [] => (RuneError, 1)
        | b1 :: t1 =>
          if b1 < lo ∨ hi < b1 then (RuneError, 1)
          else if sz ≤ 2 then ((p0 % 32) * 64 + b1 % 64, 2)
          else
            match t1 with
            | [] => (RuneError, 1)
            | b2 :: t2 =>
              if b2 < 0x80 ∨ 0xBF < b2 then (RuneError, 1)
              else if sz ≤ 3 then ((p0 % 16) * 4096 + (b1 % 64) * 64 + b2 % 64, 3)
              else
                match t2 with
                | [] => (RuneError, 1)
                | b3 :: _ =>
                  if b3 < 0x80 ∨ 0xBF < b3 then (RuneError, 1)
                  else ((p0 % 8) * 262144 + (b1 % 64) * 4096 + (b2 % 64) * 64 + b3 % 64, 4)

/-- Library function `utf8.AppendRune` / `utf8.EncodeRune`: the UTF-8 bytes of
a rune; surrogates and values above `MaxRune` are written as `RuneError`. -/
def encodeRune (r : Nat) : List Nat :=
  if r ≤ 0x7F then [r]
  else if r ≤ 0x7FF then [0xC0 + r / 64, 0x80 + r % 64]
  else if 0x10FFFF < r ∨ (0xD800 ≤ r ∧ r ≤ 0xDFFF) then [0xEF, 0xBF, 0xBD]
  else if r ≤ 0xFFFF then [0xE0 + r / 4096, 0x80 + (r / 64) % 64, 0x80 + r % 64]
  else [0xF0 + r / 262144, 0x80 + (r / 4096) % 64, 0x80 + (r / 64) % 64, 0x80 + r % 64]

/-- Loop of `utf8.Valid`: no position decodes to `(RuneError, 1)`. Every
iteration advances by a byte at least, so the length of the input is fuel
enough (`validLoop_fuel`). -/
def validLoop : Nat → List Nat → Bool
  | _, [] => true
  | 0, _ :: _ => false
  | fuel + 1, c :: rest =>
    let d := decodeRune (c :: rest)
    if d.1 = RuneError ∧ d.2 = 1 then false
    else validLoop fuel ((c :: rest).drop d.2)

/-- Library function `utf8.Valid`: the bytes are a well-formed UTF-8 text. -/
def utf8Valid (s : GoString) : Bool := validLoop s.length s

/-- Library function `utf16.IsSurrogate`. -/
def isSurrogate (r : Nat) : Bool := decide (0xD800 ≤ r ∧ r < 0xE000)

/-- Library function `utf16.DecodeRune` on a pair of code units, the second
one possibly missing (`getu4` returned -1); U+FFFD for an invalid pair. -/
def utf16DecodeRune (r1 : Nat) (r2 : Option Nat) : Nat :=
  match r2 with
  | none => 0xFFFD
  | some r2 =>
    if 0xD800 ≤ r1 ∧ r1 < 0xDC00 ∧ 0xDC00 ≤ r2 ∧ r2 < 0xE000 then
      (r1 - 0xD800) * 1024 + (r2 - 0xDC00) + 0x10000
    else 0xFFFD

/-! ## encoding/json: encoder for `map[string]string` -/

/-- Errors returned by `encoding/json`. -/
inductive JsonError where
  | SyntaxError
  | UnmarshalTypeError
deriving DecidableEq, Repr

/-- Digit `hex[n]` of the table `"0123456789abcdef"`. -/
def hexDigit (n : Nat) : Nat := if n < 10 then 0x30 + n else 0x57 + n

/-- Table `htmlSafeSet` on ASCII: every byte from space to DEL except the
double quote, the backslash and the characters `&`, `<`, `>`. -/
def htmlSafe (b : Nat) : Bool :=
  decide (0x20 ≤ b ∧ b < 0x80 ∧ b ≠ 0x22 ∧ b ≠ 0x5C ∧ b ≠ 0x26 ∧ b ≠ 0x3C ∧ b ≠ 0x3E)

/-- The escape `appendString` writes for an ASCII byte outside `htmlSafeSet`. -/
def escapeAscii (b : Nat) : List Nat :=
  if b = 0x5C ∨ b = 0x22 then [0x5C, b]
  else if b = 0x08 then [0x5C, 0x62]
  else if b = 0x0C then [0x5C, 0x66]
  else if b = 0x0A then [0x5C, 0x6E]
  else if b = 0x0D then [0x5C, 0x72]
  else if b = 0x09 then [0x5C, 0x74]
  else [0x5C, 0x75, 0x30, 0x30, hexDigit (b / 16), hexDigit (b % 16)]

/-- One iteration of the loop of `appendString` with `escapeHTML` set, at the
byte `b` followed by `rest`: the bytes written and the input left. -/
def appendStringStep (b : Nat) (rest : GoString) : List Nat × GoString :=
  if b < 0x80 then
    if htmlSafe b then ([b], rest) else (escapeAscii b, rest)
  else
    let d := decodeRune (b :: rest)
    if d.1 = RuneError ∧ d.2 = 1 then
      ([0x5C, 0x75, 0x66, 0x66, 0x66, 0x64], rest)
    else if d.1 = 0x2028 ∨ d.1 = 0x2029 then
      ([0x5C, 0x75, 0x32, 0x30, 0x32, hexDigit (d.1 % 16)], (b :: rest).drop d.2)
    else
      ((b :: rest).take d.2, (b :: rest).drop d.2)

/-- Loop of `appendString`: the bytes written between the two quotes for the
remaining input. Every iteration advances by a byte at least, so the length of
the input is fuel enough (`appendStringLoop_fuel`). -/
def appendStringLoop : Nat → GoString → List Nat
  | _, [] => []
  | 0, _ :: _ => []
  | fuel + 1, b :: rest =>
    (appendStringStep b rest).1 ++ appendStringLoop fuel (appendStringStep b rest).2

/-- Function `appendString` of `encoding/json`: a Go string as a JSON string
literal. -/
def appendString (src : GoString) : List Nat :=
  [0x22] ++ appendStringLoop src.length src ++ [0x22]

/-- The members of a JSON object as `mapEncoder.encode` writes them: a comma
before every member but the first, key and value joined by a colon. -/
def encodeMembers : List Entry → List Nat
  | [] => []
  | [kv] => appendString kv.1 ++ [0x3A] ++ appendString kv.2
  | kv :: kv2 :: more =>
    appendString kv.1 ++ [0x3A] ++ appendString kv.2 ++ [0x2C] ++ encodeMembers (kv2 :: more)

/-- Library function `json.Marshal` at type `map[string]string`: `null` for
the nil map, else the object of its entries sorted by key (byte-wise). It
returns no error at this type. -/
def jsonMarshal (m : GoMap) : List Nat × Option JsonError :=
  match m with
  | none => ([0x6E, 0x75, 0x6C, 0x6C], none)
  | some s =>
    ([0x7B] ++ encodeMembers (s.entries.insertionSort (fun a b => a.1 ≤ b.1)) ++ [0x7D], none)

/-! ## encoding/json: scanner and decoder for `*map[string]string` -/

/-- A JSON value as the scanner delimits it. A string keeps the bytes of its
literal between the quotes; a number keeps nothing, since no destination of
this development reads it. -/
inductive JValue where
  | null
  | bool (b : Bool)
  | number
  | string (raw : List Nat)
  | array (elems : List JValue)
  | object (members : List (List Nat × JValue))

/-- Constant `maxNestingDepth` of the scanner. -/
def maxNestingDepth : Nat := 10000

/-- Function `isSpace` of the scanner: space, tab, carriage return, line feed. -/
def isSpace (c : Nat) : Bool := decide (c = 0x20 ∨ c = 0x09 ∨ c = 0x0D ∨ c = 0x0A)

/-- Skips the white space the scanner allows between tokens. -/
def skipSpace : List Nat → List Nat
  | [] => []
  | c :: rest => if isSpace c then skipSpace rest else c :: rest

/-- A hexadecimal digit, as the scanner states `stateInStringEscU*` accept it. -/
def isHex (c : Nat) : Bool :=
  decide ((0x30 ≤ c ∧ c ≤ 0x39) ∨ (0x61 ≤ c ∧ c ≤ 0x66) ∨ (0x41 ≤ c ∧ c ≤ 0x46))

/-- A decimal digit. -/
def isDigit (c : Nat) : Bool := decide (0x30 ≤ c ∧ c ≤ 0x39)

/-- Scanner states `stateInString`, `stateInStringEsc`, `stateInStringEscU*`:
from just after the opening quote to just after the closing quote. Returns the
bytes between the quotes and the remaining input. -/
def scanString : List Nat → Option (List Nat × List Nat)
  | [] => none
  | c :: rest =>
    if c = 0x22 then some ([], rest)
    else if c = 0x5C then
      match rest with
      | [] => none
      | e :: rest1 =>
        if e = 0x62 ∨ e = 0x66 ∨ e = 0x6E ∨ e = 0x72 ∨ e = 0x74 ∨ e = 0x5C ∨ e = 0x2F
            ∨ e = 0x22 then
          (scanString rest1).map (fun r => (c :: e :: r.1, r.2))
        else if e = 0x75 then
          match rest1 with
          | h1 :: h2 :: h3 :: h4 :: rest2 =>
            if isHex h1 ∧ isHex h2 ∧ isHex h3 ∧ isHex h4 then
              (scanString rest2).map (fun r => (c :: e :: h1 :: h2 :: h3 :: h4 :: r.1, r.2))
            else none
          | _ => none
        else none
    else if c < 0x20 then none
    else (scanString rest).map (fun r => (c :: r.1, r.2))

/-- Drops the leading decimal digits (scanner states `state1`, `stateDot0`,
`stateE0`). -/
def skipDigits : List Nat → List Nat
  | [] => []
  | c :: rest => if isDigit c then skipDigits rest else c :: rest

/-- Scanner states `stateE`, `stateESign`, `stateE0`: the exponent after `e`. -/
def scanExp (inp : List Nat) : Option (List Nat) :=
  let inp1 := match inp with
    | c :: r => if c = 0x2B ∨ c = 0x2D then r else inp
    | [] => inp
  match inp1 with
  | d :: r => if isDigit d then some (skipDigits r) else none
  | [] => none

/-- Scanner states `state0`, `stateDot`, `stateDot0`: what may follow the
integer part of a number. -/
def scanFracExp (inp : List Nat) : Option (List Nat) :=
  match inp with
  | [] => some []
  | c :: r =>
    if c = 0x2E then
      match r with
      | [] => none
      | d :: r1 =>
        if isDigit d then
          match skipDigits r1 with
          | [] => some []
          | e :: r3 => if e = 0x65 ∨ e = 0x45 then scanExp r3 else some (e :: r3)
        else none
    else if c = 0x65 ∨ c = 0x45 then scanExp r
    else some inp

/-- Scanner states `stateNeg`, `state0`, `state1`: a number literal; returns
the input after it. -/
def scanNumber (inp : List Nat) : Option (List Nat) :=
  let inp1 := match inp with
    | c :: r => if c = 0x2D then r else inp
    | [] => inp
  match inp1 with
  | [] => none
  | c :: r =>
    if c = 0x30 then scanFracExp r
    else if 0x31 ≤ c ∧ c ≤ 0x39 then scanFracExp (skipDigits r)
    else none

/-- Scanner states `stateT*`, `stateF*`, `stateN*`: the input after the given
letters, if it starts with them. -/
def scanLiteral : List Nat → List Nat → Option (List Nat)
  | [], inp => some inp
  | _ :: _, [] => none
  | l :: ls, c :: rest => if c = l then scanLiteral ls rest else none

mutual
/-- Scanner state `stateBeginValue`: one JSON value at nesting depth `depth`
and the input after it; `none` is a syntax error. -/
def parseValue : Nat → Nat → List Nat → Option (JValue × List Nat)
  | 0, _, _ => none
  | fuel + 1, depth, inp =>
    match skipSpace inp with
    | [] => none
    | c :: rest =>
      if c = 0x7B then
        if depth + 1 ≤ maxNestingDepth then
          match skipSpace rest with
          | [] => none
          | c1 :: rest1 =>
            if c1 = 0x7D then some (JValue.object [], rest1)
            else (parseMembers fuel (depth + 1) (c1 :: rest1)).map
              (fun r => (JValue.object r.1, r.2))
        else none
      else if c = 0x5B then
        if depth + 1 ≤ maxNestingDepth then
          match skipSpace rest with
          | [] => none
          | c1 :: rest1 =>
            if c1 = 0x5D then some (JValue.array [], rest1)
            else (parseElems fuel (depth + 1) (c1 :: rest1)).map
              (fun r => (JValue.array r.1, r.2))
        else none
      else if c = 0x22 then (scanString rest).map (fun r => (JValue.string r.1, r.2))
      else if c = 0x74 then
        (scanLiteral [0x72, 0x75, 0x65] rest).map (fun r => (JValue.bool true, r))
      else if c = 0x66 then
        (scanLiteral [0x61, 0x6C, 0x73, 0x65] rest).map (fun r => (JValue.bool false, r))
      else if c = 0x6E then
        (scanLiteral [0x75, 0x6C, 0x6C] rest).map (fun r => (JValue.null, r))
      else if c = 0x2D ∨ isDigit c then
        (scanNumber (c :: rest)).map (fun r => (JValue.number, r))
      else none
/-- Scanner states `stateBeginString` and `stateEndValue` inside an object:
the members up to and including the closing brace. -/
def parseMembers : Nat → Nat → List Nat → Option (List (List Nat × JValue) × List Nat)
  | 0, _, _ => none
  | fuel + 1, depth, inp =>
    match skipSpace inp with
    | [] => none
    | q :: rest =>
      if q = 0x22 then
        match scanString rest with
        | none => none
        | some (key, rest1) =>
          match skipSpace rest1 with
          | [] => none
          | colon :: rest2 =>
            if colon = 0x3A then
              match parseValue fuel depth rest2 with
              | none => none
              | some (v, rest3) =>
                match skipSpace rest3 with
                | [] => none
                | sep :: rest4 =>
                  if sep = 0x2C then
                    (parseMembers fuel depth rest4).map (fun r => ((key, v) :: r.1, r.2))
                  else if sep = 0x7D then some ([(key, v)], rest4)
                  else none
            else none
      else none
/-- Scanner states `stateBeginValue` and `stateEndValue` inside an array: the
elements up to and including the closing bracket. -/
def parseElems : Nat → Nat → List Nat → Option (List JValue × List Nat)
  | 0, _, _ => none
  | fuel + 1, depth, inp =>
    match parseValue fuel depth inp with
    | none => none
    | some (v, rest) =>
      match skipSpace rest with
      | [] => none
      | sep :: rest1 =>
        if sep = 0x2C then (parseElems fuel depth rest1).map (fun r => (v :: r.1, r.2))
        else if sep = 0x5D then some ([v], rest1)
        else none
end

/-- Function `checkValid` together with the delimiting of the top-level value:
white space, one value, white space, end of input. Of two nested calls of the
parser one at least consumes a byte, so twice the length of the input is fuel
enough (`parseValue_fuel_irrelevant`). -/
def parseJSON (data : List Nat) : Option JValue :=
  match parseValue (2 * data.length + 2) 0 data with
  | none => none
  | some (v, rest) => if skipSpace rest = [] then some v else none

/-- Function `getu4`: the code unit of a six-byte escape, a backslash, `u` and
four hexadecimal digits; `none` (Go: -1) for anything else. -/
def getu4 (s : List Nat) : Option Nat :=
  match s with
  | b :: u :: h1 :: h2 :: h3 :: h4 :: _ =>
    if b = 0x5C ∧ u = 0x75 ∧ isHex h1 ∧ isHex h2 ∧ isHex h3 ∧ isHex h4 then
      let v := fun (c : Nat) =>
        if 0x30 ≤ c ∧ c ≤ 0x39 then c - 0x30
        else if 0x61 ≤ c ∧ c ≤ 0x66 then c - 0x61 + 10
        else c - 0x41 + 10
      some (((v h1 * 16 + v h2) * 16 + v h3) * 16 + v h4)
    else none
  | _ => none

/-- One iteration of the first loop of `unquoteBytes`: by how many bytes it
advances, or `none` when it stops at a byte that needs unquoting. -/
def plainStep (c : Nat) (rest : List Nat) : Option Nat :=
  if c = 0x5C ∨ c = 0x22 ∨ c < 0x20 then none
  else if c < 0x80 then some 1
  else
    let d := decodeRune (c :: rest)
    if d.1 = RuneError ∧ d.2 = 1 then none else some d.2

/-- First loop of `unquoteBytes`: the length of the longest prefix that needs
no unquoting. -/
def plainLen : Nat → List Nat → Nat
  | _, [] => 0
  | 0, _ :: _ => 0
  | fuel + 1, c :: rest =>
    match plainStep c rest with
    | none => 0
    | some n => n + plainLen fuel ((c :: rest).drop n)

/-- One iteration of the second loop of `unquoteBytes`, at the byte `c`
followed by `rest`: the bytes written and the input left, `none` when the
literal is malformed. An escape is resolved, a surrogate pair of escapes is
joined, any other rune is rewritten in well-formed UTF-8. -/
def unquoteStep (c : Nat) (rest : List Nat) : Option (List Nat × List Nat) :=
  if c = 0x5C then
    match rest with
    | [] => none
    | e :: rest1 =>
      if e = 0x22 ∨ e = 0x5C ∨ e = 0x2F ∨ e = 0x27 then some ([e], rest1)
      else if e = 0x62 then some ([0x08], rest1)
      else if e = 0x66 then some ([0x0C], rest1)
      else if e = 0x6E then some ([0x0A], rest1)
      else if e = 0x72 then some ([0x0D], rest1)
      else if e = 0x74 then some ([0x09], rest1)
      else if e = 0x75 then
        match getu4 (c :: rest) with
        | none => none
        | some rr =>
          let after := (c :: rest).drop 6
          if isSurrogate rr then
            let dec := utf16DecodeRune rr (getu4 after)
            if dec ≠ 0xFFFD then some (encodeRune dec, after.drop 6)
            else some (encodeRune 0xFFFD, after)
          else some (encodeRune rr, after)
      else none
  else if c = 0x22 ∨ c < 0x20 then none
  else if c < 0x80 then some ([c], rest)
  else
    let d := decodeRune (c :: rest)
    some (encodeRune d.1, (c :: rest).drop d.2)

/-- Second loop of `unquoteBytes`: the unquoted bytes of the remaining input.
Every iteration advances by a byte at least, so the length of the input is
fuel enough (`unquoteLoop_fuel`). -/
def unquoteLoop : Nat → List Nat → Option (List Nat)
  | _, [] => some []
  | 0, _ :: _ => none
  | fuel + 1, c :: rest =>
    match unquoteStep c rest with
    | none => none
    | some (out, left) => (unquoteLoop fuel left).map (fun t => out ++ t)

/-- Function `unquoteBytes` on the bytes between the quotes of a literal: the
literal itself when nothing in it needs unquoting, else the plain prefix
followed by the unquoted remainder. -/
def unquoteBytes (s : List Nat) : Option (List Nat) :=
  let r := plainLen s.length s
  if r = s.length then some s
  else (unquoteLoop s.length (s.drop r)).map (fun t => s.take r ++ t)

/-- Method `decodeState.object` for a destination of kind map with string
keys and string elements: every member is stored under its unquoted key; a
string value is stored unquoted, `null` leaves the fresh element empty, any
other value leaves it empty and saves an `UnmarshalTypeError` (the first saved
error is kept). A literal that does not unquote is the decoder's phase panic. -/
def decodeMembers : List (List Nat × JValue) → StrMap → Option JsonError →
    Except Panic (StrMap × Option JsonError)
  | [], m, err => .ok (m, err)
  | (key, v) :: more, m, err =>
    match unquoteBytes key with
    | none => .error Panic.decoderOutOfSync
    | some k =>
      match v with
      | JValue.string raw =>
        match unquoteBytes raw with
        | none => .error Panic.decoderOutOfSync
        | some str => decodeMembers more (m.insert k str) err
      | JValue.null => decodeMembers more (m.insert k []) err
      | _ =>
        decodeMembers more (m.insert k [])
          (match err with
            | none => some JsonError.UnmarshalTypeError
            | some e => some e)

/-- Library function `json.Unmarshal(data, &m)` for `m` of type
`map[string]string`: the new value of `m` and the returned error. Invalid
input is a `SyntaxError` and leaves `m` alone; `null` sets `m` to nil; an
object is decoded into `m`, allocated first if nil and otherwise kept with
its entries; any other value is an `UnmarshalTypeError`. -/
def jsonUnmarshal (data : List Nat) (m : GoMap) : Except Panic (GoMap × Option JsonError) :=
  match parseJSON data with
  | none => .ok (m, some JsonError.SyntaxError)
  | some JValue.null => .ok (none, none)
  | some (JValue.object members) =>
    (decodeMembers members (m.getD ∅) none).map (fun r => (some r.1, r.2))
  | some (JValue.string raw) =>
    match unquoteBytes raw with
    | none => .error Panic.decoderOutOfSync
    | some _ => .ok (m, some JsonError.UnmarshalTypeError)
  | some _ => .ok (m, some JsonError.UnmarshalTypeError)

/-! ## carrier/carrier.go -/

/-- Type `Carrier`: `struct { Carrier propagation.MapCarrier }`; the field is
written `carrier` here, the type keeping the name `Carrier`. -/
structure Carrier where
  carrier : MapCarrier
deriving DecidableEq

/-- Method `ensureCarrierNotNil`: allocates the map when it is nil. -/
def Carrier.ensureCarrierNotNil (d : Carrier) : Carrier :=
  match d.carrier with
  | none => { d with carrier := some ∅ }
  | some _ => d

/-- Method `(*Carrier).Get`: the value read and the receiver afterwards. -/
def Carrier.Get (d : Carrier) (s : GoString) : GoString × Carrier :=
  let d := d.ensureCarrierNotNil
  (MapCarrier.Get d.carrier s, d)

/-- Method `(*Carrier).Set`: the receiver afterwards, or the panic of a write
to a nil map. -/
def Carrier.Set (d : Carrier) (key value : GoString) : Except Panic Carrier :=
  let d := d.ensureCarrierNotNil
  (MapCarrier.Set d.carrier key value).map (fun m => { d with carrier := m })

/-- Method `(*Carrier).Keys`: the slice returned and the receiver afterwards. -/
def Carrier.Keys (d : Carrier) : StrSlice × Carrier :=
  let d := d.ensureCarrierNotNil
  (MapCarrier.Keys d.carrier, d)

/-- Method `(Carrier).MarshalJSON`. The receiver is a value: the map is
allocated in the method's copy only, and the second component, the caller's
Carrier after the call, is the Carrier the method was called on. -/
def Carrier.MarshalJSON (d : Carrier) : (List Nat × Option JsonError) × Carrier :=
  let copy := d.ensureCarrierNotNil
  (jsonMarshal copy.carrier, d)

/-- Method `(*Carrier).UnmarshalJSON`: the error returned and the receiver
afterwards. -/
def Carrier.UnmarshalJSON (d : Carrier) (bz : List Nat) : Except Panic (Option JsonError × Carrier) :=
  (jsonUnmarshal bz d.carrier).map (fun r => (r.2, { d with carrier := r.1 }))

/-- Method `(*Carrier).ClearContext`: the receiver afterwards (the method
returns the receiver itself). -/
def Carrier.ClearContext (d : Carrier) : Carrier :=
  let d := { d with carrier := none }
  d.ensureCarrierNotNil

/-- Method `(*Carrier).GetTraceParent`. -/
def Carrier.GetTraceParent (d : Carrier) : GoString × Carrier :=
  d.Get (asciiBytes "traceparent")

/-! ## pulsar/producer.go and pulsar/consumer.go -/

/-- Library type `pulsar.ProducerMessage`, of which the adapter reads and
writes the field `Properties` only. -/
structure ProducerMessage where
  Properties : GoMap
deriving DecidableEq

/-- Type `ProducerMessageCarrier`: `struct { msg *pulsar.ProducerMessage }`;
`none` is the nil pointer. Methods return the pointed-to message's new state
inside the carrier. -/
structure ProducerMessageCarrier where
  msg : Option ProducerMessage
deriving DecidableEq

/-- Function `NewProducerMessageCarrier`. -/
def NewProducerMessageCarrier (msg : Option ProducerMessage) : ProducerMessageCarrier :=
  { msg := msg }

/-- Method `ProducerMessageCarrier.Get`. -/
def ProducerMessageCarrier.Get (c : ProducerMessageCarrier) (key : GoString) :
    Except Panic (GoString × ProducerMessageCarrier) :=
  match c.msg with
  | none => .error Panic.nilDereference
  | some msg =>
    let properties := msg.Properties
    let properties := match properties with
      | none => some (∅ : StrMap)
      | some p => some p
    .ok (mapIndex properties key, c)

/-- Method `ProducerMessageCarrier.Set`: a nil `Properties` is replaced by a
new map attached to the message; the write goes to the map the message holds. -/
def ProducerMessageCarrier.Set (c : ProducerMessageCarrier) (key val : GoString) :
    Except Panic ProducerMessageCarrier :=
  match c.msg with
  | none => .error Panic.nilDereference
  | some msg =>
    let properties := msg.Properties
    let msg := match properties with
      | none => { msg with Properties := some (∅ : StrMap) }
      | some _ => msg
    (mapAssign msg.Properties key val).map
      (fun p => { c with msg := some { msg with Properties := p } })

/-- The loop shared by both `Keys` methods: `out := make([]string, len(properties))`
and then `out = append(out, properties[key])` for each `key` of the range. -/
def keysLoop (properties : GoMap) : List GoString :=
  (mapRange properties).foldl (fun out key => out ++ [mapIndex properties key])
    (List.replicate (mapLen properties) [])

/-- Method `ProducerMessageCarrier.Keys`. -/
def ProducerMessageCarrier.Keys (c : ProducerMessageCarrier) :
    Except Panic (StrSlice × ProducerMessageCarrier) :=
  match c.msg with
  | none => .error Panic.nilDereference
  | some msg =>
    let properties := msg.Properties
    if mapLen properties = 0 then .ok (some [], c)
    else .ok (some (keysLoop properties), c)

/-- Interface `pulsar.Message` as the adapter uses it: the map its method
`Properties()` returns. The method returns the message's own map (as the
client library's message and the fake of the tests do), so a write to a
non-nil result is a write to the message. -/
structure Message where
  Properties : GoMap
deriving DecidableEq

/-- Type `ConsumerMessageCarrier`: `struct { msg pulsar.Message }`; `none`
is the nil interface. -/
structure ConsumerMessageCarrier where
  msg : Option Message
deriving DecidableEq

/-- Function `NewConsumerMessageCarrier`. -/
def NewConsumerMessageCarrier (msg : Option Message) : ConsumerMessageCarrier :=
  { msg := msg }

/-- Method `ConsumerMessageCarrier.Get`. -/
def ConsumerMessageCarrier.Get (c : ConsumerMessageCarrier) (key : GoString) :
    Except Panic (GoString × ConsumerMessageCarrier) :=
  match c.msg with
  | none => .error Panic.nilDereference
  | some msg =>
    let properties := msg.Properties
    let properties := match properties with
      | none => some (∅ : StrMap)
      | some p => some p
    .ok (mapIndex properties key, c)

/-- Method `ConsumerMessageCarrier.Set`: a nil result of `Properties()` is
replaced by a local map that is written and dropped; a non-nil result is the
message's map and the write reaches the message. -/
def ConsumerMessageCarrier.Set (c : ConsumerMessageCarrier) (key val : GoString) :
    Except Panic ConsumerMessageCarrier :=
  match c.msg with
  | none => .error Panic.nilDereference
  | some msg =>
    match msg.Properties with
    | none => (mapAssign (some (∅ : StrMap)) key val).map (fun _ => c)
    | some p =>
      (mapAssign (some p) key val).map
        (fun q => { c with msg := some { msg with Properties := q } })

/-- Method `ConsumerMessageCarrier.Keys`. -/
def ConsumerMessageCarrier.Keys (c : ConsumerMessageCarrier) :
    Except Panic (StrSlice × ConsumerMessageCarrier) :=
  match c.msg with
  | none => .error Panic.nilDereference
  | some msg =>
    let properties := msg.Properties
    if mapLen properties = 0 then .ok (some [], c)
    else .ok (some (keysLoop properties), c)

/-! ## Calls on a Carrier and what a caller observes -/

/-- A call of one of the methods of `*Carrier`, with its arguments. -/
inductive CarrierCall where
  | Get (key : GoString)
  | Set (key value : GoString)
  | Keys
  | MarshalJSON
  | UnmarshalJSON (bz : List Nat)
  | ClearContext
  | GetTraceParent

/-- What a call hands back to its caller. -/
inductive CarrierReply where
  | str (s : GoString)
  | slice (s : StrSlice)
  | bytes (b : List Nat) (err : Option JsonError)
  | error (err : Option JsonError)
  | done
  | panicked (p : Panic)
deriving DecidableEq

/-- Performs one call: the reply and the Carrier afterwards. A panicking call
leaves the Carrier as it was. -/
def CarrierCall.run (call : CarrierCall) (d : Carrier) : CarrierReply × Carrier :=
  match call with
  | CarrierCall.Get key => ((CarrierReply.str (d.Get key).1), (d.Get key).2)
  | CarrierCall.Set key value =>
    match d.Set key value with
    | .ok d1 => (CarrierReply.done, d1)
    | .error p => (CarrierReply.panicked p, d)
  | CarrierCall.Keys => (CarrierReply.slice d.Keys.1, d.Keys.2)
  | CarrierCall.MarshalJSON => (CarrierReply.bytes d.MarshalJSON.1.1 d.MarshalJSON.1.2, d.MarshalJSON.2)
  | CarrierCall.UnmarshalJSON bz =>
    match d.UnmarshalJSON bz with
    | .ok r => (CarrierReply.error r.1, r.2)
    | .error p => (CarrierReply.panicked p, d)
  | CarrierCall.ClearContext => (CarrierReply.done, d.ClearContext)
  | CarrierCall.GetTraceParent => (CarrierReply.str d.GetTraceParent.1, d.GetTraceParent.2)

/-- Performs the calls one after the other and collects the replies. -/
def runCalls : List CarrierCall → Carrier → List CarrierReply
  | [], _ => []
  | call :: more, d => (call.run d).1 :: runCalls more (call.run d).2

/-! ## The carrier interface and the code that uses it -/

/-- Code that works on a `propagation.TextMapCarrier` through the three methods
of the interface and nothing else: it returns, or calls `Get`, `Set` or `Keys`
and goes on with the answer. -/
inductive CarrierProg (α : Type) where
  | done (a : α)
  | Get (key : GoString) (next : GoString → CarrierProg α)
  | Set (key value : GoString) (next : CarrierProg α)
  | Keys (next : StrSlice → CarrierProg α)

/-- Runs one piece of code after another. -/
def CarrierProg.bind {α β : Type} : CarrierProg α → (α → CarrierProg β) → CarrierProg β
  | CarrierProg.done a, f => f a
  | CarrierProg.Get key next, f => CarrierProg.Get key (fun s => (next s).bind f)
  | CarrierProg.Set key value next, f => CarrierProg.Set key value (next.bind f)
  | CarrierProg.Keys next, f => CarrierProg.Keys (fun ks => (next ks).bind f)

/-- Runs the code with a `*Carrier` as its carrier. -/
def CarrierProg.runCarrier {α : Type} : CarrierProg α → Carrier → Except Panic (α × Carrier)
  | CarrierProg.done a, d => .ok (a, d)
  | CarrierProg.Get key next, d => (next (d.Get key).1).runCarrier (d.Get key).2
  | CarrierProg.Set key value next, d =>
    match d.Set key value with
    | .error p => .error p
    | .ok d1 => next.runCarrier d1
  | CarrierProg.Keys next, d => (next d.Keys.1).runCarrier d.Keys.2

/-- Runs the code with a `ProducerMessageCarrier` as its carrier. -/
def CarrierProg.runProducer {α : Type} :
    CarrierProg α → ProducerMessageCarrier → Except Panic (α × ProducerMessageCarrier)
  | CarrierProg.done a, c => .ok (a, c)
  | CarrierProg.Get key next, c =>
    match c.Get key with
    | .error p => .error p
    | .ok r => (next r.1).runProducer r.2
  | CarrierProg.Set key value next, c =>
    match c.Set key value with
    | .error p => .error p
    | .ok c1 => next.runProducer c1
  | CarrierProg.Keys next, c =>
    match c.Keys with
    | .error p => .error p
    | .ok r => (next r.1).runProducer r.2

/-- Runs the code with a `ConsumerMessageCarrier` as its carrier. -/
def CarrierProg.runConsumer {α : Type} :
    CarrierProg α → ConsumerMessageCarrier → Except Panic (α × ConsumerMessageCarrier)
  | CarrierProg.done a, c => .ok (a, c)
  | CarrierProg.Get key next, c =>
    match c.Get key with
    | .error p => .error p
    | .ok r => (next r.1).runConsumer r.2
  | CarrierProg.Set key value next, c =>
    match c.Set key value with
    | .error p => .error p
    | .ok c1 => next.runConsumer c1
  | CarrierProg.Keys next, c =>
    match c.Keys with
    | .error p => .error p
    | .ok r => (next r.1).runConsumer r.2

/-! ## go.opentelemetry.io/otel/trace: span contexts and trace states -/

/-- Library type `trace.SpanContext`: `TraceID` is a `[16]byte`, `SpanID` a
`[8]byte`, `TraceFlags` a byte, and `TraceState` the list of members, key and
value, of a `trace.TraceState`. -/
structure SpanContext where
  TraceID : List Nat
  SpanID : List Nat
  TraceFlags : Nat
  TraceState : List (GoString × GoString)
  Remote : Bool
deriving DecidableEq

/-- The zero value `trace.SpanContext{}`. -/
def SpanContext.zero : SpanContext :=
  { TraceID := List.replicate 16 0, SpanID := List.replicate 8 0, TraceFlags := 0,
    TraceState := [], Remote := false }

/-- Library method `SpanContext.IsValid`: neither the trace id nor the span id
is all zero. -/
def SpanContext.IsValid (sc : SpanContext) : Bool :=
  decide (sc.TraceID ≠ List.replicate 16 0) && decide (sc.SpanID ≠ List.replicate 8 0)

/-- A `context.Context` as far as tracing reads it: the span context of the
span it carries, if it carries one. -/
structure Context where
  span : Option SpanContext
deriving DecidableEq

/-- Library function `context.Background`. -/
def Background : Context := { span := none }

/-- Library function `trace.SpanContextFromContext`: the zero span context for
a context without a span. -/
def SpanContextFromContext (ctx : Context) : SpanContext :=
  ctx.span.getD SpanContext.zero

/-- Library function `trace.ContextWithSpanContext`. -/
def ContextWithSpanContext (_parent : Context) (sc : SpanContext) : Context :=
  { span := some sc }

/-- Library function `trace.ContextWithRemoteSpanContext`. -/
def ContextWithRemoteSpanContext (parent : Context) (rsc : SpanContext) : Context :=
  ContextWithSpanContext parent { rsc with Remote := true }

/-- Library function `strings.Cut` for a separator of one byte: the text before
the first separator, the text after it, and whether there is one. -/
def cut (sep : Nat) : List Nat → List Nat × List Nat × Bool
  | [] => ([], [], false)
  | c :: rest =>
    if c = sep then ([], rest, true)
    else ((c :: (cut sep rest).1), (cut sep rest).2.1, (cut sep rest).2.2)

/-- Library function `strings.TrimLeft(s, " \t")`. -/
def trimLeftBlank : List Nat → List Nat
  | [] => []
  | c :: rest => if c = 0x20 ∨ c = 0x09 then trimLeftBlank rest else c :: rest

/-- Library function `strings.TrimRight(s, " \t")`. -/
def trimRightBlank (s : List Nat) : List Nat :=
  (trimLeftBlank s.reverse).reverse

/-- Function `isAlphaNum` of `tracestate.go`: a lower-case letter or a digit. -/
def isAlphaNum (c : Nat) : Bool :=
  decide ((0x61 ≤ c ∧ c ≤ 0x7A) ∨ (0x30 ≤ c ∧ c ≤ 0x39))

/-- Function `checkKeyRemain`: every rune `v` of the text, read as `range`
reads a string, has `byte(v)` a lower-case letter or digit or is one of
`_`, `-`, `*`, `/`. -/
def checkKeyRemainLoop : Nat → List Nat → Bool
  | _, [] => true
  | 0, _ :: _ => false
  | fuel + 1, c :: rest =>
    let d := decodeRune (c :: rest)
    if isAlphaNum (d.1 % 256) ∨ d.1 = 0x5F ∨ d.1 = 0x2D ∨ d.1 = 0x2A ∨ d.1 = 0x2F then
      checkKeyRemainLoop fuel ((c :: rest).drop d.2)
    else false

/-- Function `checkKeyRemain` with the fuel its loop needs. -/
def checkKeyRemain (key : List Nat) : Bool := checkKeyRemainLoop key.length key

/-- Function `checkKeyPart`: a lower-case letter and at most `n` further
characters of a key. -/
def checkKeyPart (key : List Nat) (n : Nat) : Bool :=
  match key with
  | [] => false
  | first :: rest =>
    decide (rest.length ≤ n) && decide (0x61 ≤ first ∧ first ≤ 0x7A) && checkKeyRemain rest

/-- Function `checkKeyTenant`: a lower-case letter or digit and at most `n`
further characters of a key. -/
def checkKeyTenant (key : List Nat) (n : Nat) : Bool :=
  match key with
  | [] => false
  | first :: rest => isAlphaNum first && decide (rest.length ≤ n) && checkKeyRemain rest

/-- Function `checkKey`: a simple key, or a tenant and a system separated by
`@`. -/
def checkKey (key : List Nat) : Bool :=
  if (cut 0x40 key).2.2 then
    checkKeyTenant (cut 0x40 key).1 240 && checkKeyPart (cut 0x40 key).2.1 13
  else checkKeyPart key 255

/-- Function `checkValueChar`: printable ASCII other than the comma and the
equals sign. -/
def checkValueChar (v : Nat) : Bool :=
  decide (0x20 ≤ v ∧ v ≤ 0x7E ∧ v ≠ 0x2C ∧ v ≠ 0x3D)

/-- Function `checkValueLast`: as `checkValueChar`, and no space. -/
def checkValueLast (v : Nat) : Bool :=
  decide (0x21 ≤ v ∧ v ≤ 0x7E ∧ v ≠ 0x2C ∧ v ≠ 0x3D)

/-- Function `checkValue`: one to 256 characters, the last of them no space. -/
def checkValue (val : List Nat) : Bool :=
  match val.reverse with
  | [] => false
  | last :: front =>
    decide (val.length ≤ 256) && front.all checkValueChar && checkValueLast last

/-- Function `newMember`: the member of a key and a value that pass the checks. -/
def newMember (key value : GoString) : Option (GoString × GoString) :=
  if checkKey key && checkValue value then some (key, value) else none

/-- Function `parseMember`: key and value around the first equals sign, the key
without leading and the value without trailing blanks. -/
def parseMember (m : List Nat) : Option (GoString × GoString) :=
  if (cut 0x3D m).2.2 then
    newMember (trimLeftBlank (cut 0x3D m).1) (trimRightBlank (cut 0x3D m).2.1)
  else none

/-- Constant `maxListMembers`. -/
def maxListMembers : Nat := 32

/-- Loop of `ParseTraceState`: the members between the commas of what is left of
the header, after the members read so far; empty texts between commas are
skipped, a malformed member, a repeated key or a 33rd member is an error. -/
def parseTraceStateLoop : Nat → List Nat → List (GoString × GoString) →
    Option (List (GoString × GoString))
  | _, [], members => some members
  | 0, _ :: _, _ => none
  | fuel + 1, c :: rest, members =>
    let memberStr := (cut 0x2C (c :: rest)).1
    let ts := (cut 0x2C (c :: rest)).2.1
    if memberStr = [] then parseTraceStateLoop fuel ts members
    else
      match parseMember memberStr with
      | none => none
      | some m =>
        if m.1 ∈ members.map (fun x => x.1) then none
        else if maxListMembers < (members ++ [m]).length then none
        else parseTraceStateLoop fuel ts (members ++ [m])

/-- Library function `trace.ParseTraceState`; `none` is its error. -/
def ParseTraceState (ts : GoString) : Option (List (GoString × GoString)) :=
  parseTraceStateLoop ts.length ts []

/-- Library method `TraceState.String`: the members as `key=value`, joined by
commas. -/
def traceStateString : List (GoString × GoString) → GoString
  | [] => []
  | [m] => m.1 ++ [0x3D] ++ m.2
  | m :: m2 :: more => m.1 ++ [0x3D] ++ m.2 ++ [0x2C] ++ traceStateString (m2 :: more)

/-- The members of a `trace.TraceState` as its constructors leave them: at most
`maxListMembers` members that pass `newMember`, with distinct keys. -/
def traceStateOk (members : List (GoString × GoString)) : Bool :=
  decide (members.length ≤ maxListMembers) &&
    members.all (fun m => checkKey m.1 && checkValue m.2) &&
    decide ((members.map (fun m => m.1)).Nodup)

/-! ## encoding/hex -/

/-- Library function `hex.Encode`: two lower-case digits for each byte. -/
def hexEncode : List Nat → List Nat
  | [] => []
  | b :: rest => hexDigit (b / 16) :: hexDigit (b % 16) :: hexEncode rest

/-- Table `reverseHexTable`: the value of a hexadecimal digit of either case. -/
def fromHexChar (c : Nat) : Option Nat :=
  if 0x30 ≤ c ∧ c ≤ 0x39 then some (c - 0x30)
  else if 0x61 ≤ c ∧ c ≤ 0x66 then some (c - 0x61 + 10)
  else if 0x41 ≤ c ∧ c ≤ 0x46 then some (c - 0x41 + 10)
  else none

/-- Library function `hex.Decode`: the bytes of a text of hexadecimal digits;
`none` for a digit that is none or for an odd length. -/
def hexDecode : List Nat → Option (List Nat)
  | [] => some []
  | [_] => none
  | p :: q :: rest =>
    match fromHexChar p, fromHexChar q, hexDecode rest with
    | some a, some b, some t => some ((a * 16 + b) :: t)
    | _, _, _ => none

/-! ## go.opentelemetry.io/otel/propagation: propagators -/

/-- Interface `propagation.TextMapPropagator`: `Inject` and `Extract` as code
over the carrier they are given. -/
structure TextMapPropagator where
  Inject : Context → CarrierProg Unit
  Extract : Context → CarrierProg Context

/-- Header name `traceparent`. -/
def traceparentHeader : GoString := asciiBytes "traceparent"

/-- Header name `tracestate`. -/
def tracestateHeader : GoString := asciiBytes "tracestate"

/-- Function `upperHex`: the text has an upper-case hexadecimal letter. -/
def upperHex (v : List Nat) : Bool := v.any (fun c => decide (0x41 ≤ c ∧ c ≤ 0x46))

/-- Function `extractPart`: the next part of the header up to the hyphen, of
`n` lower-case hexadecimal digits, decoded; with it the header that is left. -/
def extractPart (h : GoString) (n : Nat) : Option (List Nat) × GoString :=
  let part := (cut 0x2D h).1
  let left := (cut 0x2D h).2.1
  if part.length ≠ n ∨ upperHex part then (none, left)
  else
    match hexDecode part with
    | none => (none, left)
    | some p => if p.length ≠ n / 2 then (none, left) else (some p, left)

/-- The part of `TraceContext.extract` that reads the `traceparent` header:
version, trace id, span id and flags, or `none` where the method returns the
zero span context. -/
def parseTraceParent (h : GoString) : Option (List Nat × List Nat × Nat) :=
  match extractPart h 2 with
  | (none, _) => none
  | (some ver, h1) =>
    let version := ver.headD 0
    if 254 < version then none
    else
      match extractPart h1 32 with
      | (none, _) => none
      | (some traceID, h2) =>
        match extractPart h2 16 with
        | (none, _) => none
        | (some spanID, h3) =>
          match extractPart h3 2 with
          | (none, _) => none
          | (some opts, h4) =>
            if version = 0 ∧ (h4 ≠ [] ∨ 2 < opts.headD 0) then none
            else some (traceID, spanID, opts.headD 0)

/-- Method `TraceContext.extract`: the span context the two headers of the
carrier describe, or the zero span context. -/
def TraceContext.extract : CarrierProg SpanContext :=
  CarrierProg.Get traceparentHeader fun h =>
    if h = [] then CarrierProg.done SpanContext.zero
    else
      match parseTraceParent h with
      | none => CarrierProg.done SpanContext.zero
      | some parts =>
        CarrierProg.Get tracestateHeader fun ts =>
          let sc : SpanContext :=
            { TraceID := parts.1, SpanID := parts.2.1, TraceFlags := parts.2.2 % 2,
              TraceState := (ParseTraceState ts).getD [], Remote := true }
          if sc.IsValid then CarrierProg.done sc else CarrierProg.done SpanContext.zero

/-- Method `TraceContext.Inject`: nothing for an invalid span context; else the
header `tracestate`, if the trace state is not empty, and the header
`traceparent` of version, trace id, span id and sampling flag. -/
def TraceContext.Inject (ctx : Context) : CarrierProg Unit :=
  let sc := SpanContextFromContext ctx
  if sc.IsValid then
    let ts := traceStateString sc.TraceState
    let flags := sc.TraceFlags % 2
    let header := [0x30, 0x30] ++ [0x2D] ++ hexEncode sc.TraceID ++ [0x2D] ++ hexEncode sc.SpanID
      ++ [0x2D] ++ hexEncode [flags]
    if ts ≠ [] then
      CarrierProg.Set tracestateHeader ts
        (CarrierProg.Set traceparentHeader header (CarrierProg.done ()))
    else CarrierProg.Set traceparentHeader header (CarrierProg.done ())
  else CarrierProg.done ()

/-- Method `TraceContext.Extract`: the context with the extracted span context
as its remote span context, or the context itself if there is none. -/
def TraceContext.Extract (ctx : Context) : CarrierProg Context :=
  TraceContext.extract.bind fun sc =>
    if sc.IsValid then CarrierProg.done (ContextWithRemoteSpanContext ctx sc)
    else CarrierProg.done ctx

/-- Library value `propagation.TraceContext{}`. -/
def TraceContext : TextMapPropagator :=
  { Inject := TraceContext.Inject, Extract := TraceContext.Extract }

/-- The propagator `otel.GetTextMapPropagator()` returns while none is set up:
it injects and extracts nothing. -/
def noopTextMapPropagator : TextMapPropagator :=
  { Inject := fun _ => CarrierProg.done (), Extract := fun ctx => CarrierProg.done ctx }

/-- Library function `propagation.NewCompositeTextMapPropagator`: each
propagator in turn, `Extract` handing its context to the next. -/
def NewCompositeTextMapPropagator (ps : List TextMapPropagator) : TextMapPropagator :=
  { Inject := fun ctx =>
      ps.foldl (fun prog p => prog.bind (fun _ => p.Inject ctx)) (CarrierProg.done ())
    Extract := fun ctx =>
      ps.foldl (fun prog p => prog.bind (fun c => p.Extract c)) (CarrierProg.done ctx) }

/-! ## carrier/carrier.go: propagation -/

/-- Function `getPropagator`; `global` is what `otel.GetTextMapPropagator()`
returns. -/
def getPropagator (global : TextMapPropagator) : TextMapPropagator :=
  NewCompositeTextMapPropagator [TraceContext, global]

/-- Method `(*Carrier).PropagateIntoContext`: the new context and the receiver
afterwards. -/
def Carrier.PropagateIntoContext (global : TextMapPropagator) (d : Carrier) (ctx : Context) :
    Except Panic (Context × Carrier) :=
  ((getPropagator global).Extract ctx).runCarrier d

/-- Method `(*Carrier).InjectContext`: the receiver afterwards. -/
def Carrier.InjectContext (global : TextMapPropagator) (d : Carrier) (ctx : Context) :
    Except Panic Carrier :=
  (((getPropagator global).Inject ctx).runCarrier d).map (fun r => r.2)

/-- Function `NewCarrierFromContext`. -/
def NewCarrierFromContext (global : TextMapPropagator) (ctx : Context) : Except Panic Carrier :=
  Carrier.InjectContext global { carrier := none } ctx

/-! ## pulsar/pulsar_test.go: the span context of the test -/

/-- The trace state `a=b,c=d` of `TestPulsarCarrier`. -/
def testTraceState : List (GoString × GoString) :=
  [(asciiBytes "a", asciiBytes "b"), (asciiBytes "c", asciiBytes "d")]

/-- The span context of `srcCtx` in `TestPulsarCarrier`: trace id of sixteen
bytes 0x11, span id of eight bytes 0x22, no flags, the trace state `a=b,c=d`. -/
def testSpanContext : SpanContext :=
  { TraceID := List.replicate 16 0x11, SpanID := List.replicate 8 0x22, TraceFlags := 0,
    TraceState := testTraceState, Remote := false }

/-! ## Predicates used in the proofs -/

/-- The raw member the parser delimits for an entry the encoder wrote. -/
def rawMember (kv : Entry) : List Nat × JValue :=
  (appendStringLoop kv.1.length kv.1, JValue.string (appendStringLoop kv.2.length kv.2))

/-- A well-formed rune of two to four bytes at the head of the input: `chunk`
holds its bytes and `tail` the input after it. -/
structure RuneChunk (inp : List Nat) (chunk tail : List Nat) : Prop where
  split : inp = chunk ++ tail
  size : (decodeRune inp).2 = chunk.length
  two : 2 ≤ chunk.length
  high : ∀ b ∈ chunk, 0x80 ≤ b
  encode : encodeRune (decodeRune inp).1 = chunk
  stable : ∀ t, decodeRune (chunk ++ t) = decodeRune inp
  notSurrogate : isSurrogate (decodeRune inp).1 = false
  notAscii : 0x80 ≤ (decodeRune inp).1

/-- The bytes the scanner accepts between the quotes of a string literal:
bytes that are no quote, backslash or control character, escapes of one
letter, and escapes of a code unit in four hexadecimal digits. -/
inductive Literal : List Nat → Prop where
  | nil : Literal []
  | plain (c : Nat) (t : List Nat) : c ≠ 0x22 → c ≠ 0x5C → ¬ c < 0x20 → Literal t →
      Literal (c :: t)
  | escape (e : Nat) (t : List Nat) :
      (e = 0x62 ∨ e = 0x66 ∨ e = 0x6E ∨ e = 0x72 ∨ e = 0x74 ∨ e = 0x5C ∨ e = 0x2F ∨ e = 0x22) →
      Literal t → Literal (0x5C :: e :: t)
  | unit (h1 h2 h3 h4 : Nat) (t : List Nat) :
      isHex h1 = true → isHex h2 = true → isHex h3 = true → isHex h4 = true →
      Literal t → Literal (0x5C :: 0x75 :: h1 :: h2 :: h3 :: h4 :: t)

/-- The members a destination of kind map decodes: every key is a literal and
so is every value that is a string. -/
def MembersScanned (ms : List (List Nat × JValue)) : Prop :=
  ∀ kv ∈ ms, Literal kv.1 ∧ ∀ raw, kv.2 = JValue.string raw → Literal raw

/-- The part of a parsed value a destination of kind map decodes is made of
literals. -/
def ValueScanned : JValue → Prop
  | JValue.string raw => Literal raw
  | JValue.object ms => MembersScanned ms
  | _ => True

/-- The propagator is one whose `Inject` of the context, run on a Carrier right
after `TraceContext.Inject` of the same context, does not panic and leaves the
values under `traceparent` and `tracestate` as they are. -/
def InjectKeepsTraceHeaders (p : TextMapPropagator) (ctx : Context) : Prop :=
  ∀ d dT : Carrier, (TraceContext.Inject ctx).runCarrier d = .ok ((), dT) →
    ∃ d1, (p.Inject ctx).runCarrier dT = .ok ((), d1) ∧
      (d1.Get traceparentHeader).1 = (dT.Get traceparentHeader).1 ∧
      (d1.Get tracestateHeader).1 = (dT.Get tracestateHeader).1

/-- The propagator is one whose `Extract`, run on a Carrier right after
`TraceContext.Extract` into the context and given the context that returned,
does not panic and returns a context whose span context has the same trace id,
span id and trace state. -/
def ExtractKeepsSpanContext (p : TextMapPropagator) (ctx : Context) : Prop :=
  ∀ (d : Carrier) (cT : Context) (dT : Carrier),
    (TraceContext.Extract ctx).runCarrier d = .ok (cT, dT) →
    ∃ c1 d1, (p.Extract cT).runCarrier dT = .ok (c1, d1) ∧
      (SpanContextFromContext c1).TraceID = (SpanContextFromContext cT).TraceID ∧
      (SpanContextFromContext c1).SpanID = (SpanContextFromContext cT).SpanID ∧
      (SpanContextFromContext c1).TraceState = (SpanContextFromContext cT).TraceState


/-! ## Helper lemmas: maps and carriers -/

theorem foldl_append_singleton (l init : List GoString) :
    l.foldl (fun keys k => keys ++ [k]) init = init ++ l := by
  induction l generalizing init with
  | nil => simp
  | cons a t ih => simp [ih]

theorem MapCarrier_Keys_some (m : StrMap) : MapCarrier.Keys (some m) = some m.keys := by
  simp [MapCarrier.Keys, mapRange, foldl_append_singleton]

theorem ensure_carrier (d : Carrier) :
    d.ensureCarrierNotNil = ⟨some (d.carrier.getD ∅)⟩ := by
  cases d with
  | mk c => cases c <;> rfl

theorem Carrier_Get_fst (d : Carrier) (k : GoString) :
    (d.Get k).1 = ((d.carrier.getD ∅).lookup k).getD [] := by
  simp [Carrier.Get, MapCarrier.Get, mapIndex, ensure_carrier]

theorem Carrier_Get_snd (d : Carrier) (k : GoString) :
    (d.Get k).2 = ⟨some (d.carrier.getD ∅)⟩ := by
  simp [Carrier.Get, ensure_carrier]

theorem Carrier_Set_eq (d : Carrier) (k v : GoString) :
    d.Set k v = .ok ⟨some ((d.carrier.getD ∅).insert k v)⟩ := by
  cases d with
  | mk c => cases c <;> rfl

theorem Carrier_Keys_eq (d : Carrier) :
    d.Keys = (some (d.carrier.getD ∅).keys, ⟨some (d.carrier.getD ∅)⟩) := by
  simp [Carrier.Keys, ensure_carrier, MapCarrier_Keys_some]

theorem Carrier_MarshalJSON_eq (d : Carrier) :
    d.MarshalJSON = (jsonMarshal (some (d.carrier.getD ∅)), d) := by
  simp [Carrier.MarshalJSON, ensure_carrier]

theorem Carrier_ClearContext_eq (d : Carrier) : d.ClearContext = ⟨some ∅⟩ := rfl

/-- The result of `json.Unmarshal` depends on the destination map only through
its entries, except that an input that is no object hands a nil map back. -/
theorem jsonUnmarshal_nil_vs_empty (bz : List Nat) :
    (jsonUnmarshal bz none).map (fun r => (r.1.getD ∅, r.2))
      = (jsonUnmarshal bz (some ∅)).map (fun r => (r.1.getD ∅, r.2)) := by
  unfold jsonUnmarshal
  cases parseJSON bz with
  | none => rfl
  | some v =>
    cases v with
    | string raw =>
      simp only []
      cases unquoteBytes raw <;> rfl
    | _ => rfl

/-- Two Carriers with the same entries, one possibly nil and the other
allocated, answer a call alike and have the same entries afterwards. -/
theorem run_same_entries (call : CarrierCall) (d1 d2 : Carrier)
    (h : d1.carrier.getD ∅ = d2.carrier.getD ∅) :
    (call.run d1).1 = (call.run d2).1 ∧
      (call.run d1).2.carrier.getD ∅ = (call.run d2).2.carrier.getD ∅ := by
  cases call with
  | Get key => simp [CarrierCall.run, Carrier_Get_fst, Carrier_Get_snd, h]
  | Set key value => simp [CarrierCall.run, Carrier_Set_eq, h]
  | Keys => simp [CarrierCall.run, Carrier_Keys_eq, h]
  | MarshalJSON => simp [CarrierCall.run, Carrier_MarshalJSON_eq, h]
  | ClearContext => simp [CarrierCall.run, Carrier_ClearContext_eq]
  | GetTraceParent =>
    simp [CarrierCall.run, Carrier.GetTraceParent, Carrier_Get_fst, Carrier_Get_snd, h]
  | UnmarshalJSON bz =>
    cases d1 with
    | mk c1 =>
      cases d2 with
      | mk c2 =>
        simp only [Option.getD] at h
        have key : ∀ (c : GoMap),
            (jsonUnmarshal bz c).map (fun r => (r.1.getD ∅, r.2))
              = (jsonUnmarshal bz (some (c.getD ∅))).map (fun r => (r.1.getD ∅, r.2)) := by
          intro c
          cases c with
          | none => exact jsonUnmarshal_nil_vs_empty bz
          | some m => rfl
        have e : (jsonUnmarshal bz c1).map (fun r => (r.1.getD ∅, r.2))
            = (jsonUnmarshal bz c2).map (fun r => (r.1.getD ∅, r.2)) := by
          rw [key c1, key c2]
          simp only [Option.getD]
          rw [h]
        simp only [CarrierCall.run, Carrier.UnmarshalJSON]
        cases h1 : jsonUnmarshal bz c1 with
        | error p1 =>
          cases h2 : jsonUnmarshal bz c2 with
          | error p2 =>
            rw [h1, h2] at e
            simp [Except.map] at e
            simp [Except.map, e, Option.getD, h]
          | ok r2 => rw [h1, h2] at e; simp [Except.map] at e
        | ok r1 =>
          cases h2 : jsonUnmarshal bz c2 with
          | error p2 => rw [h1, h2] at e; simp [Except.map] at e
          | ok r2 =>
            rw [h1, h2] at e
            simp [Except.map] at e
            simp [Except.map, e]

theorem runCalls_same_entries (calls : List CarrierCall) (d1 d2 : Carrier)
    (h : d1.carrier.getD ∅ = d2.carrier.getD ∅) :
    runCalls calls d1 = runCalls calls d2 := by
  induction calls generalizing d1 d2 with
  | nil => rfl
  | cons call more ih =>
    have hs := run_same_entries call d1 d2 h
    simp only [runCalls, hs.1]
    rw [ih _ _ hs.2]


/-! ## Helper lemmas: UTF-8 -/

theorem decodeRune_two (c b1 : Nat) (t : List Nat) (h0 : 0xC2 ≤ c) (h1 : c < 0xE0)
    (h2 : 0x80 ≤ b1) (h3 : b1 ≤ 0xBF) :
    decodeRune (c :: b1 :: t) = ((c % 32) * 64 + b1 % 64, 2) := by
  have e1 : ¬ c < 0x80 := by omega
  have e2 : ¬ (c < 0xC2 ∨ 0xF4 < c) := by omega
  have e3 : c ≠ 0xE0 := by omega
  have e4 : c ≠ 0xF0 := by omega
  have e5 : c ≠ 0xED := by omega
  have e6 : c ≠ 0xF4 := by omega
  have e7 : ¬ (b1 < 0x80 ∨ 0xBF < b1) := by omega
  simp [decodeRune, e1, e2, e3, e4, e5, e6, e7, h1]

theorem decodeRune_three (c b1 b2 : Nat) (t : List Nat) (h0 : 0xE0 ≤ c) (h1 : c < 0xF0)
    (h2 : (if c = 0xE0 then 0xA0 else 0x80) ≤ b1) (h3 : b1 ≤ (if c = 0xED then 0x9F else 0xBF))
    (h4 : 0x80 ≤ b2) (h5 : b2 ≤ 0xBF) :
    decodeRune (c :: b1 :: b2 :: t) = ((c % 16) * 4096 + (b1 % 64) * 64 + b2 % 64, 3) := by
  have e1 : ¬ c < 0x80 := by omega
  have e2 : ¬ (c < 0xC2 ∨ 0xF4 < c) := by omega
  have e3 : ¬ c < 0xE0 := by omega
  have e4 : c ≠ 0xF0 := by omega
  have e6 : c ≠ 0xF4 := by omega
  have e7 : ¬ (b2 < 0x80 ∨ 0xBF < b2) := by omega
  have e8 : ¬ (b1 < (if c = 0xE0 then 0xA0 else 0x80) ∨ (if c = 0xED then 0x9F else 0xBF) < b1) := by
    omega
  simp [decodeRune, e1, e2, e3, e4, e6, e7, e8, h1]

theorem decodeRune_four (c b1 b2 b3 : Nat) (t : List Nat) (h0 : 0xF0 ≤ c) (h1 : c ≤ 0xF4)
    (h2 : (if c = 0xF0 then 0x90 else 0x80) ≤ b1) (h3 : b1 ≤ (if c = 0xF4 then 0x8F else 0xBF))
    (h4 : 0x80 ≤ b2) (h5 : b2 ≤ 0xBF) (h6 : 0x80 ≤ b3) (h7 : b3 ≤ 0xBF) :
    decodeRune (c :: b1 :: b2 :: b3 :: t)
      = ((c % 8) * 262144 + (b1 % 64) * 4096 + (b2 % 64) * 64 + b3 % 64, 4) := by
  have e1 : ¬ c < 0x80 := by omega
  have e2 : ¬ (c < 0xC2 ∨ 0xF4 < c) := by omega
  have e3 : ¬ c < 0xE0 := by omega
  have e3b : ¬ c < 0xF0 := by omega
  have e4 : c ≠ 0xE0 := by omega
  have e6 : c ≠ 0xED := by omega
  have e7 : ¬ (b2 < 0x80 ∨ 0xBF < b2) := by omega
  have e9 : ¬ (b3 < 0x80 ∨ 0xBF < b3) := by omega
  have e8 : ¬ (b1 < (if c = 0xF0 then 0x90 else 0x80) ∨ (if c = 0xF4 then 0x8F else 0xBF) < b1) := by
    omega
  simp [decodeRune, e1, e2, e3, e3b, e4, e6, e7, e8, e9]

/-- The shapes of an input that starts with a non-ASCII byte. -/
theorem decodeRune_cases (c : Nat) (rest : List Nat) (hc : ¬ c < 0x80) :
    decodeRune (c :: rest) = (RuneError, 1) ∨
    (∃ b1 t, rest = b1 :: t ∧ 0xC2 ≤ c ∧ c < 0xE0 ∧ 0x80 ≤ b1 ∧ b1 ≤ 0xBF) ∨
    (∃ b1 b2 t, rest = b1 :: b2 :: t ∧ 0xE0 ≤ c ∧ c < 0xF0 ∧
      (if c = 0xE0 then 0xA0 else 0x80) ≤ b1 ∧ b1 ≤ (if c = 0xED then 0x9F else 0xBF) ∧
      0x80 ≤ b2 ∧ b2 ≤ 0xBF) ∨
    (∃ b1 b2 b3 t, rest = b1 :: b2 :: b3 :: t ∧ 0xF0 ≤ c ∧ c ≤ 0xF4 ∧
      (if c = 0xF0 then 0x90 else 0x80) ≤ b1 ∧ b1 ≤ (if c = 0xF4 then 0x8F else 0xBF) ∧
      0x80 ≤ b2 ∧ b2 ≤ 0xBF ∧ 0x80 ≤ b3 ∧ b3 ≤ 0xBF) := by
  by_cases h1 : c < 0xC2 ∨ 0xF4 < c
  · left; simp [decodeRune, hc, h1]
  cases rest with
  | nil => left; simp [decodeRune, hc, h1]
  | cons b1 t1 =>
    by_cases hs2 : c < 0xE0
    · by_cases hb : 0x80 ≤ b1 ∧ b1 ≤ 0xBF
      · right; left; exact ⟨b1, t1, rfl, by omega, hs2, hb.1, hb.2⟩
      · left
        have e3 : c ≠ 0xE0 := by omega
        have e4 : c ≠ 0xF0 := by omega
        have e5 : c ≠ 0xED := by omega
        have e6 : c ≠ 0xF4 := by omega
        have e7 : (b1 < 0x80 ∨ 0xBF < b1) := by omega
        simp [decodeRune, hc, h1, hs2, e3, e4, e5, e6, e7]
    · by_cases hb : (if c = 0xE0 then 0xA0 else if c = 0xF0 then 0x90 else 0x80) ≤ b1 ∧
          b1 ≤ (if c = 0xED then 0x9F else if c = 0xF4 then 0x8F else 0xBF)
      · cases t1 with
        | nil =>
          left
          by_cases hs3 : c < 0xF0 <;> simp [decodeRune, hc, h1, hs2, hs3]
        | cons b2 t2 =>
          by_cases hb2 : 0x80 ≤ b2 ∧ b2 ≤ 0xBF
          · by_cases hs3 : c < 0xF0
            · right; right; left
              refine ⟨b1, b2, t2, rfl, by omega, hs3, ?_, ?_, hb2.1, hb2.2⟩
              · have := hb.1; split_ifs at this ⊢ <;> omega
              · have := hb.2; split_ifs at this ⊢ <;> omega
            · cases t2 with
              | nil => left; simp [decodeRune, hc, h1, hs2, hs3]
              | cons b3 t3 =>
                by_cases hb3 : 0x80 ≤ b3 ∧ b3 ≤ 0xBF
                · right; right; right
                  refine ⟨b1, b2, b3, t3, rfl, by omega, by omega, ?_, ?_, hb2.1, hb2.2, hb3.1, hb3.2⟩
                  · have := hb.1; split_ifs at this ⊢ <;> omega
                  · have := hb.2; split_ifs at this ⊢ <;> omega
                · left
                  have e7 : (b3 < 0x80 ∨ 0xBF < b3) := by omega
                  have e8 : ¬ (b2 < 0x80 ∨ 0xBF < b2) := by omega
                  have e9 : ¬ (b1 < (if c = 0xE0 then 0xA0 else if c = 0xF0 then 0x90 else 0x80) ∨
                    (if c = 0xED then 0x9F else if c = 0xF4 then 0x8F else 0xBF) < b1) := by omega
                  simp [decodeRune, hc, h1, hs2, hs3, e7, e8, e9]
          · left
            have e7 : (b2 < 0x80 ∨ 0xBF < b2) := by omega
            have e9 : ¬ (b1 < (if c = 0xE0 then 0xA0 else if c = 0xF0 then 0x90 else 0x80) ∨
              (if c = 0xED then 0x9F else if c = 0xF4 then 0x8F else 0xBF) < b1) := by omega
            by_cases hs3 : c < 0xF0 <;> simp [decodeRune, hc, h1, hs2, hs3, e7, e9]
      · left
        have e9 : (b1 < (if c = 0xE0 then 0xA0 else if c = 0xF0 then 0x90 else 0x80) ∨
          (if c = 0xED then 0x9F else if c = 0xF4 then 0x8F else 0xBF) < b1) := by omega
        by_cases hs3 : c < 0xF0 <;> simp [decodeRune, hc, h1, hs2, hs3, e9]

theorem encodeRune_two (c b1 : Nat) (h0 : 0xC2 ≤ c) (h1 : c < 0xE0)
    (h2 : 0x80 ≤ b1) (h3 : b1 ≤ 0xBF) :
    encodeRune ((c % 32) * 64 + b1 % 64) = [c, b1] := by
  have e1 : ¬ ((c % 32) * 64 + b1 % 64 ≤ 0x7F) := by omega
  have e2 : (c % 32) * 64 + b1 % 64 ≤ 0x7FF := by omega
  simp only [encodeRune, e1, e2, if_true, if_false]
  congr 1
  · omega
  · congr 1; omega

theorem encodeRune_three (c b1 b2 : Nat) (h0 : 0xE0 ≤ c) (h1 : c < 0xF0)
    (h2 : (if c = 0xE0 then 0xA0 else 0x80) ≤ b1) (h3 : b1 ≤ (if c = 0xED then 0x9F else 0xBF))
    (h4 : 0x80 ≤ b2) (h5 : b2 ≤ 0xBF) :
    encodeRune ((c % 16) * 4096 + (b1 % 64) * 64 + b2 % 64) = [c, b1, b2] := by
  have g1 : 0x80 ≤ b1 := by split_ifs at h2 <;> omega
  have g2 : b1 ≤ 0xBF := by split_ifs at h3 <;> omega
  have g3 : c ≠ 0xE0 ∨ 0xA0 ≤ b1 := by split_ifs at h2 <;> omega
  have g4 : c ≠ 0xED ∨ b1 ≤ 0x9F := by split_ifs at h3 <;> omega
  clear h2 h3
  have e1 : ¬ ((c % 16) * 4096 + (b1 % 64) * 64 + b2 % 64 ≤ 0x7F) := by omega
  have e2 : ¬ ((c % 16) * 4096 + (b1 % 64) * 64 + b2 % 64 ≤ 0x7FF) := by omega
  have e3 : ¬ (0x10FFFF < (c % 16) * 4096 + (b1 % 64) * 64 + b2 % 64 ∨
      (0xD800 ≤ (c % 16) * 4096 + (b1 % 64) * 64 + b2 % 64 ∧
        (c % 16) * 4096 + (b1 % 64) * 64 + b2 % 64 ≤ 0xDFFF)) := by omega
  have e4 : (c % 16) * 4096 + (b1 % 64) * 64 + b2 % 64 ≤ 0xFFFF := by omega
  simp only [encodeRune, e1, e2, e3, e4, if_true, if_false]
  congr 1
  · omega
  · congr 1
    · omega
    · congr 1; omega

theorem encodeRune_four (c b1 b2 b3 : Nat) (h0 : 0xF0 ≤ c) (h1 : c ≤ 0xF4)
    (h2 : (if c = 0xF0 then 0x90 else 0x80) ≤ b1) (h3 : b1 ≤ (if c = 0xF4 then 0x8F else 0xBF))
    (h4 : 0x80 ≤ b2) (h5 : b2 ≤ 0xBF) (h6 : 0x80 ≤ b3) (h7 : b3 ≤ 0xBF) :
    encodeRune ((c % 8) * 262144 + (b1 % 64) * 4096 + (b2 % 64) * 64 + b3 % 64)
      = [c, b1, b2, b3] := by
  have g1 : 0x80 ≤ b1 := by split_ifs at h2 <;> omega
  have g2 : b1 ≤ 0xBF := by split_ifs at h3 <;> omega
  have g3 : c ≠ 0xF0 ∨ 0x90 ≤ b1 := by split_ifs at h2 <;> omega
  have g4 : c ≠ 0xF4 ∨ b1 ≤ 0x8F := by split_ifs at h3 <;> omega
  clear h2 h3
  have e1 : ¬ ((c % 8) * 262144 + (b1 % 64) * 4096 + (b2 % 64) * 64 + b3 % 64 ≤ 0x7F) := by omega
  have e2 : ¬ ((c % 8) * 262144 + (b1 % 64) * 4096 + (b2 % 64) * 64 + b3 % 64 ≤ 0x7FF) := by
    omega
  have e3 : ¬ (0x10FFFF < (c % 8) * 262144 + (b1 % 64) * 4096 + (b2 % 64) * 64 + b3 % 64 ∨
      (0xD800 ≤ (c % 8) * 262144 + (b1 % 64) * 4096 + (b2 % 64) * 64 + b3 % 64 ∧
        (c % 8) * 262144 + (b1 % 64) * 4096 + (b2 % 64) * 64 + b3 % 64 ≤ 0xDFFF)) := by omega
  have e4 : ¬ ((c % 8) * 262144 + (b1 % 64) * 4096 + (b2 % 64) * 64 + b3 % 64 ≤ 0xFFFF) := by
    omega
  simp only [encodeRune, e1, e2, e3, e4, if_true, if_false]
  congr 1
  · omega
  · congr 1
    · omega
    · congr 1
      · omega
      · congr 1; omega

/-- An input starting with a non-ASCII byte is invalid at its head or starts
with the chunk of a rune. -/
theorem decodeRune_nonAscii (c : Nat) (rest : List Nat) (hc : ¬ c < 0x80) :
    decodeRune (c :: rest) = (RuneError, 1) ∨
      ∃ chunk tail, RuneChunk (c :: rest) chunk tail := by
  rcases decodeRune_cases c rest hc with h | ⟨b1, t, rfl, h0, h1, h2, h3⟩ |
    ⟨b1, b2, t, rfl, h0, h1, h2, h3, h4, h5⟩ | ⟨b1, b2, b3, t, rfl, h0, h1, h2, h3, h4, h5, h6, h7⟩
  · exact Or.inl h
  · right
    refine ⟨[c, b1], t, rfl, ?_, by simp, ?_, ?_, ?_, ?_, ?_⟩
    · rw [decodeRune_two c b1 t h0 h1 h2 h3]; rfl
    · intro b hb
      simp only [List.mem_cons, List.mem_singleton, List.not_mem_nil, or_false] at hb
      rcases hb with rfl | rfl <;> omega
    · rw [decodeRune_two c b1 t h0 h1 h2 h3]; exact encodeRune_two c b1 h0 h1 h2 h3
    · intro t2
      show decodeRune (c :: b1 :: t2) = _
      rw [decodeRune_two c b1 t h0 h1 h2 h3, decodeRune_two c b1 t2 h0 h1 h2 h3]
    · rw [decodeRune_two c b1 t h0 h1 h2 h3]
      simp only [isSurrogate, decide_eq_false_iff_not]; omega
    · rw [decodeRune_two c b1 t h0 h1 h2 h3]; show 0x80 ≤ _; omega
  · right
    have g1 : 0x80 ≤ b1 := by split_ifs at h2 <;> omega
    have g2 : b1 ≤ 0xBF := by split_ifs at h3 <;> omega
    have g3 : c ≠ 0xE0 ∨ 0xA0 ≤ b1 := by split_ifs at h2 <;> omega
    have g4 : c ≠ 0xED ∨ b1 ≤ 0x9F := by split_ifs at h3 <;> omega
    refine ⟨[c, b1, b2], t, rfl, ?_, by simp, ?_, ?_, ?_, ?_, ?_⟩
    · rw [decodeRune_three c b1 b2 t h0 h1 h2 h3 h4 h5]; rfl
    · intro b hb
      simp only [List.mem_cons, List.mem_singleton, List.not_mem_nil, or_false] at hb
      rcases hb with rfl | rfl | rfl <;> omega
    · rw [decodeRune_three c b1 b2 t h0 h1 h2 h3 h4 h5]
      exact encodeRune_three c b1 b2 h0 h1 h2 h3 h4 h5
    · intro t2
      show decodeRune (c :: b1 :: b2 :: t2) = _
      rw [decodeRune_three c b1 b2 t h0 h1 h2 h3 h4 h5,
        decodeRune_three c b1 b2 t2 h0 h1 h2 h3 h4 h5]
    · rw [decodeRune_three c b1 b2 t h0 h1 h2 h3 h4 h5]
      simp only [isSurrogate, decide_eq_false_iff_not]; omega
    · rw [decodeRune_three c b1 b2 t h0 h1 h2 h3 h4 h5]; show 0x80 ≤ _; omega
  · right
    have g1 : 0x80 ≤ b1 := by split_ifs at h2 <;> omega
    have g2 : b1 ≤ 0xBF := by split_ifs at h3 <;> omega
    have g3 : c ≠ 0xF0 ∨ 0x90 ≤ b1 := by split_ifs at h2 <;> omega
    have g4 : c ≠ 0xF4 ∨ b1 ≤ 0x8F := by split_ifs at h3 <;> omega
    refine ⟨[c, b1, b2, b3], t, rfl, ?_, by simp, ?_, ?_, ?_, ?_, ?_⟩
    · rw [decodeRune_four c b1 b2 b3 t h0 h1 h2 h3 h4 h5 h6 h7]; rfl
    · intro b hb
      simp only [List.mem_cons, List.mem_singleton, List.not_mem_nil, or_false] at hb
      rcases hb with rfl | rfl | rfl | rfl <;> omega
    · rw [decodeRune_four c b1 b2 b3 t h0 h1 h2 h3 h4 h5 h6 h7]
      exact encodeRune_four c b1 b2 b3 h0 h1 h2 h3 h4 h5 h6 h7
    · intro t2
      show decodeRune (c :: b1 :: b2 :: b3 :: t2) = _
      rw [decodeRune_four c b1 b2 b3 t h0 h1 h2 h3 h4 h5 h6 h7,
        decodeRune_four c b1 b2 b3 t2 h0 h1 h2 h3 h4 h5 h6 h7]
    · rw [decodeRune_four c b1 b2 b3 t h0 h1 h2 h3 h4 h5 h6 h7]
      simp only [isSurrogate, decide_eq_false_iff_not]; omega
    · rw [decodeRune_four c b1 b2 b3 t h0 h1 h2 h3 h4 h5 h6 h7]; show 0x80 ≤ _; omega


/-! ## Helper lemmas: the loops of the string encoder and decoder -/

theorem decodeRune_size_pos (c : Nat) (rest : List Nat) : 1 ≤ (decodeRune (c :: rest)).2 := by
  by_cases hc : c < 0x80
  · simp [decodeRune, hc]
  · rcases decodeRune_nonAscii c rest hc with h | ⟨chunk, tail, hk⟩
    · rw [h]
    · have := hk.two
      rw [hk.size]; omega

theorem isHex_hexDigit (n : Nat) (h : n < 16) : isHex (hexDigit n) = true := by
  simp only [isHex, hexDigit, decide_eq_true_eq]
  split_ifs <;> omega

theorem getu4_ascii (b : Nat) (X : List Nat) (hb : b < 0x80) :
    getu4 (0x5C :: 0x75 :: 0x30 :: 0x30 :: hexDigit (b / 16) :: hexDigit (b % 16) :: X)
      = some b := by
  have e1 : isHex (hexDigit (b / 16)) = true := isHex_hexDigit _ (by omega)
  have e2 : isHex (hexDigit (b % 16)) = true := isHex_hexDigit _ (by omega)
  have e0 : isHex 0x30 = true := by decide
  simp only [getu4, e0, e1, e2, and_self, if_true, Option.some.injEq]
  simp only [hexDigit]
  split_ifs <;> omega

theorem unquoteStep_plain (c : Nat) (rest : List Nat) (h1 : c ≠ 0x5C)
    (h2 : ¬ (c = 0x22 ∨ c < 0x20)) (h3 : c < 0x80) :
    unquoteStep c rest = some ([c], rest) := by
  simp only [unquoteStep, h1, h2, h3, if_true, if_false]

theorem unquoteStep_high (c : Nat) (rest : List Nat) (h : ¬ c < 0x80) :
    unquoteStep c rest
      = some (encodeRune (decodeRune (c :: rest)).1, (c :: rest).drop (decodeRune (c :: rest)).2) := by
  have h1 : c ≠ 0x5C := by omega
  have h2 : ¬ (c = 0x22 ∨ c < 0x20) := by omega
  simp only [unquoteStep, h1, h2, h, if_false]

/-- The second loop's iteration at a backslash: the escapes of one letter. -/
theorem unquoteStep_escape (e : Nat) (rest1 : List Nat) (he : e ≠ 0x75) :
    unquoteStep 0x5C (e :: rest1) = none ∨
      ∃ out, unquoteStep 0x5C (e :: rest1) = some (out, rest1) := by
  by_cases g1 : e = 0x22 ∨ e = 0x5C ∨ e = 0x2F ∨ e = 0x27
  · right; exact ⟨[e], by simp only [unquoteStep, g1, if_true]⟩
  by_cases g2 : e = 0x62
  · right; subst g2; exact ⟨[0x08], rfl⟩
  by_cases g3 : e = 0x66
  · right; subst g3; exact ⟨[0x0C], rfl⟩
  by_cases g4 : e = 0x6E
  · right; subst g4; exact ⟨[0x0A], rfl⟩
  by_cases g5 : e = 0x72
  · right; subst g5; exact ⟨[0x0D], rfl⟩
  by_cases g6 : e = 0x74
  · right; subst g6; exact ⟨[0x09], rfl⟩
  left
  simp only [unquoteStep, g1, g2, g3, g4, g5, g6, he, if_true, if_false]

/-- The second loop's iteration at the escape of a code unit. -/
theorem unquoteStep_u (rest1 : List Nat) :
    unquoteStep 0x5C (0x75 :: rest1) =
      match getu4 (0x5C :: 0x75 :: rest1) with
      | none => none
      | some rr =>
        if isSurrogate rr then
          if utf16DecodeRune rr (getu4 (rest1.drop 4)) ≠ 0xFFFD then
            some (encodeRune (utf16DecodeRune rr (getu4 (rest1.drop 4))), (rest1.drop 4).drop 6)
          else some (encodeRune 0xFFFD, rest1.drop 4)
        else some (encodeRune rr, rest1.drop 4) := by
  have g1 : ¬ ((0x75 : Nat) = 0x22 ∨ (0x75 : Nat) = 0x5C ∨ (0x75 : Nat) = 0x2F
      ∨ (0x75 : Nat) = 0x27) := by decide
  have g2 : ¬ ((0x75 : Nat) = 0x62) := by decide
  have g3 : ¬ ((0x75 : Nat) = 0x66) := by decide
  have g4 : ¬ ((0x75 : Nat) = 0x6E) := by decide
  have g5 : ¬ ((0x75 : Nat) = 0x72) := by decide
  have g6 : ¬ ((0x75 : Nat) = 0x74) := by decide
  simp only [unquoteStep, g1, g2, g3, g4, g5, g6, if_true, if_false]
  rfl

/-- The input an iteration of the second loop leaves is shorter than the input
it started on. -/
theorem unquoteStep_length (c : Nat) (rest out left : List Nat)
    (h : unquoteStep c rest = some (out, left)) : left.length ≤ rest.length := by
  by_cases h1 : c = 0x5C
  · subst h1
    cases rest with
    | nil => simp only [unquoteStep, if_true] at h; cases h
    | cons e rest1 =>
      by_cases he : e = 0x75
      · subst he
        rw [unquoteStep_u] at h
        cases hg : getu4 (0x5C :: 0x75 :: rest1) with
        | none => rw [hg] at h; cases h
        | some rr =>
          rw [hg] at h
          simp only [] at h
          split_ifs at h <;>
          · simp only [Option.some.injEq, Prod.mk.injEq] at h
            rw [← h.2]
            simp only [List.length_drop, List.length_cons]
            omega
      · rcases unquoteStep_escape e rest1 he with g | ⟨o, g⟩
        · rw [g] at h; cases h
        · rw [g] at h
          simp only [Option.some.injEq, Prod.mk.injEq] at h
          rw [← h.2]; simp
  · by_cases h2 : c = 0x22 ∨ c < 0x20
    · simp only [unquoteStep, h1, h2, if_true, if_false] at h
      cases h
    · by_cases h3 : c < 0x80
      · rw [unquoteStep_plain c rest h1 h2 h3] at h
        simp only [Option.some.injEq, Prod.mk.injEq] at h
        rw [← h.2]
      · rw [unquoteStep_high c rest h3] at h
        simp only [Option.some.injEq, Prod.mk.injEq] at h
        rw [← h.2]
        have := decodeRune_size_pos c rest
        simp only [List.length_drop, List.length_cons]
        omega

theorem unquoteLoop_fuel (f : Nat) : ∀ (g : Nat) (s : List Nat),
    s.length ≤ f → s.length ≤ g → unquoteLoop f s = unquoteLoop g s := by
  induction f with
  | zero =>
    intro g s h1 _
    cases s with
    | nil => cases g <;> rfl
    | cons c rest => simp at h1
  | succ f ih =>
    intro g s h1 h2
    cases s with
    | nil => cases g <;> rfl
    | cons c rest =>
      cases g with
      | zero => simp at h2
      | succ g =>
        simp only [unquoteLoop]
        cases hs : unquoteStep c rest with
        | none => rfl
        | some r =>
          obtain ⟨out, left⟩ := r
          have hl := unquoteStep_length c rest out left hs
          simp only [List.length_cons] at h1 h2
          simp only []
          rw [ih g left (by omega) (by omega)]


/-- An iteration of the first loop of `unquoteBytes` advances over bytes that
the second loop copies unchanged. -/
theorem plainStep_copies (c : Nat) (rest : List Nat) (n : Nat)
    (h : plainStep c rest = some n) :
    1 ≤ n ∧ n ≤ (c :: rest).length ∧
      unquoteStep c rest = some ((c :: rest).take n, (c :: rest).drop n) := by
  unfold plainStep at h
  by_cases h1 : c = 0x5C ∨ c = 0x22 ∨ c < 0x20
  · rw [if_pos h1] at h; cases h
  rw [if_neg h1] at h
  by_cases h3 : c < 0x80
  · rw [if_pos h3] at h
    simp only [Option.some.injEq] at h
    subst h
    refine ⟨Nat.le_refl _, by simp, ?_⟩
    rw [unquoteStep_plain c rest (by omega) (by omega) h3]
    rfl
  · rw [if_neg h3] at h
    simp only [] at h
    rcases decodeRune_nonAscii c rest h3 with e | ⟨chunk, tail, hk⟩
    · rw [e] at h
      simp at h
    · split_ifs at h with h4
      simp only [Option.some.injEq] at h
      subst h
      rw [unquoteStep_high c rest h3, hk.encode, hk.size]
      have h2 := hk.two
      refine ⟨by omega, ?_, ?_⟩
      · rw [hk.split]; simp
      · rw [hk.split]; simp

/-- The second loop of `unquoteBytes` may start after the prefix the first loop
found: the prefix is what it would have written for it. -/
theorem unquoteLoop_plainLen (f : Nat) : ∀ (s : List Nat), s.length ≤ f →
    unquoteLoop f s
      = (unquoteLoop f (s.drop (plainLen f s))).map (fun t => s.take (plainLen f s) ++ t) := by
  induction f with
  | zero =>
    intro s h
    cases s with
    | nil => rfl
    | cons c rest => simp at h
  | succ f ih =>
    intro s h
    cases s with
    | nil => rfl
    | cons c rest =>
      cases hp : plainStep c rest with
      | none =>
        have e : plainLen (f + 1) (c :: rest) = 0 := by simp only [plainLen, hp]
        rw [e]
        simp only [List.drop_zero, List.take_zero, List.nil_append]
        exact (Option.map_id' (x := unquoteLoop (f + 1) (c :: rest))).symm
      | some n =>
        obtain ⟨n1, n2, hs⟩ := plainStep_copies c rest n hp
        have e : plainLen (f + 1) (c :: rest) = n + plainLen f ((c :: rest).drop n) := by
          simp only [plainLen, hp]
        have hlen : ((c :: rest).drop n).length ≤ f := by
          simp only [List.length_drop, List.length_cons] at h ⊢
          omega
        rw [e]
        conv => lhs; simp only [unquoteLoop, hs]
        rw [ih _ hlen]
        have hd : (c :: rest).drop (n + plainLen f ((c :: rest).drop n))
            = ((c :: rest).drop n).drop (plainLen f ((c :: rest).drop n)) := by
          rw [List.drop_drop, Nat.add_comm]
        have ht : (c :: rest).take (n + plainLen f ((c :: rest).drop n))
            = (c :: rest).take n ++ ((c :: rest).drop n).take (plainLen f ((c :: rest).drop n)) := by
          rw [List.take_add]
        rw [hd, ht]
        have hfuel : unquoteLoop (f + 1)
              (((c :: rest).drop n).drop (plainLen f ((c :: rest).drop n)))
            = unquoteLoop f (((c :: rest).drop n).drop (plainLen f ((c :: rest).drop n))) := by
          apply unquoteLoop_fuel
          · simp only [List.length_drop] at hlen ⊢; omega
          · simp only [List.length_drop] at hlen ⊢; omega
        rw [hfuel]
        cases unquoteLoop f (((c :: rest).drop n).drop (plainLen f ((c :: rest).drop n))) with
        | none => rfl
        | some t => simp

theorem plainLen_le (f : Nat) : ∀ (s : List Nat), plainLen f s ≤ s.length := by
  induction f with
  | zero => intro s; cases s <;> simp [plainLen]
  | succ f ih =>
    intro s
    cases s with
    | nil => simp [plainLen]
    | cons c rest =>
      cases hp : plainStep c rest with
      | none => simp [plainLen, hp]
      | some n =>
        obtain ⟨n1, n2, -⟩ := plainStep_copies c rest n hp
        have := ih ((c :: rest).drop n)
        simp only [plainLen, hp]
        simp only [List.length_drop] at this
        omega

/-- Function `unquoteBytes` is its second loop run on the whole literal: the
shortcut for a literal without escapes changes nothing. -/
theorem unquoteBytes_eq_loop (s : List Nat) : unquoteBytes s = unquoteLoop s.length s := by
  unfold unquoteBytes
  have h := unquoteLoop_plainLen s.length s (Nat.le_refl _)
  simp only []
  split_ifs with hr
  · rw [h, hr]
    simp [unquoteLoop]
  · rw [h]

/-! ## Helper lemmas: what the scanner accepts -/

theorem scanString_plain (c : Nat) (X : List Nat) (h1 : c ≠ 0x22) (h2 : c ≠ 0x5C)
    (h3 : ¬ c < 0x20) :
    scanString (c :: X) = (scanString X).map (fun r => (c :: r.1, r.2)) := by
  conv => lhs; unfold scanString
  simp only [h1, h2, h3, if_false]

theorem scanString_high (chunk : List Nat) (X : List Nat) (h : ∀ b ∈ chunk, 0x80 ≤ b) :
    scanString (chunk ++ X) = (scanString X).map (fun r => (chunk ++ r.1, r.2)) := by
  induction chunk with
  | nil => simp
  | cons c t ih =>
    have hc : 0x80 ≤ c := h c (List.mem_cons_self _ _)
    have ht : ∀ b ∈ t, 0x80 ≤ b := fun b hb => h b (List.mem_cons_of_mem _ hb)
    rw [List.cons_append, scanString_plain c _ (by omega) (by omega) (by omega), ih ht]
    cases scanString X with
    | none => rfl
    | some r => rfl

theorem scanString_escape (e : Nat) (X : List Nat)
    (he : e = 0x62 ∨ e = 0x66 ∨ e = 0x6E ∨ e = 0x72 ∨ e = 0x74 ∨ e = 0x5C ∨ e = 0x2F ∨ e = 0x22) :
    scanString (0x5C :: e :: X) = (scanString X).map (fun r => (0x5C :: e :: r.1, r.2)) := by
  conv => lhs; unfold scanString
  simp only [he, if_true]
  rfl

theorem scanString_u (h1 h2 h3 h4 : Nat) (X : List Nat)
    (e1 : isHex h1 = true) (e2 : isHex h2 = true) (e3 : isHex h3 = true) (e4 : isHex h4 = true) :
    scanString (0x5C :: 0x75 :: h1 :: h2 :: h3 :: h4 :: X)
      = (scanString X).map (fun r => (0x5C :: 0x75 :: h1 :: h2 :: h3 :: h4 :: r.1, r.2)) := by
  have g : ¬ ((0x75 : Nat) = 0x62 ∨ (0x75 : Nat) = 0x66 ∨ (0x75 : Nat) = 0x6E ∨ (0x75 : Nat) = 0x72
      ∨ (0x75 : Nat) = 0x74 ∨ (0x75 : Nat) = 0x5C ∨ (0x75 : Nat) = 0x2F ∨ (0x75 : Nat) = 0x22) := by
    decide
  conv => lhs; unfold scanString
  simp only [g, e1, e2, e3, e4, and_self, if_true, if_false]
  rfl

/-! ## Helper lemmas: one iteration of the encoder -/

/-- What an iteration of the encoder's loop writes and leaves. -/
theorem appendStringStep_cases (b : Nat) (rest : List Nat) :
    (b < 0x80 ∧ htmlSafe b = true ∧ appendStringStep b rest = ([b], rest)) ∨
    (b < 0x80 ∧ htmlSafe b = false ∧ appendStringStep b rest = (escapeAscii b, rest)) ∨
    (¬ b < 0x80 ∧ decodeRune (b :: rest) = (RuneError, 1) ∧
      appendStringStep b rest = ([0x5C, 0x75, 0x66, 0x66, 0x66, 0x64], rest)) ∨
    (∃ chunk tail, RuneChunk (b :: rest) chunk tail ∧
      (decodeRune (b :: rest)).1 = 0x2028 ∧
      appendStringStep b rest = ([0x5C, 0x75, 0x32, 0x30, 0x32, 0x38], tail)) ∨
    (∃ chunk tail, RuneChunk (b :: rest) chunk tail ∧
      (decodeRune (b :: rest)).1 = 0x2029 ∧
      appendStringStep b rest = ([0x5C, 0x75, 0x32, 0x30, 0x32, 0x39], tail)) ∨
    (∃ chunk tail, RuneChunk (b :: rest) chunk tail ∧ appendStringStep b rest = (chunk, tail)) := by
  by_cases hb : b < 0x80
  · by_cases hs : htmlSafe b = true
    · left; exact ⟨hb, hs, by simp only [appendStringStep, hb, hs, if_true]⟩
    · right; left
      have hs2 : htmlSafe b = false := by simpa using hs
      refine ⟨hb, hs2, ?_⟩
      simp only [appendStringStep, hb, hs2, if_true]
      rfl
  · right; right
    rcases decodeRune_nonAscii b rest hb with e | ⟨chunk, tail, hk⟩
    · left
      refine ⟨hb, e, ?_⟩
      simp only [appendStringStep, hb, e, if_false]
      simp
    · right
      have hne : ¬ ((decodeRune (b :: rest)).1 = RuneError ∧ (decodeRune (b :: rest)).2 = 1) := by
        intro hh
        have := hk.two
        rw [← hk.size, hh.2] at this
        omega
      have htail : (b :: rest).drop (decodeRune (b :: rest)).2 = tail := by
        rw [hk.size, hk.split]; simp
      have hchunk : (b :: rest).take (decodeRune (b :: rest)).2 = chunk := by
        rw [hk.size, hk.split]; simp
      by_cases h8 : (decodeRune (b :: rest)).1 = 0x2028
      · left
        refine ⟨chunk, tail, hk, h8, ?_⟩
        simp only [appendStringStep, hb, hne, if_false, htail, h8, true_or, if_true]
        rfl
      · by_cases h9 : (decodeRune (b :: rest)).1 = 0x2029
        · right; left
          refine ⟨chunk, tail, hk, h9, ?_⟩
          simp only [appendStringStep, hb, hne, if_false, htail, h9, or_true, if_true]
          rfl
        · right; right
          refine ⟨chunk, tail, hk, ?_⟩
          have h89 : ¬ ((decodeRune (b :: rest)).1 = 0x2028 ∨ (decodeRune (b :: rest)).1 = 0x2029) := by
            intro hh; rcases hh with hh | hh
            · exact h8 hh
            · exact h9 hh
          simp only [appendStringStep, hb, hne, if_false, htail, hchunk, h89]

/-- The escape of an ASCII byte: a backslash and one letter that unquotes to the
byte, or the escape of the byte as a code unit. -/
theorem escapeAscii_cases (b : Nat) :
    (∃ e, escapeAscii b = [0x5C, e] ∧
      (e = 0x62 ∨ e = 0x66 ∨ e = 0x6E ∨ e = 0x72 ∨ e = 0x74 ∨ e = 0x5C ∨ e = 0x2F ∨ e = 0x22) ∧
      ∀ X, unquoteStep 0x5C (e :: X) = some ([b], X)) ∨
    escapeAscii b = [0x5C, 0x75, 0x30, 0x30, hexDigit (b / 16), hexDigit (b % 16)] := by
  by_cases g0 : b = 0x5C
  · subst g0; left; exact ⟨0x5C, rfl, by decide, fun X => rfl⟩
  by_cases g1 : b = 0x22
  · subst g1; left; exact ⟨0x22, rfl, by decide, fun X => rfl⟩
  by_cases g2 : b = 0x08
  · subst g2; left; exact ⟨0x62, rfl, by decide, fun X => rfl⟩
  by_cases g3 : b = 0x0C
  · subst g3; left; exact ⟨0x66, rfl, by decide, fun X => rfl⟩
  by_cases g4 : b = 0x0A
  · subst g4; left; exact ⟨0x6E, rfl, by decide, fun X => rfl⟩
  by_cases g5 : b = 0x0D
  · subst g5; left; exact ⟨0x72, rfl, by decide, fun X => rfl⟩
  by_cases g6 : b = 0x09
  · subst g6; left; exact ⟨0x74, rfl, by decide, fun X => rfl⟩
  right
  have g01 : ¬ (b = 0x5C ∨ b = 0x22) := by omega
  simp only [escapeAscii, g01, g2, g3, g4, g5, g6, if_false]

/-- The scanner reads through what an iteration of the encoder wrote. -/
theorem scanString_step (b : Nat) (rest X : List Nat) :
    scanString ((appendStringStep b rest).1 ++ X)
      = (scanString X).map (fun r => ((appendStringStep b rest).1 ++ r.1, r.2)) := by
  have hex0 : isHex 0x30 = true := by decide
  have hex2 : isHex 0x32 = true := by decide
  have hex8 : isHex 0x38 = true := by decide
  have hex9 : isHex 0x39 = true := by decide
  have hexf : isHex 0x66 = true := by decide
  have hexd : isHex 0x64 = true := by decide
  rcases appendStringStep_cases b rest with ⟨hb, hs, e⟩ | ⟨hb, hs, e⟩ | ⟨hb, hd, e⟩ |
    ⟨chunk, tail, hk, h8, e⟩ | ⟨chunk, tail, hk, h9, e⟩ | ⟨chunk, tail, hk, e⟩
  · rw [e]
    simp only [htmlSafe, decide_eq_true_eq] at hs
    exact scanString_plain b X (by omega) (by omega) (by omega)
  · rw [e]
    rcases escapeAscii_cases b with ⟨e1, h1, h2, -⟩ | h1
    · rw [h1]
      exact scanString_escape e1 X h2
    · rw [h1]
      exact scanString_u _ _ _ _ X hex0 hex0 (isHex_hexDigit _ (by omega))
        (isHex_hexDigit _ (by omega))
  · rw [e]
    exact scanString_u _ _ _ _ X hexf hexf hexf hexd
  · rw [e]
    exact scanString_u _ _ _ _ X hex2 hex0 hex2 hex8
  · rw [e]
    exact scanString_u _ _ _ _ X hex2 hex0 hex2 hex9
  · rw [e]
    exact scanString_high chunk X hk.high

/-- The scanner reads the body the encoder wrote up to the closing quote. -/
theorem scanString_appendStringLoop (f : Nat) : ∀ (s X : List Nat),
    scanString (appendStringLoop f s ++ 0x22 :: X) = some (appendStringLoop f s, X) := by
  have base : ∀ X : List Nat, scanString ([] ++ 0x22 :: X) = some ([], X) := by
    intro X
    show scanString (0x22 :: X) = _
    unfold scanString
    rfl
  induction f with
  | zero =>
    intro s X
    cases s with
    | nil => exact base X
    | cons c rest => exact base X
  | succ f ih =>
    intro s X
    cases s with
    | nil => exact base X
    | cons c rest =>
      simp only [appendStringLoop, List.append_assoc]
      rw [scanString_step, ih]
      simp

/-- The second loop of `unquoteBytes` turns what an iteration of the encoder
wrote for a well-formed head of the input back into the bytes it consumed. -/
theorem unquoteStep_step (b : Nat) (rest : List Nat)
    (hv : ¬ ((decodeRune (b :: rest)).1 = RuneError ∧ (decodeRune (b :: rest)).2 = 1)) :
    ∃ q0 qs p, (appendStringStep b rest).1 = q0 :: qs ∧
      p ++ (appendStringStep b rest).2 = b :: rest ∧
      ∀ X, unquoteStep q0 (qs ++ X) = some (p, X) := by
  rcases appendStringStep_cases b rest with ⟨hb, hs, e⟩ | ⟨hb, hs, e⟩ | ⟨hb, hd, e⟩ |
    ⟨chunk, tail, hk, h8, e⟩ | ⟨chunk, tail, hk, h9, e⟩ | ⟨chunk, tail, hk, e⟩
  · rw [e]
    simp only [htmlSafe, decide_eq_true_eq] at hs
    refine ⟨b, [], [b], rfl, rfl, fun X => ?_⟩
    exact unquoteStep_plain b _ (by omega) (by omega) hb
  · rw [e]
    rcases escapeAscii_cases b with ⟨e1, h1, -, h3⟩ | h1
    · rw [h1]
      exact ⟨0x5C, [e1], [b], rfl, rfl, fun X => h3 X⟩
    · rw [h1]
      refine ⟨0x5C, [0x75, 0x30, 0x30, hexDigit (b / 16), hexDigit (b % 16)], [b], rfl, rfl,
        fun X => ?_⟩
      show unquoteStep 0x5C (0x75 :: 0x30 :: 0x30 :: hexDigit (b / 16) :: hexDigit (b % 16) :: X) = _
      rw [unquoteStep_u, getu4_ascii b X hb]
      have hsur : isSurrogate b = false := by
        simp only [isSurrogate, decide_eq_false_iff_not]; omega
      have henc : encodeRune b = [b] := by
        have : b ≤ 0x7F := by omega
        simp only [encodeRune, this, if_true]
      simp only [hsur, henc]
      rfl
  · exact absurd (by rw [hd]; exact ⟨rfl, rfl⟩) hv
  · rw [e]
    refine ⟨0x5C, [0x75, 0x32, 0x30, 0x32, 0x38], chunk, rfl, hk.split.symm, fun X => ?_⟩
    show unquoteStep 0x5C (0x75 :: 0x32 :: 0x30 :: 0x32 :: 0x38 :: X) = _
    rw [unquoteStep_u]
    have hg : getu4 (0x5C :: 0x75 :: 0x32 :: 0x30 :: 0x32 :: 0x38 :: X) = some 0x2028 := rfl
    rw [hg]
    have hsur : isSurrogate 0x2028 = false := by decide
    simp only [hsur]
    rw [← h8, hk.encode]
    rfl
  · rw [e]
    refine ⟨0x5C, [0x75, 0x32, 0x30, 0x32, 0x39], chunk, rfl, hk.split.symm, fun X => ?_⟩
    show unquoteStep 0x5C (0x75 :: 0x32 :: 0x30 :: 0x32 :: 0x39 :: X) = _
    rw [unquoteStep_u]
    have hg : getu4 (0x5C :: 0x75 :: 0x32 :: 0x30 :: 0x32 :: 0x39 :: X) = some 0x2029 := rfl
    rw [hg]
    have hsur : isSurrogate 0x2029 = false := by decide
    simp only [hsur]
    rw [← h9, hk.encode]
    rfl
  · rw [e]
    have h2 := hk.two
    cases hc : chunk with
    | nil => rw [hc] at h2; simp at h2
    | cons q0 qs =>
      refine ⟨q0, qs, chunk, rfl, by rw [← hc]; exact hk.split.symm, fun X => ?_⟩
      have hq : 0x80 ≤ q0 := hk.high q0 (by rw [hc]; exact List.mem_cons_self _ _)
      rw [unquoteStep_high q0 _ (by omega)]
      have hst := hk.stable X
      rw [hc] at hst
      simp only [List.cons_append] at hst
      rw [hst, hk.encode, hk.size, hc]
      simp

theorem appendStringStep_length (b : Nat) (rest : List Nat) :
    (appendStringStep b rest).2.length ≤ rest.length := by
  rcases appendStringStep_cases b rest with ⟨hb, hs, e⟩ | ⟨hb, hs, e⟩ | ⟨hb, hd, e⟩ |
    ⟨chunk, tail, hk, h8, e⟩ | ⟨chunk, tail, hk, h9, e⟩ | ⟨chunk, tail, hk, e⟩
  · rw [e]
  · rw [e]
  · rw [e]
  all_goals
    rw [e]
    have h1 := congrArg List.length hk.split
    have h2 := hk.two
    simp only [List.length_cons, List.length_append] at h1
    show tail.length ≤ rest.length
    omega

/-- Unquoting the body the encoder wrote for a well-formed UTF-8 string gives
the string back. -/
theorem unquoteLoop_appendStringLoop (f : Nat) : ∀ (s : List Nat), s.length ≤ f →
    validLoop f s = true → ∀ g, (appendStringLoop f s).length ≤ g →
    unquoteLoop g (appendStringLoop f s) = some s := by
  induction f with
  | zero =>
    intro s h _ g _
    cases s with
    | nil => cases g <;> rfl
    | cons c rest => simp at h
  | succ f ih =>
    intro s h hv g hg
    cases s with
    | nil => cases g <;> rfl
    | cons b rest =>
      simp only [validLoop] at hv
      split_ifs at hv with hbad
      obtain ⟨q0, qs, p, e1, e2, e3⟩ := unquoteStep_step b rest hbad
      have hrest : (b :: rest).drop (decodeRune (b :: rest)).2 = (appendStringStep b rest).2 := by
        rcases appendStringStep_cases b rest with ⟨hb, hs, e⟩ | ⟨hb, hs, e⟩ | ⟨hb, hd, e⟩ |
          ⟨chunk, tail, hk, h8, e⟩ | ⟨chunk, tail, hk, h9, e⟩ | ⟨chunk, tail, hk, e⟩
        · rw [e]; simp [decodeRune, hb]
        · rw [e]; simp [decodeRune, hb]
        · exact absurd (by rw [hd]; exact ⟨rfl, rfl⟩) hbad
        all_goals
          rw [e, hk.size, hk.split]
          simp
      rw [hrest] at hv
      have hl := appendStringStep_length b rest
      simp only [List.length_cons] at h
      simp only [appendStringLoop, e1, List.cons_append] at hg ⊢
      cases g with
      | zero => simp at hg
      | succ g =>
        simp only [unquoteLoop, e3]
        simp only [List.length_cons, List.length_append] at hg
        rw [ih _ (by omega) hv g (by omega)]
        simp only [Option.map_some', e2]

/-- Unquoting what `appendString` wrote between the quotes for a well-formed
UTF-8 string gives the string back. -/
theorem unquoteBytes_appendStringLoop (s : List Nat) (hv : utf8Valid s = true) :
    unquoteBytes (appendStringLoop s.length s) = some s := by
  rw [unquoteBytes_eq_loop]
  exact unquoteLoop_appendStringLoop s.length s (Nat.le_refl _) hv _ (Nat.le_refl _)


/-! ## Helper lemmas: the parser on what the encoder wrote -/

theorem skipSpace_nonspace (c : Nat) (X : List Nat) (h : isSpace c = false) :
    skipSpace (c :: X) = c :: X := by
  simp only [skipSpace, h]
  rfl

theorem appendString_eq (x : GoString) (X : List Nat) :
    appendString x ++ X = 0x22 :: (appendStringLoop x.length x ++ 0x22 :: X) := by
  simp [appendString]

/-- The parser reads a string written by `appendString` as a string value. -/
theorem parseValue_appendString (fuel depth : Nat) (x : GoString) (X : List Nat) :
    parseValue (fuel + 1) depth (appendString x ++ X)
      = some (JValue.string (appendStringLoop x.length x), X) := by
  rw [appendString_eq]
  simp only [parseValue]
  rw [skipSpace_nonspace _ _ (by decide)]
  have g1 : ¬ ((0x22 : Nat) = 0x7B) := by decide
  have g2 : ¬ ((0x22 : Nat) = 0x5B) := by decide
  simp only [g1, g2, if_false, if_true, scanString_appendStringLoop]
  rfl

theorem encodeMembers_cons_cons (kv kv2 : Entry) (more : List Entry) :
    encodeMembers (kv :: kv2 :: more)
      = appendString kv.1 ++ [0x3A] ++ appendString kv.2 ++ [0x2C] ++ encodeMembers (kv2 :: more) :=
  rfl

/-- The parser reads the members written by `encodeMembers` up to the closing
brace. -/
theorem parseMembers_encodeMembers (es : List Entry) : ∀ (fuel depth : Nat) (X : List Nat),
    es ≠ [] → es.length + 1 ≤ fuel →
    parseMembers fuel depth (encodeMembers es ++ 0x7D :: X) = some (es.map rawMember, X) := by
  induction es with
  | nil => intro _ _ _ h; exact absurd rfl h
  | cons kv t ih =>
    intro fuel depth X _ hf
    cases fuel with
    | zero => simp at hf
    | succ fuel =>
      cases fuel with
      | zero => simp at hf
      | succ fuel =>
        cases t with
        | nil =>
          have e : encodeMembers [kv] ++ 0x7D :: X
              = 0x22 :: (appendStringLoop kv.1.length kv.1 ++
                  0x22 :: 0x3A :: (appendString kv.2 ++ 0x7D :: X)) := by
            simp [encodeMembers, appendString]
          rw [e]
          rw [parseMembers]
          rw [skipSpace_nonspace _ _ (by decide)]
          simp only [if_true, scanString_appendStringLoop]
          rw [skipSpace_nonspace _ _ (by decide)]
          simp only [if_true, parseValue_appendString]
          rw [skipSpace_nonspace _ _ (by decide)]
          have g1 : ¬ ((0x7D : Nat) = 0x2C) := by decide
          simp only [g1, if_false, if_true]
          rfl
        | cons kv2 more =>
          have e : encodeMembers (kv :: kv2 :: more) ++ 0x7D :: X
              = 0x22 :: (appendStringLoop kv.1.length kv.1 ++
                  0x22 :: 0x3A :: (appendString kv.2 ++
                    0x2C :: (encodeMembers (kv2 :: more) ++ 0x7D :: X))) := by
            rw [encodeMembers_cons_cons]
            simp [appendString]
          rw [e]
          rw [parseMembers]
          rw [skipSpace_nonspace _ _ (by decide)]
          simp only [if_true, scanString_appendStringLoop]
          rw [skipSpace_nonspace _ _ (by decide)]
          simp only [if_true, parseValue_appendString]
          rw [skipSpace_nonspace _ _ (by decide)]
          simp only [if_true]
          rw [ih (fuel + 1) depth X (by simp) (by simp only [List.length_cons] at hf ⊢; omega)]
          rfl

theorem encodeMembers_head (kv : Entry) (t : List Entry) :
    ∃ Y, encodeMembers (kv :: t) = 0x22 :: Y := by
  cases t with
  | nil => exact ⟨_, by simp [encodeMembers, appendString]; rfl⟩
  | cons kv2 more => exact ⟨_, by rw [encodeMembers_cons_cons]; simp [appendString]; rfl⟩

theorem encodeMembers_length (es : List Entry) : es.length ≤ (encodeMembers es).length := by
  induction es with
  | nil => simp
  | cons kv t ih =>
    cases t with
    | nil => simp [encodeMembers, appendString]
    | cons kv2 more =>
      rw [encodeMembers_cons_cons]
      simp only [List.length_append, List.length_cons] at ih ⊢
      omega

/-- The parser reads the object `json.Marshal` writes for a list of entries as
the object of their raw members. -/
theorem parseJSON_object (es : List Entry) :
    parseJSON ([0x7B] ++ encodeMembers es ++ [0x7D]) = some (JValue.object (es.map rawMember)) := by
  have hlen := encodeMembers_length es
  have hdepth : 0 + 1 ≤ maxNestingDepth := by decide
  cases es with
  | nil =>
    simp only [parseJSON, encodeMembers]
    rfl
  | cons kv t =>
    obtain ⟨Y, hY⟩ := encodeMembers_head kv t
    have e : [0x7B] ++ encodeMembers (kv :: t) ++ [0x7D]
        = 0x7B :: (encodeMembers (kv :: t) ++ 0x7D :: []) := by simp
    have hfuel : 2 * ([0x7B] ++ encodeMembers (kv :: t) ++ [0x7D]).length + 2
        = (2 * (encodeMembers (kv :: t)).length + 5) + 1 := by
      simp only [List.length_append, List.length_cons, List.length_nil]
      omega
    simp only [parseJSON]
    rw [hfuel, e, parseValue]
    rw [skipSpace_nonspace _ _ (by decide)]
    simp only [if_true, hdepth]
    have hY2 : encodeMembers (kv :: t) ++ [0x7D] = 0x22 :: (Y ++ [0x7D]) := by rw [hY]; rfl
    rw [hY2, skipSpace_nonspace _ _ (by decide)]
    have g1 : ¬ ((0x22 : Nat) = 0x7D) := by decide
    simp only [g1, if_false]
    rw [← hY2, parseMembers_encodeMembers (kv :: t) _ _ [] (by simp) (by omega)]
    rfl

/-! ## Helper lemmas: decoding the members -/

/-- The decoder stores the raw members of well-formed UTF-8 entries one after
the other, without an error of its own. -/
theorem decodeMembers_rawMember (es : List Entry) : ∀ (m : StrMap) (err : Option JsonError),
    (∀ kv ∈ es, utf8Valid kv.1 = true ∧ utf8Valid kv.2 = true) →
    decodeMembers (es.map rawMember) m err
      = .ok (es.foldl (fun acc kv => acc.insert kv.1 kv.2) m, err) := by
  induction es with
  | nil => intro m err _; rfl
  | cons kv t ih =>
    intro m err hv
    have h1 := hv kv (List.mem_cons_self _ _)
    have ht : ∀ kv2 ∈ t, utf8Valid kv2.1 = true ∧ utf8Valid kv2.2 = true :=
      fun kv2 h => hv kv2 (List.mem_cons_of_mem _ h)
    simp only [List.map_cons, rawMember, decodeMembers, unquoteBytes_appendStringLoop _ h1.1,
      unquoteBytes_appendStringLoop _ h1.2, List.foldl_cons]
    exact ih _ _ ht

/-- Looking a key up after storing entries with distinct keys. -/
theorem lookup_foldl_insert (es : List Entry) : ∀ (m : StrMap), es.NodupKeys → ∀ k,
    (es.foldl (fun acc kv => acc.insert kv.1 kv.2) m).lookup k
      = (List.dlookup k es).orElse (fun _ => m.lookup k) := by
  induction es with
  | nil => intro m _ k; rfl
  | cons kv t ih =>
    intro m nd k
    rw [List.nodupKeys_cons] at nd
    rw [List.foldl_cons, ih _ nd.2]
    by_cases hk : k = kv.1
    · subst hk
      have hnone : List.dlookup kv.1 t = none := by
        rw [List.dlookup_eq_none]; exact nd.1
      obtain ⟨k1, v1⟩ := kv
      simp only [hnone, List.dlookup_cons_eq, AList.lookup_insert]
      rfl
    · obtain ⟨k1, v1⟩ := kv
      have hk2 : k ≠ k1 := hk
      rw [List.dlookup_cons_ne _ _ hk2, AList.lookup_insert_ne hk2]

/-- Decoding what `json.Marshal` wrote for a map of well-formed UTF-8 strings
into a nil map gives a map with the same entries. -/
theorem jsonUnmarshal_jsonMarshal (s : StrMap)
    (hv : ∀ kv ∈ s.entries, utf8Valid kv.1 = true ∧ utf8Valid kv.2 = true) :
    ∃ m, jsonUnmarshal (jsonMarshal (some s)).1 none = .ok (some m, none) ∧
      ∀ k, m.lookup k = s.lookup k := by
  have hperm : (s.entries.insertionSort (fun a b => a.1 ≤ b.1)).Perm s.entries :=
    List.perm_insertionSort _ _
  have hv2 : ∀ kv ∈ s.entries.insertionSort (fun a b => a.1 ≤ b.1),
      utf8Valid kv.1 = true ∧ utf8Valid kv.2 = true :=
    fun kv h => hv kv (hperm.mem_iff.mp h)
  have hnd : (s.entries.insertionSort (fun a b => a.1 ≤ b.1)).NodupKeys :=
    (List.perm_nodupKeys hperm).mpr s.nodupKeys
  refine ⟨(s.entries.insertionSort (fun a b => a.1 ≤ b.1)).foldl
    (fun acc kv => acc.insert kv.1 kv.2) ∅, ?_, ?_⟩
  · simp only [jsonUnmarshal, jsonMarshal, parseJSON_object]
    rw [show (Option.getD (none : GoMap) ∅ : StrMap) = ∅ from rfl,
      decodeMembers_rawMember _ _ _ hv2]
    rfl
  · intro k
    rw [lookup_foldl_insert _ _ hnd k, List.perm_dlookup k hnd s.nodupKeys hperm]
    show (List.dlookup k s.entries).orElse (fun _ => none) = List.dlookup k s.entries
    cases List.dlookup k s.entries <;> rfl


/-! ## Helper lemmas: a scanned literal always unquotes -/

/-- What the scanner returns as the body of a string is a literal. -/
theorem scanString_literal (inp : List Nat) : ∀ (raw rest : List Nat),
    scanString inp = some (raw, rest) → Literal raw := by
  induction inp using scanString.induct with
  | case1 => intro raw rest h; simp [scanString] at h
  | case2 tail =>
    intro raw rest h
    unfold scanString at h
    simp only [if_true, Option.some.injEq, Prod.mk.injEq] at h
    rw [← h.1]; exact Literal.nil
  | case3 => intro raw rest h; unfold scanString at h; simp at h
  | case4 e tail he _ ih =>
    intro raw rest h
    rw [scanString_escape e tail he] at h
    cases hs : scanString tail with
    | none => rw [hs] at h; simp at h
    | some r =>
      rw [hs] at h
      simp only [Option.map_some', Option.some.injEq, Prod.mk.injEq] at h
      rw [← h.1]
      exact Literal.escape e r.1 he (ih r.1 r.2 hs)
  | case5 h1 h2 h3 h4 rest2 hh _ _ ih =>
    intro raw rest h
    rw [scanString_u h1 h2 h3 h4 rest2 hh.1 hh.2.1 hh.2.2.1 hh.2.2.2] at h
    cases hs : scanString rest2 with
    | none => rw [hs] at h; simp at h
    | some r =>
      rw [hs] at h
      simp only [Option.map_some', Option.some.injEq, Prod.mk.injEq] at h
      rw [← h.1]
      exact Literal.unit h1 h2 h3 h4 r.1 hh.1 hh.2.1 hh.2.2.1 hh.2.2.2 (ih r.1 r.2 hs)
  | case6 h1 h2 h3 h4 rest2 hh _ _ =>
    intro raw rest h
    unfold scanString at h
    simp [hh] at h
  | case7 x hx _ _ =>
    intro raw rest h
    rcases x with _ | ⟨a, _ | ⟨b, _ | ⟨c, _ | ⟨d, r⟩⟩⟩⟩
    · unfold scanString at h; simp at h
    · unfold scanString at h; simp at h
    · unfold scanString at h; simp at h
    · unfold scanString at h; simp at h
    · exact (hx _ _ _ _ _ rfl).elim
  | case8 e tail he hu _ =>
    intro raw rest h
    unfold scanString at h
    simp [he, hu] at h
  | case9 c tail h1 h2 h3 =>
    intro raw rest h
    unfold scanString at h
    simp [h1, h2, h3] at h
  | case10 c tail h1 h2 h3 ih =>
    intro raw rest h
    rw [scanString_plain c tail h1 h2 h3] at h
    cases hs : scanString tail with
    | none => rw [hs] at h; simp at h
    | some r =>
      rw [hs] at h
      simp only [Option.map_some', Option.some.injEq, Prod.mk.injEq] at h
      rw [← h.1]
      exact Literal.plain c r.1 h1 h2 h3 (ih r.1 r.2 hs)

theorem getu4_shape (s : List Nat) (r : Nat) (h : getu4 s = some r) :
    ∃ a b c d X, s = 0x5C :: 0x75 :: a :: b :: c :: d :: X := by
  rcases s with _ | ⟨x0, _ | ⟨x1, _ | ⟨a, _ | ⟨b, _ | ⟨c, _ | ⟨d, X⟩⟩⟩⟩⟩⟩
  · simp [getu4] at h
  · simp [getu4] at h
  · simp [getu4] at h
  · simp [getu4] at h
  · simp [getu4] at h
  · simp [getu4] at h
  · by_cases hc : x0 = 0x5C ∧ x1 = 0x75 ∧ isHex a = true ∧ isHex b = true ∧ isHex c = true
        ∧ isHex d = true
    · exact ⟨a, b, c, d, X, by rw [hc.1, hc.2.1]⟩
    · simp only [getu4, hc, if_false] at h
      cases h

theorem getu4_hex (h1 h2 h3 h4 : Nat) (X : List Nat)
    (e1 : isHex h1 = true) (e2 : isHex h2 = true) (e3 : isHex h3 = true) (e4 : isHex h4 = true) :
    ∃ rr, getu4 (0x5C :: 0x75 :: h1 :: h2 :: h3 :: h4 :: X) = some rr := by
  simp [getu4, e1, e2, e3, e4]

theorem literal_after_unit (a b c d : Nat) (t : List Nat)
    (h : Literal (0x5C :: 0x75 :: a :: b :: c :: d :: t)) : Literal t := by
  cases h with
  | plain _ _ _ h2 _ _ => exact absurd rfl h2
  | escape _ _ he _ => exact absurd he (by decide)
  | unit _ _ _ _ _ _ _ _ _ ht => exact ht

theorem literal_after_byte (c : Nat) (X : List Nat) (hc : 0x80 ≤ c) (h : Literal (c :: X)) :
    Literal X := by
  cases h with
  | plain _ _ _ _ _ hl => exact hl
  | escape _ _ _ _ => omega
  | unit _ _ _ _ _ _ _ _ _ _ => omega

theorem literal_after_high (chunk tail : List Nat) (hh : ∀ b ∈ chunk, 0x80 ≤ b)
    (h : Literal (chunk ++ tail)) : Literal tail := by
  induction chunk with
  | nil => exact h
  | cons c t ih =>
    have hc : 0x80 ≤ c := hh c (List.mem_cons_self _ _)
    have ht : ∀ b ∈ t, 0x80 ≤ b := fun b hb => hh b (List.mem_cons_of_mem _ hb)
    exact ih ht (literal_after_byte c _ hc h)

theorem unquoteStep_simple (e : Nat) (X : List Nat)
    (he : e = 0x62 ∨ e = 0x66 ∨ e = 0x6E ∨ e = 0x72 ∨ e = 0x74 ∨ e = 0x5C ∨ e = 0x2F ∨ e = 0x22) :
    ∃ out, unquoteStep 0x5C (e :: X) = some (out, X) := by
  rcases he with rfl | rfl | rfl | rfl | rfl | rfl | rfl | rfl <;> exact ⟨_, rfl⟩

/-- One iteration of the second loop of `unquoteBytes` on a literal succeeds and
leaves a literal. -/
theorem unquoteStep_literal (c : Nat) (rest : List Nat) (h : Literal (c :: rest)) :
    ∃ out left, unquoteStep c rest = some (out, left) ∧ Literal left := by
  cases h with
  | plain _ _ h1 h2 h3 hl =>
    by_cases hb : c < 0x80
    · exact ⟨[c], rest, unquoteStep_plain c rest h2 (by omega) hb, hl⟩
    · refine ⟨_, _, unquoteStep_high c rest hb, ?_⟩
      rcases decodeRune_nonAscii c rest hb with e | ⟨chunk, tail, hk⟩
      · rw [e]; exact hl
      · have hlit : Literal (chunk ++ tail) := by
          rw [← hk.split]; exact Literal.plain c rest h1 h2 h3 hl
        have : (c :: rest).drop (decodeRune (c :: rest)).2 = tail := by
          rw [hk.size, hk.split]; simp
        rw [this]
        exact literal_after_high chunk tail hk.high hlit
  | escape e t he hl =>
    obtain ⟨out, ho⟩ := unquoteStep_simple e t he
    exact ⟨out, t, ho, hl⟩
  | unit h1 h2 h3 h4 t e1 e2 e3 e4 hl =>
    obtain ⟨rr, hr⟩ := getu4_hex h1 h2 h3 h4 t e1 e2 e3 e4
    rw [unquoteStep_u, hr]
    have hd : (h1 :: h2 :: h3 :: h4 :: t).drop 4 = t := rfl
    simp only [hd]
    by_cases hs : isSurrogate rr = true
    · simp only [hs, if_true]
      by_cases hdec : utf16DecodeRune rr (getu4 t) ≠ 0xFFFD
      · simp only [hdec, if_true, ne_eq, not_false_eq_true]
        refine ⟨_, _, rfl, ?_⟩
        cases hg : getu4 t with
        | none => rw [hg] at hdec; exact absurd rfl hdec
        | some r2 =>
          obtain ⟨a, b, c, d, X, hX⟩ := getu4_shape t r2 hg
          rw [hX] at hl ⊢
          exact literal_after_unit a b c d X hl
      · simp only [hdec, if_false]
        exact ⟨_, _, rfl, hl⟩
    · simp only [hs]
      exact ⟨_, _, rfl, hl⟩

/-- The second loop of `unquoteBytes` succeeds on every literal. -/
theorem unquoteLoop_literal (f : Nat) : ∀ (raw : List Nat), raw.length ≤ f → Literal raw →
    ∃ t, unquoteLoop f raw = some t := by
  induction f with
  | zero =>
    intro raw h _
    cases raw with
    | nil => exact ⟨[], rfl⟩
    | cons c rest => simp at h
  | succ f ih =>
    intro raw h hl
    cases raw with
    | nil => exact ⟨[], rfl⟩
    | cons c rest =>
      obtain ⟨out, left, hs, hleft⟩ := unquoteStep_literal c rest hl
      have hlen := unquoteStep_length c rest out left hs
      simp only [List.length_cons] at h
      obtain ⟨t, ht⟩ := ih left (by omega) hleft
      exact ⟨out ++ t, by simp only [unquoteLoop, hs, ht, Option.map_some']⟩

/-- A literal delimited by the scanner never makes `unquoteBytes` fail: the
decoder's phase panic cannot happen. -/
theorem unquoteBytes_scanned (inp raw rest : List Nat) (h : scanString inp = some (raw, rest)) :
    ∃ t, unquoteBytes raw = some t := by
  rw [unquoteBytes_eq_loop]
  exact unquoteLoop_literal _ raw (Nat.le_refl _) (scanString_literal inp raw rest h)


/-! ## Helper lemmas: the decoder never panics -/

/-- The shapes of a value the parser returns. -/
theorem parseValue_shape (f depth : Nat) (inp : List Nat) (v : JValue) (rest : List Nat)
    (h : parseValue (f + 1) depth inp = some (v, rest)) :
    v = JValue.object [] ∨
    (∃ ms inp2, v = JValue.object ms ∧ parseMembers f (depth + 1) inp2 = some (ms, rest)) ∨
    (∃ es, v = JValue.array es) ∨
    (∃ raw inp2, v = JValue.string raw ∧ scanString inp2 = some (raw, rest)) ∨
    (∃ b, v = JValue.bool b) ∨ v = JValue.null ∨ v = JValue.number := by
  rw [parseValue] at h
  cases hsk : skipSpace inp with
  | nil => rw [hsk] at h; cases h
  | cons c rest0 =>
    rw [hsk] at h
    simp only [] at h
    by_cases h1 : c = 0x7B
    · rw [if_pos h1] at h
      by_cases hd : depth + 1 ≤ maxNestingDepth
      · rw [if_pos hd] at h
        cases hsk2 : skipSpace rest0 with
        | nil => rw [hsk2] at h; cases h
        | cons c1 rest1 =>
          rw [hsk2] at h
          simp only [] at h
          by_cases h2 : c1 = 0x7D
          · rw [if_pos h2] at h
            simp only [Option.some.injEq, Prod.mk.injEq] at h
            left; exact h.1.symm
          · rw [if_neg h2] at h
            cases hm : parseMembers f (depth + 1) (c1 :: rest1) with
            | none => rw [hm] at h; simp at h
            | some r =>
              rw [hm] at h
              simp only [Option.map_some', Option.some.injEq, Prod.mk.injEq] at h
              right; left
              exact ⟨r.1, _, h.1.symm, by rw [hm, ← h.2]⟩
      · rw [if_neg hd] at h; cases h
    rw [if_neg h1] at h
    by_cases h2 : c = 0x5B
    · rw [if_pos h2] at h
      by_cases hd : depth + 1 ≤ maxNestingDepth
      · rw [if_pos hd] at h
        cases hsk2 : skipSpace rest0 with
        | nil => rw [hsk2] at h; cases h
        | cons c1 rest1 =>
          rw [hsk2] at h
          simp only [] at h
          by_cases h3 : c1 = 0x5D
          · rw [if_pos h3] at h
            simp only [Option.some.injEq, Prod.mk.injEq] at h
            right; right; left; exact ⟨[], h.1.symm⟩
          · rw [if_neg h3] at h
            cases hm : parseElems f (depth + 1) (c1 :: rest1) with
            | none => rw [hm] at h; simp at h
            | some r =>
              rw [hm] at h
              simp only [Option.map_some', Option.some.injEq, Prod.mk.injEq] at h
              right; right; left; exact ⟨r.1, h.1.symm⟩
      · rw [if_neg hd] at h; cases h
    rw [if_neg h2] at h
    by_cases h3 : c = 0x22
    · rw [if_pos h3] at h
      cases hs : scanString rest0 with
      | none => rw [hs] at h; simp at h
      | some r =>
        rw [hs] at h
        simp only [Option.map_some', Option.some.injEq, Prod.mk.injEq] at h
        right; right; right; left
        exact ⟨r.1, rest0, h.1.symm, by rw [hs, ← h.2]⟩
    rw [if_neg h3] at h
    by_cases h4 : c = 0x74
    · rw [if_pos h4] at h
      cases hs : scanLiteral [0x72, 0x75, 0x65] rest0 with
      | none => rw [hs] at h; simp at h
      | some r =>
        rw [hs] at h
        simp only [Option.map_some', Option.some.injEq, Prod.mk.injEq] at h
        right; right; right; right; left; exact ⟨true, h.1.symm⟩
    rw [if_neg h4] at h
    by_cases h5 : c = 0x66
    · rw [if_pos h5] at h
      cases hs : scanLiteral [0x61, 0x6C, 0x73, 0x65] rest0 with
      | none => rw [hs] at h; simp at h
      | some r =>
        rw [hs] at h
        simp only [Option.map_some', Option.some.injEq, Prod.mk.injEq] at h
        right; right; right; right; left; exact ⟨false, h.1.symm⟩
    rw [if_neg h5] at h
    by_cases h6 : c = 0x6E
    · rw [if_pos h6] at h
      cases hs : scanLiteral [0x75, 0x6C, 0x6C] rest0 with
      | none => rw [hs] at h; simp at h
      | some r =>
        rw [hs] at h
        simp only [Option.map_some', Option.some.injEq, Prod.mk.injEq] at h
        right; right; right; right; right; left; exact h.1.symm
    rw [if_neg h6] at h
    by_cases h7 : c = 0x2D ∨ isDigit c = true
    · rw [if_pos h7] at h
      cases hs : scanNumber (c :: rest0) with
      | none => rw [hs] at h; simp at h
      | some r =>
        rw [hs] at h
        simp only [Option.map_some', Option.some.injEq, Prod.mk.injEq] at h
        right; right; right; right; right; right; exact h.1.symm
    · rw [if_neg h7] at h; cases h

/-- The shapes of the members the parser returns. -/
theorem parseMembers_shape (f depth : Nat) (inp : List Nat) (ms : List (List Nat × JValue))
    (rest : List Nat) (h : parseMembers (f + 1) depth inp = some (ms, rest)) :
    ∃ key v inpK restK inpV restV, scanString inpK = some (key, restK) ∧
      parseValue f depth inpV = some (v, restV) ∧
      (ms = [(key, v)] ∨
        ∃ more inp2, parseMembers f depth inp2 = some (more, rest) ∧ ms = (key, v) :: more) := by
  rw [parseMembers] at h
  cases hsk : skipSpace inp with
  | nil => rw [hsk] at h; cases h
  | cons q rest0 =>
    rw [hsk] at h
    simp only [] at h
    by_cases h1 : q = 0x22
    · rw [if_pos h1] at h
      cases hs : scanString rest0 with
      | none => rw [hs] at h; cases h
      | some r =>
        obtain ⟨key, rest1⟩ := r
        rw [hs] at h
        simp only [] at h
        cases hsk2 : skipSpace rest1 with
        | nil => rw [hsk2] at h; cases h
        | cons colon rest2 =>
          rw [hsk2] at h
          simp only [] at h
          by_cases h2 : colon = 0x3A
          · rw [if_pos h2] at h
            cases hv : parseValue f depth rest2 with
            | none => rw [hv] at h; cases h
            | some r =>
              obtain ⟨v, rest3⟩ := r
              rw [hv] at h
              simp only [] at h
              cases hsk3 : skipSpace rest3 with
              | nil => rw [hsk3] at h; cases h
              | cons sep rest4 =>
                rw [hsk3] at h
                simp only [] at h
                refine ⟨key, v, rest0, rest1, rest2, rest3, hs, hv, ?_⟩
                by_cases h3 : sep = 0x2C
                · rw [if_pos h3] at h
                  cases hm : parseMembers f depth rest4 with
                  | none => rw [hm] at h; simp at h
                  | some r =>
                    rw [hm] at h
                    simp only [Option.map_some', Option.some.injEq, Prod.mk.injEq] at h
                    right
                    exact ⟨r.1, rest4, by rw [hm, ← h.2], h.1.symm⟩
                · rw [if_neg h3] at h
                  by_cases h4 : sep = 0x7D
                  · rw [if_pos h4] at h
                    simp only [Option.some.injEq, Prod.mk.injEq] at h
                    left; exact h.1.symm
                  · rw [if_neg h4] at h; cases h
          · rw [if_neg h2] at h; cases h
    · rw [if_neg h1] at h; cases h

/-- Every string the parser delimits, as far as a destination of kind map reads
them, is a literal. -/
theorem parse_scanned (f : Nat) :
    (∀ depth inp v rest, parseValue f depth inp = some (v, rest) → ValueScanned v) ∧
    (∀ depth inp ms rest, parseMembers f depth inp = some (ms, rest) → MembersScanned ms) := by
  induction f with
  | zero =>
    constructor
    · intro depth inp v rest h; simp [parseValue] at h
    · intro depth inp ms rest h; simp [parseMembers] at h
  | succ f ih =>
    constructor
    · intro depth inp v rest h
      rcases parseValue_shape f depth inp v rest h with e | ⟨ms, inp2, e, hm⟩ | ⟨es, e⟩ |
        ⟨raw, inp2, e, hs⟩ | ⟨b, e⟩ | e | e
      · rw [e]; intro kv hkv; cases hkv
      · rw [e]; exact ih.2 _ _ _ _ hm
      · rw [e]; trivial
      · rw [e]; exact scanString_literal _ _ _ hs
      · rw [e]; trivial
      · rw [e]; trivial
      · rw [e]; trivial
    · intro depth inp ms rest h
      obtain ⟨key, v, inpK, restK, inpV, restV, hs, hv, hms⟩ := parseMembers_shape f depth inp ms rest h
      have hkey : Literal key := scanString_literal _ _ _ hs
      have hval : ∀ raw, v = JValue.string raw → Literal raw := by
        intro raw e
        have := ih.1 _ _ _ _ hv
        rw [e] at this
        exact this
      rcases hms with e | ⟨more, inp2, hm, e⟩
      · rw [e]
        intro kv hkv
        simp only [List.mem_singleton] at hkv
        rw [hkv]
        exact ⟨hkey, hval⟩
      · rw [e]
        intro kv hkv
        simp only [List.mem_cons] at hkv
        rcases hkv with hkv | hkv
        · rw [hkv]; exact ⟨hkey, hval⟩
        · exact ih.2 _ _ _ _ hm kv hkv

theorem parseJSON_scanned (bz : List Nat) (v : JValue) (h : parseJSON bz = some v) :
    ValueScanned v := by
  unfold parseJSON at h
  cases hp : parseValue (2 * bz.length + 2) 0 bz with
  | none => rw [hp] at h; cases h
  | some r =>
    obtain ⟨v2, rest⟩ := r
    rw [hp] at h
    simp only [] at h
    split_ifs at h
    simp only [Option.some.injEq] at h
    rw [← h]
    exact (parse_scanned _).1 _ _ _ _ hp

theorem unquoteBytes_literal (raw : List Nat) (h : Literal raw) :
    ∃ t, unquoteBytes raw = some t := by
  rw [unquoteBytes_eq_loop]
  exact unquoteLoop_literal _ raw (Nat.le_refl _) h

/-- Decoding scanned members never panics. -/
theorem decodeMembers_ok (ms : List (List Nat × JValue)) : ∀ (m : StrMap) (err : Option JsonError),
    MembersScanned ms → ∃ r, decodeMembers ms m err = .ok r := by
  induction ms with
  | nil => intro m err _; exact ⟨_, rfl⟩
  | cons kv more ih =>
    intro m err h
    obtain ⟨key, v⟩ := kv
    have hk := h (key, v) (List.mem_cons_self _ _)
    have hmore : MembersScanned more := fun kv2 hkv => h kv2 (List.mem_cons_of_mem _ hkv)
    obtain ⟨k, hk1⟩ := unquoteBytes_literal key hk.1
    cases v with
    | string raw =>
      obtain ⟨str, hs⟩ := unquoteBytes_literal raw (hk.2 raw rfl)
      simp only [decodeMembers, hk1, hs]
      exact ih _ _ hmore
    | null =>
      simp only [decodeMembers, hk1]
      exact ih _ _ hmore
    | bool b =>
      simp only [decodeMembers, hk1]
      exact ih _ _ hmore
    | number =>
      simp only [decodeMembers, hk1]
      exact ih _ _ hmore
    | array es =>
      simp only [decodeMembers, hk1]
      exact ih _ _ hmore
    | object ms2 =>
      simp only [decodeMembers, hk1]
      exact ih _ _ hmore

/-- Function `json.Unmarshal` into a map of strings never panics. -/
theorem jsonUnmarshal_ok (bz : List Nat) (m : GoMap) : ∃ r, jsonUnmarshal bz m = .ok r := by
  unfold jsonUnmarshal
  cases hp : parseJSON bz with
  | none => exact ⟨_, rfl⟩
  | some v =>
    have hsc := parseJSON_scanned bz v hp
    cases v with
    | null => exact ⟨_, rfl⟩
    | bool b => exact ⟨_, rfl⟩
    | number => exact ⟨_, rfl⟩
    | array es => exact ⟨_, rfl⟩
    | string raw =>
      obtain ⟨t, ht⟩ := unquoteBytes_literal raw hsc
      simp only [ht]
      exact ⟨_, rfl⟩
    | object ms =>
      obtain ⟨r, hr⟩ := decodeMembers_ok ms (m.getD ∅) none hsc
      simp only [hr]
      exact ⟨_, rfl⟩


/-! ## Helper lemmas: the parser consumes its input -/

theorem skipSpace_length (inp : List Nat) : (skipSpace inp).length ≤ inp.length := by
  induction inp with
  | nil => simp [skipSpace]
  | cons c t ih =>
    simp only [skipSpace]
    split_ifs
    · simp only [List.length_cons]; omega
    · exact Nat.le_refl _

theorem skipSpace_cons_length (inp : List Nat) (c : Nat) (rest : List Nat)
    (h : skipSpace inp = c :: rest) : rest.length < inp.length := by
  have := skipSpace_length inp
  rw [h] at this
  simp only [List.length_cons] at this
  omega

theorem skipDigits_length (inp : List Nat) : (skipDigits inp).length ≤ inp.length := by
  induction inp with
  | nil => simp [skipDigits]
  | cons c t ih =>
    simp only [skipDigits]
    split_ifs
    · simp only [List.length_cons]; omega
    · exact Nat.le_refl _

/-- The scanner's string is the input up to the closing quote. -/
theorem scanString_split (inp : List Nat) : ∀ (raw rest : List Nat),
    scanString inp = some (raw, rest) → inp = raw ++ 0x22 :: rest := by
  induction inp using scanString.induct with
  | case1 => intro raw rest h; simp [scanString] at h
  | case2 tail =>
    intro raw rest h
    unfold scanString at h
    simp only [if_true, Option.some.injEq, Prod.mk.injEq] at h
    rw [← h.1, ← h.2]; rfl
  | case3 => intro raw rest h; unfold scanString at h; simp at h
  | case4 e tail he _ ih =>
    intro raw rest h
    rw [scanString_escape e tail he] at h
    cases hs : scanString tail with
    | none => rw [hs] at h; simp at h
    | some r =>
      rw [hs] at h
      simp only [Option.map_some', Option.some.injEq, Prod.mk.injEq] at h
      rw [← h.1, ← h.2, ih r.1 r.2 hs]
      rfl
  | case5 h1 h2 h3 h4 rest2 hh _ _ ih =>
    intro raw rest h
    rw [scanString_u h1 h2 h3 h4 rest2 hh.1 hh.2.1 hh.2.2.1 hh.2.2.2] at h
    cases hs : scanString rest2 with
    | none => rw [hs] at h; simp at h
    | some r =>
      rw [hs] at h
      simp only [Option.map_some', Option.some.injEq, Prod.mk.injEq] at h
      rw [← h.1, ← h.2, ih r.1 r.2 hs]
      rfl
  | case6 h1 h2 h3 h4 rest2 hh _ _ =>
    intro raw rest h
    unfold scanString at h
    simp [hh] at h
  | case7 x hx _ _ =>
    intro raw rest h
    rcases x with _ | ⟨a, _ | ⟨b, _ | ⟨c, _ | ⟨d, r⟩⟩⟩⟩
    · unfold scanString at h; simp at h
    · unfold scanString at h; simp at h
    · unfold scanString at h; simp at h
    · unfold scanString at h; simp at h
    · exact (hx _ _ _ _ _ rfl).elim
  | case8 e tail he hu _ =>
    intro raw rest h
    unfold scanString at h
    simp [he, hu] at h
  | case9 c tail h1 h2 h3 =>
    intro raw rest h
    unfold scanString at h
    simp [h1, h2, h3] at h
  | case10 c tail h1 h2 h3 ih =>
    intro raw rest h
    rw [scanString_plain c tail h1 h2 h3] at h
    cases hs : scanString tail with
    | none => rw [hs] at h; simp at h
    | some r =>
      rw [hs] at h
      simp only [Option.map_some', Option.some.injEq, Prod.mk.injEq] at h
      rw [← h.1, ← h.2, ih r.1 r.2 hs]
      rfl

theorem scanString_length (inp raw rest : List Nat) (h : scanString inp = some (raw, rest)) :
    rest.length < inp.length := by
  rw [scanString_split inp raw rest h]
  simp only [List.length_append, List.length_cons]
  omega

theorem scanLiteral_length (lits : List Nat) : ∀ (inp rest : List Nat),
    scanLiteral lits inp = some rest → rest.length ≤ inp.length := by
  induction lits with
  | nil =>
    intro inp rest h
    cases inp <;>
    · simp only [scanLiteral, Option.some.injEq] at h
      rw [← h]
  | cons l ls ih =>
    intro inp rest h
    cases inp with
    | nil => simp [scanLiteral] at h
    | cons c t =>
      simp only [scanLiteral] at h
      split_ifs at h
      have := ih t rest h
      simp only [List.length_cons]; omega

theorem scanExp_length (inp rest : List Nat) (h : scanExp inp = some rest) :
    rest.length ≤ inp.length := by
  unfold scanExp at h
  have key : ∀ (X : List Nat), X.length ≤ inp.length →
      (match X with
        | d :: r => if isDigit d = true then some (skipDigits r) else none
        | [] => none) = some rest → rest.length ≤ inp.length := by
    intro X hX hm
    cases X with
    | nil => cases hm
    | cons d r =>
      simp only [] at hm
      split_ifs at hm
      simp only [Option.some.injEq] at hm
      have := skipDigits_length r
      rw [← hm]
      simp only [List.length_cons] at hX
      omega
  cases inp with
  | nil => exact key _ (Nat.le_refl _) h
  | cons c r =>
    simp only [] at h
    split_ifs at h
    · exact key _ (by simp) h
    · exact key _ (Nat.le_refl _) h

theorem scanFracExp_length (inp rest : List Nat) (h : scanFracExp inp = some rest) :
    rest.length ≤ inp.length := by
  unfold scanFracExp at h
  cases inp with
  | nil => simp only [Option.some.injEq] at h; rw [← h]
  | cons c r =>
    simp only [] at h
    split_ifs at h with h1 h2
    · cases r with
      | nil => cases h
      | cons d r1 =>
        simp only [] at h
        split_ifs at h
        have hsd := skipDigits_length r1
        cases hk : skipDigits r1 with
        | nil =>
          rw [hk] at h
          simp only [Option.some.injEq] at h
          rw [← h]; simp
        | cons e r3 =>
          rw [hk] at h hsd
          simp only [] at h
          simp only [List.length_cons] at hsd ⊢
          split_ifs at h
          · have := scanExp_length r3 rest h
            omega
          · simp only [Option.some.injEq] at h
            rw [← h]
            simp only [List.length_cons]; omega
    · have := scanExp_length r rest h
      simp only [List.length_cons]; omega
    · simp only [Option.some.injEq] at h
      rw [← h]

theorem scanNumber_length (c : Nat) (rest0 rest : List Nat)
    (h : scanNumber (c :: rest0) = some rest) : rest.length ≤ rest0.length := by
  unfold scanNumber at h
  simp only [] at h
  by_cases hm : c = 0x2D
  · simp only [hm, if_true] at h
    cases rest0 with
    | nil => cases h
    | cons c1 r =>
      simp only [] at h
      split_ifs at h
      · have := scanFracExp_length r rest h
        simp only [List.length_cons]; omega
      · have := scanFracExp_length _ rest h
        have := skipDigits_length r
        simp only [List.length_cons]; omega
  · simp only [hm, if_false] at h
    split_ifs at h
    · exact scanFracExp_length rest0 rest h
    · have := scanFracExp_length _ rest h
      have := skipDigits_length rest0
      omega

/-- One level of `parseValue` consumes input, if the levels below do. -/
theorem parseValue_succ_length (f depth : Nat) (inp : List Nat) (v : JValue) (rest : List Nat)
    (hM : ∀ d X ms r, parseMembers f d X = some (ms, r) → r.length < X.length)
    (hE : ∀ d X es r, parseElems f d X = some (es, r) → r.length < X.length)
    (h : parseValue (f + 1) depth inp = some (v, rest)) : rest.length < inp.length := by
  rw [parseValue] at h
  cases hsk : skipSpace inp with
  | nil => rw [hsk] at h; cases h
  | cons c rest0 =>
    have hl0 := skipSpace_cons_length inp c rest0 hsk
    rw [hsk] at h
    simp only [] at h
    by_cases h1 : c = 0x7B
    · rw [if_pos h1] at h
      by_cases hd : depth + 1 ≤ maxNestingDepth
      · rw [if_pos hd] at h
        cases hsk2 : skipSpace rest0 with
        | nil => rw [hsk2] at h; cases h
        | cons c1 rest1 =>
          have hl1 := skipSpace_cons_length rest0 c1 rest1 hsk2
          rw [hsk2] at h
          simp only [] at h
          by_cases h2 : c1 = 0x7D
          · rw [if_pos h2] at h
            simp only [Option.some.injEq, Prod.mk.injEq] at h
            rw [← h.2]; omega
          · rw [if_neg h2] at h
            cases hm : parseMembers f (depth + 1) (c1 :: rest1) with
            | none => rw [hm] at h; simp at h
            | some r =>
              rw [hm] at h
              simp only [Option.map_some', Option.some.injEq, Prod.mk.injEq] at h
              have := hM _ _ r.1 r.2 hm
              rw [← h.2]
              simp only [List.length_cons] at this
              omega
      · rw [if_neg hd] at h; cases h
    rw [if_neg h1] at h
    by_cases h2 : c = 0x5B
    · rw [if_pos h2] at h
      by_cases hd : depth + 1 ≤ maxNestingDepth
      · rw [if_pos hd] at h
        cases hsk2 : skipSpace rest0 with
        | nil => rw [hsk2] at h; cases h
        | cons c1 rest1 =>
          have hl1 := skipSpace_cons_length rest0 c1 rest1 hsk2
          rw [hsk2] at h
          simp only [] at h
          by_cases h3 : c1 = 0x5D
          · rw [if_pos h3] at h
            simp only [Option.some.injEq, Prod.mk.injEq] at h
            rw [← h.2]; omega
          · rw [if_neg h3] at h
            cases hm : parseElems f (depth + 1) (c1 :: rest1) with
            | none => rw [hm] at h; simp at h
            | some r =>
              rw [hm] at h
              simp only [Option.map_some', Option.some.injEq, Prod.mk.injEq] at h
              have := hE _ _ r.1 r.2 hm
              rw [← h.2]
              simp only [List.length_cons] at this
              omega
      · rw [if_neg hd] at h; cases h
    rw [if_neg h2] at h
    by_cases h3 : c = 0x22
    · rw [if_pos h3] at h
      cases hs : scanString rest0 with
      | none => rw [hs] at h; simp at h
      | some r =>
        rw [hs] at h
        simp only [Option.map_some', Option.some.injEq, Prod.mk.injEq] at h
        have := scanString_length rest0 r.1 r.2 hs
        rw [← h.2]; omega
    rw [if_neg h3] at h
    by_cases h4 : c = 0x74
    · rw [if_pos h4] at h
      cases hs : scanLiteral [0x72, 0x75, 0x65] rest0 with
      | none => rw [hs] at h; simp at h
      | some r =>
        rw [hs] at h
        simp only [Option.map_some', Option.some.injEq, Prod.mk.injEq] at h
        have := scanLiteral_length _ rest0 r hs
        rw [← h.2]; omega
    rw [if_neg h4] at h
    by_cases h5 : c = 0x66
    · rw [if_pos h5] at h
      cases hs : scanLiteral [0x61, 0x6C, 0x73, 0x65] rest0 with
      | none => rw [hs] at h; simp at h
      | some r =>
        rw [hs] at h
        simp only [Option.map_some', Option.some.injEq, Prod.mk.injEq] at h
        have := scanLiteral_length _ rest0 r hs
        rw [← h.2]; omega
    rw [if_neg h5] at h
    by_cases h6 : c = 0x6E
    · rw [if_pos h6] at h
      cases hs : scanLiteral [0x75, 0x6C, 0x6C] rest0 with
      | none => rw [hs] at h; simp at h
      | some r =>
        rw [hs] at h
        simp only [Option.map_some', Option.some.injEq, Prod.mk.injEq] at h
        have := scanLiteral_length _ rest0 r hs
        rw [← h.2]; omega
    rw [if_neg h6] at h
    by_cases h7 : c = 0x2D ∨ isDigit c = true
    · rw [if_pos h7] at h
      cases hs : scanNumber (c :: rest0) with
      | none => rw [hs] at h; simp at h
      | some r =>
        rw [hs] at h
        simp only [Option.map_some', Option.some.injEq, Prod.mk.injEq] at h
        have := scanNumber_length c rest0 r hs
        rw [← h.2]; omega
    · rw [if_neg h7] at h; cases h

/-- One level of `parseMembers` consumes input, if the levels below do. -/
theorem parseMembers_succ_length (f depth : Nat) (inp : List Nat)
    (ms : List (List Nat × JValue)) (rest : List Nat)
    (hV : ∀ d X v r, parseValue f d X = some (v, r) → r.length < X.length)
    (hM : ∀ d X ms r, parseMembers f d X = some (ms, r) → r.length < X.length)
    (h : parseMembers (f + 1) depth inp = some (ms, rest)) : rest.length < inp.length := by
  rw [parseMembers] at h
  cases hsk : skipSpace inp with
  | nil => rw [hsk] at h; cases h
  | cons q rest0 =>
    have hl0 := skipSpace_cons_length inp q rest0 hsk
    rw [hsk] at h
    simp only [] at h
    by_cases h1 : q = 0x22
    · rw [if_pos h1] at h
      cases hs : scanString rest0 with
      | none => rw [hs] at h; cases h
      | some r =>
        obtain ⟨key, rest1⟩ := r
        have hl1 := scanString_length rest0 key rest1 hs
        rw [hs] at h
        simp only [] at h
        cases hsk2 : skipSpace rest1 with
        | nil => rw [hsk2] at h; cases h
        | cons colon rest2 =>
          have hl2 := skipSpace_cons_length rest1 colon rest2 hsk2
          rw [hsk2] at h
          simp only [] at h
          by_cases h2 : colon = 0x3A
          · rw [if_pos h2] at h
            cases hv : parseValue f depth rest2 with
            | none => rw [hv] at h; cases h
            | some r =>
              obtain ⟨v, rest3⟩ := r
              have hl3 := hV _ _ v rest3 hv
              rw [hv] at h
              simp only [] at h
              cases hsk3 : skipSpace rest3 with
              | nil => rw [hsk3] at h; cases h
              | cons sep rest4 =>
                have hl4 := skipSpace_cons_length rest3 sep rest4 hsk3
                rw [hsk3] at h
                simp only [] at h
                by_cases h3 : sep = 0x2C
                · rw [if_pos h3] at h
                  cases hm : parseMembers f depth rest4 with
                  | none => rw [hm] at h; simp at h
                  | some r =>
                    rw [hm] at h
                    simp only [Option.map_some', Option.some.injEq, Prod.mk.injEq] at h
                    have := hM _ _ r.1 r.2 hm
                    rw [← h.2]; omega
                · rw [if_neg h3] at h
                  by_cases h4 : sep = 0x7D
                  · rw [if_pos h4] at h
                    simp only [Option.some.injEq, Prod.mk.injEq] at h
                    rw [← h.2]; omega
                  · rw [if_neg h4] at h; cases h
          · rw [if_neg h2] at h; cases h
    · rw [if_neg h1] at h; cases h

/-- One level of `parseElems` consumes input, if the levels below do. -/
theorem parseElems_succ_length (f depth : Nat) (inp : List Nat)
    (es : List JValue) (rest : List Nat)
    (hV : ∀ d X v r, parseValue f d X = some (v, r) → r.length < X.length)
    (hE : ∀ d X es r, parseElems f d X = some (es, r) → r.length < X.length)
    (h : parseElems (f + 1) depth inp = some (es, rest)) : rest.length < inp.length := by
  rw [parseElems] at h
  cases hv : parseValue f depth inp with
  | none => rw [hv] at h; cases h
  | some r =>
    obtain ⟨v, rest1⟩ := r
    have hl1 := hV _ _ v rest1 hv
    rw [hv] at h
    simp only [] at h
    cases hsk : skipSpace rest1 with
    | nil => rw [hsk] at h; cases h
    | cons sep rest2 =>
      have hl2 := skipSpace_cons_length rest1 sep rest2 hsk
      rw [hsk] at h
      simp only [] at h
      by_cases h3 : sep = 0x2C
      · rw [if_pos h3] at h
        cases hm : parseElems f depth rest2 with
        | none => rw [hm] at h; simp at h
        | some r =>
          rw [hm] at h
          simp only [Option.map_some', Option.some.injEq, Prod.mk.injEq] at h
          have := hE _ _ r.1 r.2 hm
          rw [← h.2]; omega
      · rw [if_neg h3] at h
        by_cases h4 : sep = 0x5D
        · rw [if_pos h4] at h
          simp only [Option.some.injEq, Prod.mk.injEq] at h
          rw [← h.2]; omega
        · rw [if_neg h4] at h; cases h

/-- Whatever the parser returns, it has consumed input. -/
theorem parse_length (f : Nat) :
    (∀ d X v r, parseValue f d X = some (v, r) → r.length < X.length) ∧
    (∀ d X ms r, parseMembers f d X = some (ms, r) → r.length < X.length) ∧
    (∀ d X es r, parseElems f d X = some (es, r) → r.length < X.length) := by
  induction f with
  | zero =>
    refine ⟨?_, ?_, ?_⟩
    · intro d X v r h; simp [parseValue] at h
    · intro d X ms r h; simp [parseMembers] at h
    · intro d X es r h; simp [parseElems] at h
  | succ f ih =>
    refine ⟨?_, ?_, ?_⟩
    · intro d X v r h
      exact parseValue_succ_length f d X v r ih.2.1 ih.2.2 h
    · intro d X ms r h
      exact parseMembers_succ_length f d X ms r ih.1 ih.2.1 h
    · intro d X es r h
      exact parseElems_succ_length f d X es r ih.1 ih.2.2 h

/-! ## Helper lemmas: the parser's fuel is enough -/

theorem parseValue_succ_congr (f g depth : Nat) (inp : List Nat)
    (hM : ∀ X, X.length < inp.length →
      parseMembers g (depth + 1) X = parseMembers f (depth + 1) X)
    (hE : ∀ X, X.length < inp.length →
      parseElems g (depth + 1) X = parseElems f (depth + 1) X) :
    parseValue (g + 1) depth inp = parseValue (f + 1) depth inp := by
  rw [parseValue, parseValue]
  cases hsk : skipSpace inp with
  | nil => rfl
  | cons c rest0 =>
    have hl0 := skipSpace_cons_length inp c rest0 hsk
    simp only []
    by_cases h1 : c = 0x7B
    · rw [if_pos h1, if_pos h1]
      by_cases hd : depth + 1 ≤ maxNestingDepth
      · rw [if_pos hd, if_pos hd]
        cases hsk2 : skipSpace rest0 with
        | nil => rfl
        | cons c1 rest1 =>
          have hl1 := skipSpace_length rest0
          rw [hsk2] at hl1
          simp only []
          rw [hM (c1 :: rest1) (by omega)]
      · rw [if_neg hd, if_neg hd]
    rw [if_neg h1, if_neg h1]
    by_cases h2 : c = 0x5B
    · rw [if_pos h2, if_pos h2]
      by_cases hd : depth + 1 ≤ maxNestingDepth
      · rw [if_pos hd, if_pos hd]
        cases hsk2 : skipSpace rest0 with
        | nil => rfl
        | cons c1 rest1 =>
          have hl1 := skipSpace_length rest0
          rw [hsk2] at hl1
          simp only []
          rw [hE (c1 :: rest1) (by omega)]
      · rw [if_neg hd, if_neg hd]
    rw [if_neg h2, if_neg h2]

theorem parseMembers_succ_congr (f g depth : Nat) (inp : List Nat)
    (hV : ∀ X, X.length < inp.length → parseValue g depth X = parseValue f depth X)
    (hM : ∀ X, X.length < inp.length → parseMembers g depth X = parseMembers f depth X) :
    parseMembers (g + 1) depth inp = parseMembers (f + 1) depth inp := by
  rw [parseMembers, parseMembers]
  cases hsk : skipSpace inp with
  | nil => rfl
  | cons q rest0 =>
    have hl0 := skipSpace_cons_length inp q rest0 hsk
    simp only []
    by_cases h1 : q = 0x22
    · rw [if_pos h1, if_pos h1]
      cases hs : scanString rest0 with
      | none => rfl
      | some r =>
        obtain ⟨key, rest1⟩ := r
        have hl1 := scanString_length rest0 key rest1 hs
        simp only []
        cases hsk2 : skipSpace rest1 with
        | nil => rfl
        | cons colon rest2 =>
          have hl2 := skipSpace_cons_length rest1 colon rest2 hsk2
          simp only []
          by_cases h2 : colon = 0x3A
          · rw [if_pos h2, if_pos h2, hV rest2 (by omega)]
            cases hv : parseValue f depth rest2 with
            | none => rfl
            | some r =>
              obtain ⟨v, rest3⟩ := r
              have hl3 := (parse_length f).1 _ _ v rest3 hv
              simp only []
              cases hsk3 : skipSpace rest3 with
              | nil => rfl
              | cons sep rest4 =>
                have hl4 := skipSpace_cons_length rest3 sep rest4 hsk3
                simp only []
                rw [hM rest4 (by omega)]
          · rw [if_neg h2, if_neg h2]
    · rw [if_neg h1, if_neg h1]

theorem parseElems_succ_congr (f g depth : Nat) (inp : List Nat)
    (hV : ∀ X, X.length ≤ inp.length → parseValue g depth X = parseValue f depth X)
    (hE : ∀ X, X.length < inp.length → parseElems g depth X = parseElems f depth X) :
    parseElems (g + 1) depth inp = parseElems (f + 1) depth inp := by
  rw [parseElems, parseElems, hV inp (Nat.le_refl _)]
  cases hv : parseValue f depth inp with
  | none => rfl
  | some r =>
    obtain ⟨v, rest1⟩ := r
    have hl1 := (parse_length f).1 _ _ v rest1 hv
    simp only []
    cases hsk : skipSpace rest1 with
    | nil => rfl
    | cons sep rest2 =>
      have hl2 := skipSpace_cons_length rest1 sep rest2 hsk
      simp only []
      rw [hE rest2 (by omega)]

/-- Beyond twice the length of the input, more fuel changes nothing: the parser
never stops for lack of fuel. -/
theorem parse_fuel (f : Nat) :
    (∀ g d X, f ≤ g → 2 * X.length + 1 ≤ f → parseValue g d X = parseValue f d X) ∧
    (∀ g d X, f ≤ g → 2 * X.length + 1 ≤ f → parseMembers g d X = parseMembers f d X) ∧
    (∀ g d X, f ≤ g → 2 * X.length + 2 ≤ f → parseElems g d X = parseElems f d X) := by
  induction f with
  | zero =>
    refine ⟨?_, ?_, ?_⟩ <;>
    · intro g d X _ h
      omega
  | succ f ih =>
    refine ⟨?_, ?_, ?_⟩
    · intro g d X hg hX
      obtain ⟨g, rfl⟩ : ∃ g2, g = g2 + 1 := ⟨g - 1, by omega⟩
      apply parseValue_succ_congr
      · intro Y hY
        exact ih.2.1 g _ Y (by omega) (by omega)
      · intro Y hY
        exact ih.2.2 g _ Y (by omega) (by omega)
    · intro g d X hg hX
      obtain ⟨g, rfl⟩ : ∃ g2, g = g2 + 1 := ⟨g - 1, by omega⟩
      apply parseMembers_succ_congr
      · intro Y hY
        exact ih.1 g _ Y (by omega) (by omega)
      · intro Y hY
        exact ih.2.1 g _ Y (by omega) (by omega)
    · intro g d X hg hX
      obtain ⟨g, rfl⟩ : ∃ g2, g = g2 + 1 := ⟨g - 1, by omega⟩
      apply parseElems_succ_congr
      · intro Y hY
        exact ih.1 g _ Y (by omega) (by omega)
      · intro Y hY
        exact ih.2.2 g _ Y (by omega) (by omega)

/-- The fuel `parseJSON` gives the parser is enough: with any larger amount the
parser returns the same. -/
theorem parseValue_fuel_irrelevant (data : List Nat) (g : Nat) (h : 2 * data.length + 2 ≤ g) :
    parseValue g 0 data = parseValue (2 * data.length + 2) 0 data :=
  (parse_fuel (2 * data.length + 2)).1 g 0 data h (by omega)

/-- The loop of `appendString` never stops for lack of fuel: with the length of
the input or more it returns the same. -/
theorem appendStringLoop_fuel (f : Nat) : ∀ (g : Nat) (s : List Nat),
    s.length ≤ f → s.length ≤ g → appendStringLoop f s = appendStringLoop g s := by
  induction f with
  | zero =>
    intro g s h1 _
    cases s with
    | nil => cases g <;> rfl
    | cons c rest => simp at h1
  | succ f ih =>
    intro g s h1 h2
    cases s with
    | nil => cases g <;> rfl
    | cons c rest =>
      cases g with
      | zero => simp at h2
      | succ g =>
        have hl := appendStringStep_length c rest
        simp only [List.length_cons] at h1 h2
        simp only [appendStringLoop]
        rw [ih g _ (by omega) (by omega)]

/-- The loop of `utf8.Valid` never stops for lack of fuel. -/
theorem validLoop_fuel (f : Nat) : ∀ (g : Nat) (s : List Nat),
    s.length ≤ f → s.length ≤ g → validLoop f s = validLoop g s := by
  induction f with
  | zero =>
    intro g s h1 _
    cases s with
    | nil => cases g <;> rfl
    | cons c rest => simp at h1
  | succ f ih =>
    intro g s h1 h2
    cases s with
    | nil => cases g <;> rfl
    | cons c rest =>
      cases g with
      | zero => simp at h2
      | succ g =>
        have hp := decodeRune_size_pos c rest
        simp only [List.length_cons] at h1 h2
        simp only [validLoop]
        split_ifs
        · rfl
        · apply ih
          · simp only [List.length_drop, List.length_cons]; omega
          · simp only [List.length_drop, List.length_cons]; omega


/-! ## Helper lemmas: the message adapters -/

theorem foldl_append_index (p : GoMap) (l init : List GoString) :
    l.foldl (fun out key => out ++ [mapIndex p key]) init = init ++ l.map (mapIndex p) := by
  induction l generalizing init with
  | nil => simp
  | cons a t ih => simp [ih]

/-- Reading a map at each of its keys, in their order, gives the values of its
entries. -/
theorem map_index_keys (m : StrMap) :
    m.keys.map (mapIndex (some m)) = m.entries.map (fun e => e.2) := by
  unfold AList.keys List.keys
  rw [List.map_map]
  apply List.map_congr_left
  intro e he
  obtain ⟨k, v⟩ := e
  have : m.lookup k = some v := by
    rw [← Option.mem_def, AList.mem_lookup_iff]
    exact he
  simp [mapIndex, this]

/-- The loop of the `Keys` methods on a non-nil map: as many empty strings as
the map has entries, then the values of the entries. -/
theorem keysLoop_some (m : StrMap) :
    keysLoop (some m) = List.replicate m.entries.length [] ++ m.entries.map (fun e => e.2) := by
  simp only [keysLoop, mapRange, mapLen, foldl_append_index, map_index_keys]


/-! ## Helper lemmas: cutting and hexadecimal digits -/

theorem cut_no_sep (sep : Nat) (p : List Nat) (h : ∀ b ∈ p, b ≠ sep) :
    cut sep p = (p, [], false) := by
  induction p with
  | nil => rfl
  | cons c t ih =>
    have hc : c ≠ sep := h c (List.mem_cons_self _ _)
    have ht := ih (fun b hb => h b (List.mem_cons_of_mem _ hb))
    simp only [cut, hc, if_false, ht]

theorem cut_append (sep : Nat) (p r : List Nat) (h : ∀ b ∈ p, b ≠ sep) :
    cut sep (p ++ sep :: r) = (p, r, true) := by
  induction p with
  | nil => simp [cut]
  | cons c t ih =>
    have hc : c ≠ sep := h c (List.mem_cons_self _ _)
    have ht := ih (fun b hb => h b (List.mem_cons_of_mem _ hb))
    have ht2 : cut sep (t.append (sep :: r)) = (t, r, true) := ht
    simp only [List.cons_append, cut, hc, if_false, ht2]

/-- What `strings.Cut` found is the text before and after the separator. -/
theorem cut_found (sep : Nat) (s : List Nat) (h : (cut sep s).2.2 = true) :
    s = (cut sep s).1 ++ sep :: (cut sep s).2.1 := by
  induction s with
  | nil => simp [cut] at h
  | cons c t ih =>
    by_cases hc : c = sep
    · simp only [cut, hc, if_true, List.nil_append]
    · simp only [cut, hc, if_false] at h ⊢
      rw [List.cons_append, ← ih h]

theorem hexDigit_props (n : Nat) (h : n < 16) :
    hexDigit n ≠ 0x2D ∧ ¬ (0x41 ≤ hexDigit n ∧ hexDigit n ≤ 0x46) ∧
      fromHexChar (hexDigit n) = some n := by
  simp only [hexDigit, fromHexChar]
  split_ifs <;> first | omega | (refine ⟨by omega, by omega, ?_⟩; congr 1; omega)

theorem hexEncode_length (bs : List Nat) : (hexEncode bs).length = 2 * bs.length := by
  induction bs with
  | nil => rfl
  | cons b t ih => simp only [hexEncode, List.length_cons, ih]; omega

theorem hexEncode_mem (bs : List Nat) (hb : ∀ b ∈ bs, b < 256) :
    ∀ c ∈ hexEncode bs, c ≠ 0x2D ∧ ¬ (0x41 ≤ c ∧ c ≤ 0x46) := by
  induction bs with
  | nil => intro c hc; simp [hexEncode] at hc
  | cons b t ih =>
    intro c hc
    have hb0 : b < 256 := hb b (List.mem_cons_self _ _)
    have ht := ih (fun x hx => hb x (List.mem_cons_of_mem _ hx))
    simp only [hexEncode, List.mem_cons] at hc
    rcases hc with rfl | rfl | hc
    · exact ⟨(hexDigit_props _ (by omega)).1, (hexDigit_props _ (by omega)).2.1⟩
    · exact ⟨(hexDigit_props _ (by omega)).1, (hexDigit_props _ (by omega)).2.1⟩
    · exact ht c hc

theorem hexDecode_hexEncode (bs : List Nat) (hb : ∀ b ∈ bs, b < 256) :
    hexDecode (hexEncode bs) = some bs := by
  induction bs with
  | nil => rfl
  | cons b t ih =>
    have hb0 : b < 256 := hb b (List.mem_cons_self _ _)
    have ht := ih (fun x hx => hb x (List.mem_cons_of_mem _ hx))
    simp only [hexEncode, hexDecode, (hexDigit_props (b / 16) (by omega)).2.2,
      (hexDigit_props (b % 16) (by omega)).2.2, ht]
    congr 2
    omega

theorem upperHex_hexEncode (bs : List Nat) (hb : ∀ b ∈ bs, b < 256) :
    upperHex (hexEncode bs) = false := by
  simp only [upperHex, List.any_eq_false, decide_eq_true_eq]
  intro c hc
  exact (hexEncode_mem bs hb c hc).2

/-- A part the encoder wrote, followed by a hyphen, is extracted as the bytes it
was written for. -/
theorem extractPart_hexEncode (bs r : List Nat) (hb : ∀ b ∈ bs, b < 256) :
    extractPart (hexEncode bs ++ 0x2D :: r) (2 * bs.length) = (some bs, r) := by
  have hc := cut_append 0x2D (hexEncode bs) r (fun b hb2 => (hexEncode_mem bs hb b hb2).1)
  have hl := hexEncode_length bs
  have hl2 : ¬ ((hexEncode bs).length ≠ 2 * bs.length ∨ upperHex (hexEncode bs) = true) := by
    rw [upperHex_hexEncode bs hb]; simp [hl]
  have hn : ¬ (bs.length ≠ 2 * bs.length / 2) := by omega
  simp only [extractPart, hc, hl2, if_false, hexDecode_hexEncode bs hb, hn]

/-- The last part the encoder wrote is extracted as the bytes it was written for. -/
theorem extractPart_hexEncode_last (bs : List Nat) (hb : ∀ b ∈ bs, b < 256) :
    extractPart (hexEncode bs) (2 * bs.length) = (some bs, []) := by
  have hc := cut_no_sep 0x2D (hexEncode bs) (fun b hb2 => (hexEncode_mem bs hb b hb2).1)
  have hl := hexEncode_length bs
  have hl2 : ¬ ((hexEncode bs).length ≠ 2 * bs.length ∨ upperHex (hexEncode bs) = true) := by
    rw [upperHex_hexEncode bs hb]; simp [hl]
  have hn : ¬ (bs.length ≠ 2 * bs.length / 2) := by omega
  simp only [extractPart, hc, hl2, if_false, hexDecode_hexEncode bs hb, hn]

/-- The header `traceparent` that `Inject` writes is read back as the ids and the
flag it was written for. -/
theorem parseTraceParent_header (tid sid : List Nat) (fl : Nat)
    (h1 : tid.length = 16) (h2 : ∀ b ∈ tid, b < 256)
    (h3 : sid.length = 8) (h4 : ∀ b ∈ sid, b < 256) (h5 : fl < 2) :
    parseTraceParent ([0x30, 0x30] ++ [0x2D] ++ hexEncode tid ++ [0x2D] ++ hexEncode sid
        ++ [0x2D] ++ hexEncode [fl])
      = some (tid, sid, fl) := by
  have e0 : ([0x30, 0x30] ++ [0x2D] ++ hexEncode tid ++ [0x2D] ++ hexEncode sid
        ++ [0x2D] ++ hexEncode [fl] : List Nat)
      = hexEncode [0] ++ 0x2D :: (hexEncode tid ++ 0x2D :: (hexEncode sid ++
          0x2D :: hexEncode [fl])) := by
    simp [hexEncode, hexDigit]
  have p0 := extractPart_hexEncode [0] (hexEncode tid ++ 0x2D :: (hexEncode sid ++
    0x2D :: hexEncode [fl])) (by simp)
  have p1 := extractPart_hexEncode tid (hexEncode sid ++ 0x2D :: hexEncode [fl]) h2
  have p2 := extractPart_hexEncode sid (hexEncode [fl]) h4
  have p3 := extractPart_hexEncode_last [fl] (by simp; omega)
  rw [h1] at p1
  rw [h3] at p2
  simp only [List.length_singleton] at p0 p3
  rw [e0]
  simp only [parseTraceParent, p0, p1, p2, p3, List.headD_cons]
  have c1 : ¬ (254 < 0) := by omega
  have c2 : ¬ (([] : List Nat) ≠ [] ∨ 2 < fl) := by
    intro hh
    rcases hh with hh2 | hh2
    · exact hh2 rfl
    · omega
  simp only [c1, c2, if_false, and_false]

/-! ## Helper lemmas: trace states -/

theorem checkKeyRemainLoop_mem (f : Nat) : ∀ (r : List Nat), r.length ≤ f →
    checkKeyRemainLoop f r = true → ∀ b ∈ r, b ≠ 0x2C ∧ b ≠ 0x3D := by
  induction f with
  | zero =>
    intro r h _ b hb
    cases r with
    | nil => cases hb
    | cons c t => simp at h
  | succ f ih =>
    intro r h hc b hb
    cases r with
    | nil => cases hb
    | cons c t =>
      simp only [checkKeyRemainLoop] at hc
      split_ifs at hc with hok
      simp only [List.length_cons] at h
      by_cases hlt : c < 0x80
      · have hd : decodeRune (c :: t) = (c, 1) := by simp [decodeRune, hlt]
        rw [hd] at hok hc
        simp only [List.drop_succ_cons, List.drop_zero] at hc
        simp only [List.mem_cons] at hb
        rcases hb with rfl | hb
        · simp only [isAlphaNum, decide_eq_true_eq] at hok
          have : b % 256 = b := by omega
          rw [this] at hok
          omega
        · exact ih t (by omega) hc b hb
      · rcases decodeRune_nonAscii c t hlt with e | ⟨chunk, tail, hk⟩
        · rw [e] at hok
          simp only [RuneError, isAlphaNum, decide_eq_true_eq] at hok
          omega
        · have htail : (c :: t).drop (decodeRune (c :: t)).2 = tail := by
            rw [hk.size, hk.split]; simp
          rw [htail] at hc
          have hlen := congrArg List.length hk.split
          have h2 := hk.two
          simp only [List.length_cons, List.length_append] at hlen
          rw [hk.split, List.mem_append] at hb
          rcases hb with hb | hb
          · have := hk.high b hb
            omega
          · exact ih tail (by omega) hc b hb

theorem checkKeyRemain_mem (r : List Nat) (h : checkKeyRemain r = true) :
    ∀ b ∈ r, b ≠ 0x2C ∧ b ≠ 0x3D :=
  checkKeyRemainLoop_mem r.length r (Nat.le_refl _) h

theorem checkKeyPart_facts (k : List Nat) (n : Nat) (h : checkKeyPart k n = true) :
    k ≠ [] ∧ (∀ b ∈ k, b ≠ 0x2C ∧ b ≠ 0x3D) ∧ trimLeftBlank k = k := by
  cases k with
  | nil => simp [checkKeyPart] at h
  | cons first rest =>
    simp only [checkKeyPart, Bool.and_eq_true, decide_eq_true_eq] at h
    obtain ⟨⟨_, hf⟩, hr⟩ := h
    refine ⟨by simp, ?_, ?_⟩
    · intro b hb
      simp only [List.mem_cons] at hb
      rcases hb with rfl | hb
      · omega
      · exact checkKeyRemain_mem rest hr b hb
    · have : ¬ (first = 0x20 ∨ first = 0x09) := by omega
      simp only [trimLeftBlank, this, if_false]

theorem checkKeyTenant_facts (k : List Nat) (n : Nat) (h : checkKeyTenant k n = true) :
    k ≠ [] ∧ (∀ b ∈ k, b ≠ 0x2C ∧ b ≠ 0x3D) ∧ ∀ t, trimLeftBlank (k ++ t) = k ++ t := by
  cases k with
  | nil => simp [checkKeyTenant] at h
  | cons first rest =>
    simp only [checkKeyTenant, Bool.and_eq_true, decide_eq_true_eq, isAlphaNum] at h
    obtain ⟨⟨hf, _⟩, hr⟩ := h
    refine ⟨by simp, ?_, ?_⟩
    · intro b hb
      simp only [List.mem_cons] at hb
      rcases hb with rfl | hb
      · omega
      · exact checkKeyRemain_mem rest hr b hb
    · intro t
      have : ¬ (first = 0x20 ∨ first = 0x09) := by omega
      simp only [List.cons_append, trimLeftBlank, this, if_false]
      rfl

/-- A key that passes `checkKey` is not empty, holds no comma and no equals sign,
and starts with no blank. -/
theorem checkKey_facts (k : List Nat) (h : checkKey k = true) :
    k ≠ [] ∧ (∀ b ∈ k, b ≠ 0x2C ∧ b ≠ 0x3D) ∧ trimLeftBlank k = k := by
  unfold checkKey at h
  by_cases hc : (cut 0x40 k).2.2 = true
  · rw [if_pos hc] at h
    simp only [Bool.and_eq_true] at h
    have hk := cut_found 0x40 k hc
    obtain ⟨t1, t2, t3⟩ := checkKeyTenant_facts _ _ h.1
    obtain ⟨s1, s2, _⟩ := checkKeyPart_facts _ _ h.2
    refine ⟨?_, ?_, ?_⟩
    · rw [hk]; simp
    · intro b hb
      rw [hk, List.mem_append, List.mem_cons] at hb
      rcases hb with hb | rfl | hb
      · exact t2 b hb
      · omega
      · exact s2 b hb
    · rw [hk]; exact t3 _
  · rw [if_neg hc] at h
    exact checkKeyPart_facts k 255 h

/-- A value that passes `checkValue` is not empty, holds no comma and no equals
sign, and ends with no blank. -/
theorem checkValue_facts (v : List Nat) (h : checkValue v = true) :
    v ≠ [] ∧ (∀ b ∈ v, b ≠ 0x2C ∧ b ≠ 0x3D) ∧ trimRightBlank v = v := by
  unfold checkValue at h
  cases hr : v.reverse with
  | nil => rw [hr] at h; cases h
  | cons last front =>
    rw [hr] at h
    simp only [Bool.and_eq_true, decide_eq_true_eq, List.all_eq_true, checkValueChar,
      checkValueLast] at h
    obtain ⟨⟨_, hfront⟩, hlast⟩ := h
    have hv : v = front.reverse ++ [last] := by
      have := congrArg List.reverse hr
      simpa using this
    refine ⟨?_, ?_, ?_⟩
    · rw [hv]; simp
    · intro b hb
      rw [hv, List.mem_append, List.mem_singleton, List.mem_reverse] at hb
      rcases hb with hb | rfl
      · have := hfront b hb
        omega
      · omega
    · have : ¬ (last = 0x20 ∨ last = 0x09) := by omega
      simp only [trimRightBlank, hr, trimLeftBlank, this, if_false]
      rw [← hr, List.reverse_reverse]

/-- A member written as `key=value` is parsed as that member. -/
theorem parseMember_written (k v : List Nat) (hk : checkKey k = true) (hv : checkValue v = true) :
    parseMember (k ++ 0x3D :: v) = some (k, v) := by
  obtain ⟨_, k2, k3⟩ := checkKey_facts k hk
  obtain ⟨_, _, v3⟩ := checkValue_facts v hv
  have hc := cut_append 0x3D k v (fun b hb => (k2 b hb).2)
  simp only [parseMember, hc, if_true, k3, v3, newMember, hk, hv, Bool.and_self]

theorem member_no_comma (k v : List Nat) (hk : checkKey k = true) (hv : checkValue v = true) :
    ∀ b ∈ k ++ 0x3D :: v, b ≠ 0x2C := by
  obtain ⟨_, k2, _⟩ := checkKey_facts k hk
  obtain ⟨_, v2, _⟩ := checkValue_facts v hv
  intro b hb
  rw [List.mem_append, List.mem_cons] at hb
  rcases hb with hb | rfl | hb
  · exact (k2 b hb).1
  · omega
  · exact (v2 b hb).1

theorem parseTraceStateLoop_step (f : Nat) (s mstr ts : List Nat)
    (acc : List (GoString × GoString)) (m : GoString × GoString) (hs : s ≠ [])
    (h1 : (cut 0x2C s).1 = mstr) (h2 : (cut 0x2C s).2.1 = ts) (hm : mstr ≠ [])
    (hp : parseMember mstr = some m) (hdup : m.1 ∉ acc.map (fun x => x.1))
    (hcount : ¬ maxListMembers < (acc ++ [m]).length) :
    parseTraceStateLoop (f + 1) s acc = parseTraceStateLoop f ts (acc ++ [m]) := by
  cases s with
  | nil => exact absurd rfl hs
  | cons c rest =>
    simp only [parseTraceStateLoop, h1, h2, hm, if_false, hp, hdup, hcount]

theorem traceStateString_cons (m : GoString × GoString) (t : List (GoString × GoString)) :
    traceStateString (m :: t)
      = (m.1 ++ 0x3D :: m.2) ++ (if t = [] then [] else 0x2C :: traceStateString t) := by
  cases t with
  | nil => simp [traceStateString]
  | cons m2 more => simp [traceStateString]

/-- The loop of `ParseTraceState` reads the members `TraceState.String` wrote. -/
theorem parseTraceStateLoop_written (ms : List (GoString × GoString)) :
    ∀ (f : Nat) (acc : List (GoString × GoString)), (traceStateString ms).length ≤ f →
    (∀ m ∈ ms, checkKey m.1 = true ∧ checkValue m.2 = true) →
    ((acc ++ ms).map (fun x => x.1)).Nodup → (acc ++ ms).length ≤ maxListMembers →
    parseTraceStateLoop f (traceStateString ms) acc = some (acc ++ ms) := by
  induction ms with
  | nil =>
    intro f acc _ _ _ _
    cases f <;> simp [traceStateString, parseTraceStateLoop]
  | cons m t ih =>
    intro f acc hf hv hnd hlen
    have hm := hv m (List.mem_cons_self _ _)
    have ht : ∀ m2 ∈ t, checkKey m2.1 = true ∧ checkValue m2.2 = true :=
      fun m2 h => hv m2 (List.mem_cons_of_mem _ h)
    have hnc := member_no_comma m.1 m.2 hm.1 hm.2
    have hpm : parseMember (m.1 ++ 0x3D :: m.2) = some m := by
      rw [parseMember_written m.1 m.2 hm.1 hm.2]
    have hne : (m.1 ++ 0x3D :: m.2) ≠ [] := by simp
    have hdup : m.1 ∉ acc.map (fun x => x.1) := by
      intro hmem
      simp only [List.map_append, List.map_cons] at hnd
      rw [List.nodup_append] at hnd
      exact hnd.2.2 hmem (List.mem_cons_self _ _)
    have hcount : ¬ maxListMembers < (acc ++ [m]).length := by
      simp only [List.length_append, List.length_cons, List.length_nil] at hlen ⊢
      omega
    have hacc : acc ++ m :: t = (acc ++ [m]) ++ t := by simp
    rw [traceStateString_cons] at hf ⊢
    cases f with
    | zero => simp at hf
    | succ f =>
      by_cases hte : t = []
      · subst hte
        simp only [if_true, List.append_nil] at hf ⊢
        rw [parseTraceStateLoop_step f _ _ [] acc m hne
          (by rw [cut_no_sep _ _ hnc]) (by rw [cut_no_sep _ _ hnc]) hne hpm hdup hcount]
        cases f <;> rfl
      · simp only [hte, if_false] at hf ⊢
        rw [parseTraceStateLoop_step f _ _ (traceStateString t) acc m (by simp)
          (by rw [cut_append _ _ _ hnc]) (by rw [cut_append _ _ _ hnc]) hne hpm hdup hcount]
        rw [hacc] at hnd hlen ⊢
        apply ih f (acc ++ [m]) _ ht hnd hlen
        simp only [List.length_append, List.length_cons] at hf ⊢
        omega

/-- Function `ParseTraceState` reads what `TraceState.String` wrote for a trace
state as the trace state. -/
theorem ParseTraceState_written (ms : List (GoString × GoString)) (h : traceStateOk ms = true) :
    ParseTraceState (traceStateString ms) = some ms := by
  simp only [traceStateOk, Bool.and_eq_true, decide_eq_true_eq, List.all_eq_true] at h
  obtain ⟨⟨h1, h2⟩, h3⟩ := h
  have := parseTraceStateLoop_written ms (traceStateString ms).length [] (Nat.le_refl _)
    (fun m hm => h2 m hm) (by simpa using h3) (by simpa using h1)
  simpa [ParseTraceState] using this

theorem traceStateString_eq_nil (ms : List (GoString × GoString))
    (h : traceStateString ms = []) : ms = [] := by
  cases ms with
  | nil => rfl
  | cons m t =>
    rw [traceStateString_cons] at h
    simp at h


/-! ## Helper lemmas: running propagators over a carrier -/

theorem runCarrier_bind {α β : Type} (p : CarrierProg α) (f : α → CarrierProg β) :
    ∀ d : Carrier, (p.bind f).runCarrier d =
      match p.runCarrier d with
      | .error e => .error e
      | .ok r => (f r.1).runCarrier r.2 := by
  induction p with
  | done a => intro d; rfl
  | Get key next ih => intro d; exact ih _ _
  | Set key value next ih =>
    intro d
    simp only [CarrierProg.bind, CarrierProg.runCarrier]
    cases d.Set key value with
    | error e => rfl
    | ok d1 => exact ih d1
  | Keys next ih => intro d; exact ih _ _

theorem runConsumer_bind {α β : Type} (p : CarrierProg α) (f : α → CarrierProg β) :
    ∀ c : ConsumerMessageCarrier, (p.bind f).runConsumer c =
      match p.runConsumer c with
      | .error e => .error e
      | .ok r => (f r.1).runConsumer r.2 := by
  induction p with
  | done a => intro c; rfl
  | Get key next ih =>
    intro c
    simp only [CarrierProg.bind, CarrierProg.runConsumer]
    cases c.Get key with
    | error e => rfl
    | ok r => exact ih _ _
  | Set key value next ih =>
    intro c
    simp only [CarrierProg.bind, CarrierProg.runConsumer]
    cases c.Set key value with
    | error e => rfl
    | ok c1 => exact ih c1
  | Keys next ih =>
    intro c
    simp only [CarrierProg.bind, CarrierProg.runConsumer]
    cases c.Keys with
    | error e => rfl
    | ok r => exact ih _ _

/-- The header `traceparent` that `TraceContext.Inject` writes for a span
context is read back by `TraceContext.extract` as the span context's ids, with
the trace state `ParseTraceState` reads from the header `tracestate`, or the
empty one when it reports an error. -/
theorem extract_runCarrier (S : SpanContext) (hT : S.TraceID.length = 16)
    (hTb : ∀ b ∈ S.TraceID, b < 256) (hS : S.SpanID.length = 8) (hSb : ∀ b ∈ S.SpanID, b < 256)
    (hvalid : S.IsValid = true) (d : Carrier)
    (htp : (d.Get traceparentHeader).1
      = [0x30, 0x30] ++ [0x2D] ++ hexEncode S.TraceID ++ [0x2D] ++ hexEncode S.SpanID
        ++ [0x2D] ++ hexEncode [S.TraceFlags % 2]) :
    TraceContext.extract.runCarrier d
      = .ok ({ TraceID := S.TraceID, SpanID := S.SpanID, TraceFlags := S.TraceFlags % 2,
               TraceState := (ParseTraceState (d.Get tracestateHeader).1).getD [],
               Remote := true }, ⟨some (d.carrier.getD ∅)⟩) := by
  have hp := parseTraceParent_header S.TraceID S.SpanID (S.TraceFlags % 2) hT hTb hS hSb
    (Nat.mod_lt _ (by decide))
  have hg : ∀ k, ((d.Get traceparentHeader).2.Get k).1 = (d.Get k).1 := by
    intro k
    rw [Carrier_Get_fst, Carrier_Get_fst, Carrier_Get_snd]
    rfl
  have hg2 : ((d.Get traceparentHeader).2.Get tracestateHeader).2
      = ⟨some (d.carrier.getD ∅)⟩ := by
    rw [Carrier_Get_snd, Carrier_Get_snd]
    rfl
  simp only [TraceContext.extract, CarrierProg.runCarrier, htp, hp, hg, hg2]
  rw [if_pos (show SpanContext.IsValid
    (SpanContext.mk S.TraceID S.SpanID (S.TraceFlags % 2 % 2)
      ((ParseTraceState (d.Get tracestateHeader).1).getD []) true) = true from hvalid)]
  simp only [Nat.mod_mod, CarrierProg.runCarrier]

theorem extract_runConsumer (S : SpanContext) (hT : S.TraceID.length = 16)
    (hTb : ∀ b ∈ S.TraceID, b < 256) (hS : S.SpanID.length = 8) (hSb : ∀ b ∈ S.SpanID, b < 256)
    (hvalid : S.IsValid = true) (m : StrMap)
    (htp : mapIndex (some m) traceparentHeader
      = [0x30, 0x30] ++ [0x2D] ++ hexEncode S.TraceID ++ [0x2D] ++ hexEncode S.SpanID
        ++ [0x2D] ++ hexEncode [S.TraceFlags % 2]) :
    TraceContext.extract.runConsumer ⟨some ⟨some m⟩⟩
      = .ok ({ TraceID := S.TraceID, SpanID := S.SpanID, TraceFlags := S.TraceFlags % 2,
               TraceState := (ParseTraceState (mapIndex (some m) tracestateHeader)).getD [],
               Remote := true }, ⟨some ⟨some m⟩⟩) := by
  have hp := parseTraceParent_header S.TraceID S.SpanID (S.TraceFlags % 2) hT hTb hS hSb
    (Nat.mod_lt _ (by decide))
  simp only [TraceContext.extract, CarrierProg.runConsumer, ConsumerMessageCarrier.Get,
    htp, hp]
  rw [if_pos (show SpanContext.IsValid
    (SpanContext.mk S.TraceID S.SpanID (S.TraceFlags % 2 % 2)
      ((ParseTraceState (mapIndex (some m) tracestateHeader)).getD []) true) = true
        from hvalid)]
  simp only [Nat.mod_mod, CarrierProg.runConsumer]

theorem header_ne : traceparentHeader ≠ tracestateHeader := by decide

/-- What `TraceContext.Inject` leaves in the map of a Carrier: the header
`traceparent`, and the header `tracestate` if the trace state is not empty. -/
theorem inject_runCarrier (S : SpanContext) (hvalid : S.IsValid = true) (parent : Context)
    (d : Carrier) :
    ∃ m, (TraceContext.Inject (ContextWithSpanContext parent S)).runCarrier d
        = .ok ((), ⟨some m⟩) ∧
      mapIndex (some m) traceparentHeader
        = [0x30, 0x30] ++ [0x2D] ++ hexEncode S.TraceID ++ [0x2D] ++ hexEncode S.SpanID
          ++ [0x2D] ++ hexEncode [S.TraceFlags % 2] ∧
      mapIndex (some m) tracestateHeader
        = if traceStateString S.TraceState ≠ [] then traceStateString S.TraceState
          else (d.Get tracestateHeader).1 := by
  have hv : (SpanContextFromContext (ContextWithSpanContext parent S)).IsValid = true := hvalid
  by_cases hts : traceStateString S.TraceState ≠ []
  · refine ⟨((d.carrier.getD ∅).insert tracestateHeader (traceStateString S.TraceState)).insert
      traceparentHeader ([0x30, 0x30] ++ [0x2D] ++ hexEncode S.TraceID ++ [0x2D] ++ hexEncode S.SpanID
        ++ [0x2D] ++ hexEncode [S.TraceFlags % 2]), ?_, ?_, ?_⟩
    · simp only [TraceContext.Inject, hv, if_true]
      rw [if_pos (show traceStateString
        (SpanContextFromContext (ContextWithSpanContext parent S)).TraceState ≠ [] from hts)]
      simp only [CarrierProg.runCarrier, Carrier_Set_eq, Option.getD_some]
      rfl
    · simp only [mapIndex, AList.lookup_insert, Option.getD_some]
    · rw [if_pos hts]
      simp only [mapIndex]
      rw [AList.lookup_insert_ne (Ne.symm header_ne), AList.lookup_insert, Option.getD_some]
  · refine ⟨(d.carrier.getD ∅).insert traceparentHeader
      ([0x30, 0x30] ++ [0x2D] ++ hexEncode S.TraceID ++ [0x2D] ++ hexEncode S.SpanID
        ++ [0x2D] ++ hexEncode [S.TraceFlags % 2]), ?_, ?_, ?_⟩
    · simp only [TraceContext.Inject, hv, if_true]
      rw [if_neg (show ¬ traceStateString
        (SpanContextFromContext (ContextWithSpanContext parent S)).TraceState ≠ [] from hts)]
      simp only [CarrierProg.runCarrier, Carrier_Set_eq, Option.getD_some]
      rfl
    · simp only [mapIndex, AList.lookup_insert, Option.getD_some]
    · rw [if_neg hts, Carrier_Get_fst]
      simp only [mapIndex]
      rw [AList.lookup_insert_ne (Ne.symm header_ne)]

theorem ProducerMessageCarrier_Set_eq (msg : ProducerMessage) (k v : GoString) :
    ProducerMessageCarrier.Set ⟨some msg⟩ k v
      = .ok ⟨some ⟨some ((msg.Properties.getD ∅).insert k v)⟩⟩ := by
  cases msg with
  | mk p => cases p <;> rfl

theorem mapIndex_getD (p : GoMap) (k : GoString) :
    mapIndex p k = ((p.getD ∅).lookup k).getD [] := by
  cases p <;> rfl

/-- What `TraceContext.Inject` leaves in the properties of a message. -/
theorem inject_runProducer (S : SpanContext) (hvalid : S.IsValid = true) (parent : Context)
    (msg : ProducerMessage) :
    ∃ m, (TraceContext.Inject (ContextWithSpanContext parent S)).runProducer ⟨some msg⟩
        = .ok ((), ⟨some ⟨some m⟩⟩) ∧
      mapIndex (some m) traceparentHeader
        = [0x30, 0x30] ++ [0x2D] ++ hexEncode S.TraceID ++ [0x2D] ++ hexEncode S.SpanID
          ++ [0x2D] ++ hexEncode [S.TraceFlags % 2] ∧
      mapIndex (some m) tracestateHeader
        = if traceStateString S.TraceState ≠ [] then traceStateString S.TraceState
          else mapIndex msg.Properties tracestateHeader := by
  have hv : (SpanContextFromContext (ContextWithSpanContext parent S)).IsValid = true := hvalid
  by_cases hts : traceStateString S.TraceState ≠ []
  · refine ⟨((msg.Properties.getD ∅).insert tracestateHeader
      (traceStateString S.TraceState)).insert traceparentHeader
      ([0x30, 0x30] ++ [0x2D] ++ hexEncode S.TraceID ++ [0x2D] ++ hexEncode S.SpanID
        ++ [0x2D] ++ hexEncode [S.TraceFlags % 2]), ?_, ?_, ?_⟩
    · simp only [TraceContext.Inject, hv, if_true]
      rw [if_pos (show traceStateString
        (SpanContextFromContext (ContextWithSpanContext parent S)).TraceState ≠ [] from hts)]
      simp only [CarrierProg.runProducer, ProducerMessageCarrier_Set_eq, Option.getD_some]
      rfl
    · simp only [mapIndex, AList.lookup_insert, Option.getD_some]
    · rw [if_pos hts]
      simp only [mapIndex]
      rw [AList.lookup_insert_ne (Ne.symm header_ne), AList.lookup_insert, Option.getD_some]
  · refine ⟨(msg.Properties.getD ∅).insert traceparentHeader
      ([0x30, 0x30] ++ [0x2D] ++ hexEncode S.TraceID ++ [0x2D] ++ hexEncode S.SpanID
        ++ [0x2D] ++ hexEncode [S.TraceFlags % 2]), ?_, ?_, ?_⟩
    · simp only [TraceContext.Inject, hv, if_true]
      rw [if_neg (show ¬ traceStateString
        (SpanContextFromContext (ContextWithSpanContext parent S)).TraceState ≠ [] from hts)]
      simp only [CarrierProg.runProducer, ProducerMessageCarrier_Set_eq, Option.getD_some]
      rfl
    · simp only [mapIndex, AList.lookup_insert, Option.getD_some]
    · rw [if_neg hts, mapIndex_getD msg.Properties]
      simp only [mapIndex]
      rw [AList.lookup_insert_ne (Ne.symm header_ne)]

/-- The header `tracestate` a carrier holds after `TraceContext.Inject` is read
as the trace state of the span context exactly when that trace state has
members or the value the carrier held before is read as no member. -/
theorem tracestate_read_iff (ms : List (GoString × GoString)) (hok : traceStateOk ms = true)
    (old : GoString) :
    (ParseTraceState (if traceStateString ms ≠ [] then traceStateString ms else old)).getD []
        = ms ↔ (ms = [] → (ParseTraceState old).getD [] = []) := by
  by_cases hts : traceStateString ms ≠ []
  · rw [if_pos hts, ParseTraceState_written ms hok, Option.getD_some]
    constructor
    · intro _ hnil
      rw [hnil] at hts
      exact absurd rfl hts
    · intro _
      rfl
  · rw [if_neg hts]
    have hnil : ms = [] := traceStateString_eq_nil ms (not_not.mp hts)
    rw [hnil]
    constructor
    · intro h _
      exact h
    · intro h
      exact h rfl

/-- Method `TraceContext.extract` never panics on a Carrier, leaves it with its
map allocated, and reads the same span context from the Carrier it leaves. -/
theorem extract_total (d : Carrier) :
    ∃ sc, TraceContext.extract.runCarrier d = .ok (sc, ⟨some (d.carrier.getD ∅)⟩) ∧
      TraceContext.extract.runCarrier ⟨some (d.carrier.getD ∅)⟩
        = .ok (sc, ⟨some (d.carrier.getD ∅)⟩) := by
  have h0 : TraceContext.extract.runCarrier d
      = TraceContext.extract.runCarrier ⟨some (d.carrier.getD ∅)⟩ := by
    cases d with
    | mk c => cases c <;> rfl
  rw [h0]
  generalize d.carrier.getD ∅ = m
  have hg : ∀ k, ((⟨some m⟩ : Carrier).Get k) = (mapIndex (some m) k, ⟨some m⟩) := fun _ => rfl
  simp only [TraceContext.extract, CarrierProg.runCarrier, hg]
  by_cases h1 : mapIndex (some m) traceparentHeader = []
  · rw [if_pos h1]
    exact ⟨_, rfl, rfl⟩
  · rw [if_neg h1]
    cases parseTraceParent (mapIndex (some m) traceparentHeader) with
    | none => exact ⟨_, rfl, rfl⟩
    | some parts =>
      simp only [CarrierProg.runCarrier, hg]
      split <;> exact ⟨_, rfl, rfl⟩

/-- Method `TraceContext.Extract` on a Carrier: the context with the span
context read as its remote span context, or the context itself. -/
theorem TraceContext_Extract_run (ctx : Context) (d : Carrier) :
    ∃ sc, TraceContext.extract.runCarrier ⟨some (d.carrier.getD ∅)⟩
        = .ok (sc, ⟨some (d.carrier.getD ∅)⟩) ∧
      (TraceContext.Extract ctx).runCarrier d
        = .ok (if sc.IsValid then ContextWithRemoteSpanContext ctx sc else ctx,
            ⟨some (d.carrier.getD ∅)⟩) := by
  obtain ⟨sc, h1, h2⟩ := extract_total d
  refine ⟨sc, h2, ?_⟩
  rw [TraceContext.Extract, runCarrier_bind, h1]
  simp only []
  split <;> rfl

/-- The default global propagator changes nothing after `TraceContext.Inject`. -/
theorem noop_InjectKeepsTraceHeaders (ctx : Context) :
    InjectKeepsTraceHeaders noopTextMapPropagator ctx :=
  fun _ dT _ => ⟨dT, rfl, rfl, rfl⟩

/-- The default global propagator changes nothing after `TraceContext.Extract`. -/
theorem noop_ExtractKeepsSpanContext (ctx : Context) :
    ExtractKeepsSpanContext noopTextMapPropagator ctx :=
  fun _ cT dT _ => ⟨cT, dT, rfl, rfl, rfl, rfl⟩

/-- With `propagation.TraceContext` as the global propagator the second
`Inject` writes the values the first wrote. -/
theorem TraceContext_InjectKeepsTraceHeaders (ctx : Context) :
    InjectKeepsTraceHeaders TraceContext ctx := by
  intro d dT hrun
  by_cases hv : (SpanContextFromContext ctx).IsValid = true
  · cases ctx with
    | mk span =>
      cases span with
      | none => exact absurd hv (by decide)
      | some S =>
        have hS : S.IsValid = true := hv
        obtain ⟨m, h1, htp, hst⟩ := inject_runCarrier S hS Background d
        have hrun2 : (TraceContext.Inject ⟨some S⟩).runCarrier d = .ok ((), dT) := hrun
        have h1b : (TraceContext.Inject ⟨some S⟩).runCarrier d = .ok ((), ⟨some m⟩) := h1
        rw [h1b] at hrun2
        have hdT : dT = ⟨some m⟩ := by
          injection hrun2 with h
          injection h with _ h2
          exact h2.symm
        subst hdT
        obtain ⟨m2, h2, htp2, hst2⟩ := inject_runCarrier S hS Background ⟨some m⟩
        refine ⟨⟨some m2⟩, h2, ?_, ?_⟩
        · show mapIndex (some m2) traceparentHeader = mapIndex (some m) traceparentHeader
          rw [htp2, htp]
        · show mapIndex (some m2) tracestateHeader = mapIndex (some m) tracestateHeader
          rw [hst2]
          by_cases hts : traceStateString S.TraceState ≠ []
          · rw [if_pos hts, hst, if_pos hts]
          · rw [if_neg hts]
            rfl
  · have hnone : TraceContext.Inject ctx = CarrierProg.done () := by
      simp only [TraceContext.Inject, hv]
      rfl
    refine ⟨dT, ?_, rfl, rfl⟩
    show (TraceContext.Inject ctx).runCarrier dT = .ok ((), dT)
    rw [hnone]
    rfl

/-- With `propagation.TraceContext` as the global propagator the second
`Extract` reads the span context the first read. -/
theorem TraceContext_ExtractKeepsSpanContext (ctx : Context) :
    ExtractKeepsSpanContext TraceContext ctx := by
  intro d cT dT hrun
  obtain ⟨sc, hsc, h1⟩ := TraceContext_Extract_run ctx d
  rw [h1] at hrun
  have hc : cT = if sc.IsValid then ContextWithRemoteSpanContext ctx sc else ctx := by
    injection hrun with h
    injection h with h2 _
    exact h2.symm
  have hd : dT = ⟨some (d.carrier.getD ∅)⟩ := by
    injection hrun with h
    injection h with _ h2
    exact h2.symm
  obtain ⟨sc2, hsc2, h2⟩ := TraceContext_Extract_run cT dT
  have hsame : sc2 = sc := by
    rw [hd] at hsc2
    have hsc3 : TraceContext.extract.runCarrier ⟨some (d.carrier.getD ∅)⟩
        = .ok (sc2, ⟨some (d.carrier.getD ∅)⟩) := hsc2
    rw [hsc] at hsc3
    injection hsc3 with h
    injection h with h3 _
    exact h3.symm
  refine ⟨_, _, h2, ?_⟩
  rw [hsame, hc]
  by_cases hv : sc.IsValid = true
  · simp only [hv, if_true]
    exact ⟨rfl, rfl, rfl⟩
  · simp only [hv]
    exact ⟨rfl, rfl, rfl⟩


/-! ## The claims -/

/-- C1: `MarshalJSON` on a zero-valued Carrier (nil backing map) returns exactly
the two bytes of the empty JSON object with a nil error; and on no Carrier at all
does it return an error or the four bytes of the JSON text null. -/
theorem Carrier_MarshalJSON_zero_is_empty_object :
    (Carrier.MarshalJSON ⟨none⟩).1 = ([0x7B, 0x7D], none) ∧
      ∀ d : Carrier, d.MarshalJSON.1.2 = none ∧ d.MarshalJSON.1.1 ≠ [0x6E, 0x75, 0x6C, 0x6C] := by
  refine ⟨by decide, ?_⟩
  intro d
  simp [Carrier_MarshalJSON_eq, jsonMarshal]

/-- C2: from every Carrier state, the zero value included, `Set(k, v)` does not
fail, `Get(k)` afterwards returns `v`, and `Get` of every other key returns what
it returned before the `Set`. -/
theorem Carrier_Set_then_Get (d : Carrier) (k v : GoString) :
    ∃ d1, d.Set k v = .ok d1 ∧ (d1.Get k).1 = v ∧
      ∀ k2, (d1.Get k2).1 = if k2 = k then v else (d.Get k2).1 := by
  refine ⟨_, Carrier_Set_eq d k v, ?_, ?_⟩
  · simp [Carrier_Get_fst]
  · intro k2
    by_cases h : k2 = k
    · subst h; simp [Carrier_Get_fst]
    · simp [Carrier_Get_fst, h, AList.lookup_insert_ne h]

/-- C3: `Get(k)` is a total function of the Carrier state; it returns the empty
string when the backing map is nil or holds no entry for `k`, and the stored
value when it holds one. -/
theorem Carrier_Get_value (d : Carrier) (k : GoString) :
    (d.carrier = none → (d.Get k).1 = []) ∧
      (∀ m, d.carrier = some m → m.lookup k = none → (d.Get k).1 = []) ∧
      (∀ m v, d.carrier = some m → m.lookup k = some v → (d.Get k).1 = v) := by
  refine ⟨?_, ?_, ?_⟩
  · intro h
    simp [Carrier_Get_fst, h]
  · intro m h hk
    simp [Carrier_Get_fst, h, hk]
  · intro m v h hk
    simp [Carrier_Get_fst, h, hk]

/-- C4: `Keys` returns a non-nil slice holding every key of the store exactly once
and nothing else; for an empty or nil store the slice is empty. -/
theorem Carrier_Keys_exact (d : Carrier) :
    ∃ ks, d.Keys.1 = some ks ∧ ks.Nodup ∧
      (∀ k, k ∈ ks ↔ ∃ m, d.carrier = some m ∧ k ∈ m) ∧
      (mapLen d.carrier = 0 → ks = []) := by
  refine ⟨(d.carrier.getD ∅).keys, by simp [Carrier_Keys_eq], AList.keys_nodup _, ?_, ?_⟩
  · intro k
    cases d with
    | mk c =>
      cases c with
      | none => simp
      | some m => simp [AList.mem_keys]
  · cases d with
    | mk c =>
      cases c with
      | none => intro _; rfl
      | some m =>
        intro h
        simp only [mapLen, List.length_eq_zero] at h
        simp [AList.keys, h]

/-- C5: each method called on the zero-valued Carrier (nil map) gives the reply it
gives on a Carrier initialised with an empty map, and every sequence of later
calls is answered alike by the two. -/
theorem Carrier_zero_value_same_as_empty (call : CarrierCall) (later : List CarrierCall) :
    (call.run ⟨none⟩).1 = (call.run ⟨some ∅⟩).1 ∧
      runCalls later (call.run ⟨none⟩).2 = runCalls later (call.run ⟨some ∅⟩).2 := by
  have hs := run_same_entries call ⟨none⟩ ⟨some ∅⟩ rfl
  exact ⟨hs.1, runCalls_same_entries later _ _ hs.2⟩

/-- C6 (as amended): for every Carrier whose keys and values are well-formed
UTF-8, `MarshalJSON` returns no error, `UnmarshalJSON` of the bytes into a
zero-valued Carrier returns no error either, and the Carrier it leaves holds a
map with exactly the entries of the first: the same entries up to their order,
and every `Get` answers alike. -/
theorem Carrier_json_roundtrip (d : Carrier)
    (hv : ∀ kv ∈ (d.carrier.getD ∅).entries, utf8Valid kv.1 = true ∧ utf8Valid kv.2 = true) :
    ∃ m2, d.MarshalJSON.1.2 = none ∧
      Carrier.UnmarshalJSON ⟨none⟩ d.MarshalJSON.1.1 = .ok (none, ⟨some m2⟩) ∧
      m2.entries.Perm (d.carrier.getD ∅).entries ∧
      ∀ k, (Carrier.Get ⟨some m2⟩ k).1 = (d.Get k).1 := by
  obtain ⟨m2, h1, h2⟩ := jsonUnmarshal_jsonMarshal (d.carrier.getD ∅) hv
  refine ⟨m2, ?_, ?_, ?_, ?_⟩
  · simp [Carrier_MarshalJSON_eq, jsonMarshal]
  · simp only [Carrier_MarshalJSON_eq, Carrier.UnmarshalJSON, h1]
    rfl
  · apply List.lookup_ext m2.nodupKeys (d.carrier.getD ∅).nodupKeys
    intro x y
    have := h2 x
    simp only [AList.lookup] at this
    rw [this]
  · intro k
    simp only [Carrier_Get_fst, Option.getD_some, h2 k]

/-- Witness of C6 at the Carrier holding the key `traceparent` with the value `00-ab`. -/
theorem Carrier_json_roundtrip_witness :
    ∃ m2, (Carrier.MarshalJSON
        ⟨some (AList.insert (asciiBytes "traceparent") (asciiBytes "00-ab") ∅)⟩).1.2 = none ∧
      Carrier.UnmarshalJSON ⟨none⟩ (Carrier.MarshalJSON
        ⟨some (AList.insert (asciiBytes "traceparent") (asciiBytes "00-ab") ∅)⟩).1.1
          = .ok (none, ⟨some m2⟩) ∧
      m2.entries.Perm ((some (AList.insert (asciiBytes "traceparent") (asciiBytes "00-ab")
        (∅ : StrMap)) : GoMap).getD ∅).entries ∧
      ∀ k, (Carrier.Get ⟨some m2⟩ k).1
        = (Carrier.Get ⟨some (AList.insert (asciiBytes "traceparent") (asciiBytes "00-ab") ∅)⟩ k).1 :=
  Carrier_json_roundtrip ⟨some (AList.insert (asciiBytes "traceparent") (asciiBytes "00-ab") ∅)⟩
    (by decide)

/-- C6 fails as stated: the Carrier holding the key `k` with the one-byte value
0xFF, which is not well-formed UTF-8, comes back from `MarshalJSON` and
`UnmarshalJSON` holding the three bytes of U+FFFD under `k`. -/
theorem Carrier_json_roundtrip_fails_on_invalid_utf8 :
    Carrier.UnmarshalJSON ⟨none⟩ (Carrier.MarshalJSON ⟨some (AList.insert [0x6B] [0xFF] ∅)⟩).1.1
        = .ok (none, ⟨some (AList.insert [0x6B] [0xEF, 0xBF, 0xBD] ∅)⟩) ∧
      (Carrier.Get ⟨some (AList.insert [0x6B] [0xFF] ∅)⟩ [0x6B]).1 = [0xFF] ∧
      (Carrier.Get ⟨some (AList.insert [0x6B] [0xEF, 0xBF, 0xBD] ∅)⟩ [0x6B]).1
        = [0xEF, 0xBF, 0xBD] :=
  ⟨rfl, rfl, rfl⟩

/-- C7 (as amended): on every input that is a valid JSON value but neither an
object nor the literal null, `UnmarshalJSON` returns a non-nil error and leaves
the Carrier as it was; on the literal null it returns a nil error and leaves
the backing map nil. -/
theorem Carrier_UnmarshalJSON_not_object (d : Carrier) (bz : List Nat) (v : JValue)
    (hv : parseJSON bz = some v) (hobj : ∀ ms, v ≠ JValue.object ms) :
    (v ≠ JValue.null → ∃ e, d.UnmarshalJSON bz = .ok (some e, d)) ∧
      (v = JValue.null → d.UnmarshalJSON bz = .ok (none, ⟨none⟩)) := by
  have hsc := parseJSON_scanned bz v hv
  constructor
  · intro hnull
    refine ⟨JsonError.UnmarshalTypeError, ?_⟩
    simp only [Carrier.UnmarshalJSON, jsonUnmarshal, hv]
    cases v with
    | null => exact absurd rfl hnull
    | object ms => exact absurd rfl (hobj ms)
    | string raw =>
      obtain ⟨t, ht⟩ := unquoteBytes_literal raw hsc
      simp only [ht]
      rfl
    | bool b => rfl
    | number => rfl
    | array es => rfl
  · intro hnull
    subst hnull
    simp only [Carrier.UnmarshalJSON, jsonUnmarshal, hv]
    rfl

/-- Witness of C7 at the JSON text `true`. -/
theorem Carrier_UnmarshalJSON_not_object_witness :
    (JValue.bool true ≠ JValue.null →
        ∃ e, Carrier.UnmarshalJSON ⟨none⟩ [0x74, 0x72, 0x75, 0x65] = .ok (some e, ⟨none⟩)) ∧
      (JValue.bool true = JValue.null →
        Carrier.UnmarshalJSON ⟨none⟩ [0x74, 0x72, 0x75, 0x65] = .ok (none, ⟨none⟩)) :=
  Carrier_UnmarshalJSON_not_object ⟨none⟩ [0x74, 0x72, 0x75, 0x65] (JValue.bool true) rfl
    (fun _ h => JValue.noConfusion h)

/-- C7 fails as stated: the four bytes of the JSON text null are a valid JSON
value and no object, and `UnmarshalJSON` returns a nil error on them, setting
the backing map to nil. -/
theorem Carrier_UnmarshalJSON_null_no_error :
    parseJSON [0x6E, 0x75, 0x6C, 0x6C] = some JValue.null ∧
      Carrier.UnmarshalJSON ⟨some ∅⟩ [0x6E, 0x75, 0x6C, 0x6C] = .ok (none, ⟨none⟩) :=
  ⟨rfl, rfl⟩

/-- C8: after `ClearContext` every `Get` returns the empty string, `Keys` is
empty, every sequence of later calls is answered as a fresh zero-valued Carrier
answers it, and a second `ClearContext` changes nothing. -/
theorem Carrier_ClearContext_resets (d : Carrier) :
    (∀ k, (d.ClearContext.Get k).1 = []) ∧ d.ClearContext.Keys.1 = some [] ∧
      (∀ calls, runCalls calls d.ClearContext = runCalls calls ⟨none⟩) ∧
      d.ClearContext.ClearContext = d.ClearContext := by
  refine ⟨?_, ?_, ?_, rfl⟩
  · intro k
    simp [Carrier_ClearContext_eq, Carrier_Get_fst]
  · simp [Carrier_ClearContext_eq, Carrier_Keys_eq]
  · intro calls
    exact runCalls_same_entries calls _ _ rfl

/-- C9: on a message without Properties, `Set(k1, v1)` attaches a map whose only
entry is `k1 -> v1`, and a further `Set(k2, v2)` with another key leaves a map
holding exactly these two entries; on every message, `Set(k, v)` succeeds and
leaves the message with a non-nil map that is the previous one (empty if it was
nil) updated at `k` with `v`. -/
theorem ProducerMessageCarrier_Set_updates (k1 v1 k2 v2 : GoString) (h : k2 ≠ k1) :
    (∃ m1 m2,
      ProducerMessageCarrier.Set ⟨some ⟨none⟩⟩ k1 v1 = .ok ⟨some ⟨some m1⟩⟩ ∧
      m1.entries = [⟨k1, v1⟩] ∧
      ProducerMessageCarrier.Set ⟨some ⟨some m1⟩⟩ k2 v2 = .ok ⟨some ⟨some m2⟩⟩ ∧
      m2.entries.Perm [⟨k1, v1⟩, ⟨k2, v2⟩]) ∧
    ∀ (msg : ProducerMessage) (k v : GoString),
      ∃ m, ProducerMessageCarrier.Set ⟨some msg⟩ k v = .ok ⟨some ⟨some m⟩⟩ ∧
        ∀ k3, m.lookup k3 = if k3 = k then some v else (msg.Properties.getD ∅).lookup k3 := by
  constructor
  · refine ⟨AList.insert k1 v1 ∅, AList.insert k2 v2 (AList.insert k1 v1 ∅), rfl, ?_, rfl, ?_⟩
    · simp [AList.insert_entries]
    · have e : (AList.insert k2 v2 (AList.insert k1 v1 ∅)).entries
          = [(⟨k2, v2⟩ : Entry), ⟨k1, v1⟩] := by
        rw [AList.insert_entries, AList.insert_entries]
        have h0 : List.kerase k1 (∅ : StrMap).entries = [] := rfl
        rw [h0]
        have h1 : List.kerase k2 [(⟨k1, v1⟩ : Entry)]
            = [⟨k1, v1⟩] := by
          rw [List.kerase_cons_ne h]
          rfl
        rw [h1]
      rw [e]
      exact List.Perm.swap _ _ _
  · intro msg k v
    cases msg with
    | mk p =>
      cases p with
      | none =>
        refine ⟨AList.insert k v ∅, rfl, ?_⟩
        intro k3
        by_cases e : k3 = k
        · subst e
          rw [AList.lookup_insert]
          simp
        · rw [AList.lookup_insert_ne e]
          simp [e]
      | some m =>
        refine ⟨AList.insert k v m, rfl, ?_⟩
        intro k3
        by_cases e : k3 = k
        · subst e; simp
        · simp [e, AList.lookup_insert_ne e]

/-- Witness of C9 at the keys `a` and `b`. -/
theorem ProducerMessageCarrier_Set_updates_witness :
    (∃ m1 m2,
      ProducerMessageCarrier.Set ⟨some ⟨none⟩⟩ [0x61] [0x31] = .ok ⟨some ⟨some m1⟩⟩ ∧
      m1.entries = [⟨[0x61], [0x31]⟩] ∧
      ProducerMessageCarrier.Set ⟨some ⟨some m1⟩⟩ [0x62] [0x32] = .ok ⟨some ⟨some m2⟩⟩ ∧
      m2.entries.Perm [⟨[0x61], [0x31]⟩, ⟨[0x62], [0x32]⟩]) ∧
    ∀ (msg : ProducerMessage) (k v : GoString),
      ∃ m, ProducerMessageCarrier.Set ⟨some msg⟩ k v = .ok ⟨some ⟨some m⟩⟩ ∧
        ∀ k3, m.lookup k3 = if k3 = k then some v else (msg.Properties.getD ∅).lookup k3 :=
  ProducerMessageCarrier_Set_updates [0x61] [0x31] [0x62] [0x32] (by decide)

/-- C10 (the code departs from the claim): on a message whose only property is
`k -> v`, with `k` the byte `a` and `v` the byte `1`, both `Keys` methods return
the two-element slice of the empty string and the value `v`, not the slice of
the key `k`. -/
theorem pulsar_Keys_returns_values :
    ProducerMessageCarrier.Keys ⟨some ⟨some (AList.insert [0x61] [0x31] ∅)⟩⟩
        = .ok (some [[], [0x31]], ⟨some ⟨some (AList.insert [0x61] [0x31] ∅)⟩⟩) ∧
      ConsumerMessageCarrier.Keys ⟨some ⟨some (AList.insert [0x61] [0x31] ∅)⟩⟩
        = .ok (some [[], [0x31]], ⟨some ⟨some (AList.insert [0x61] [0x31] ∅)⟩⟩) :=
  ⟨rfl, rfl⟩


/-- C11: around a message without properties, `Get` of both adapters returns the
empty string for every key and `Keys` of both returns a non-nil empty slice;
neither panics, and the message is left as it was. -/
theorem pulsar_absent_properties_read (key : GoString) :
    ConsumerMessageCarrier.Get ⟨some ⟨none⟩⟩ key = .ok ([], ⟨some ⟨none⟩⟩) ∧
      ConsumerMessageCarrier.Keys ⟨some ⟨none⟩⟩ = .ok (some [], ⟨some ⟨none⟩⟩) ∧
      ProducerMessageCarrier.Get ⟨some ⟨none⟩⟩ key = .ok ([], ⟨some ⟨none⟩⟩) ∧
      ProducerMessageCarrier.Keys ⟨some ⟨none⟩⟩ = .ok (some [], ⟨some ⟨none⟩⟩) :=
  ⟨rfl, rfl, rfl, rfl⟩

/-- C12: after `Set(k, v)` through a `ProducerMessageCarrier` on any message, the
message holds a property mapping, and `Get` through a `ConsumerMessageCarrier`
whose message reports that mapping returns `v` for `k` and, for every other
key, what the message's mapping held before (the empty string if it held
nothing). -/
theorem pulsar_producer_Set_consumer_Get (msg : ProducerMessage) (k v : GoString) :
    ∃ p, ProducerMessageCarrier.Set ⟨some msg⟩ k v = .ok ⟨some ⟨some p⟩⟩ ∧
      ∀ k2, ConsumerMessageCarrier.Get ⟨some ⟨some p⟩⟩ k2
        = .ok (if k2 = k then v else mapIndex msg.Properties k2, ⟨some ⟨some p⟩⟩) := by
  cases msg with
  | mk props =>
    refine ⟨AList.insert k v (props.getD ∅), ?_, ?_⟩
    · cases props <;> rfl
    · intro k2
      simp only [ConsumerMessageCarrier.Get, mapIndex]
      by_cases e : k2 = k
      · subst e
        simp
      · rw [AList.lookup_insert_ne e]
        cases props <;> simp [e]

/-- C14: from every state, the zero value included, the backing map is allocated
after `Get`, after `Set` (which does not panic), after `Keys`, after
`GetTraceParent` and after `ClearContext`. -/
theorem Carrier_allocated_after_call (d : Carrier) (k v : GoString) :
    (d.Get k).2.carrier ≠ none ∧
      (∃ d1, d.Set k v = .ok d1 ∧ d1.carrier ≠ none) ∧
      d.Keys.2.carrier ≠ none ∧
      d.GetTraceParent.2.carrier ≠ none ∧
      d.ClearContext.carrier ≠ none := by
  refine ⟨?_, ⟨_, Carrier_Set_eq d k v, ?_⟩, ?_, ?_, ?_⟩
  · simp [Carrier_Get_snd]
  · simp
  · simp [Carrier_Keys_eq]
  · simp [Carrier.GetTraceParent, Carrier_Get_snd]
  · simp [Carrier_ClearContext_eq]

/-- C15 (as amended): when `UnmarshalJSON` returns no error on an input other
than the JSON literal null, the backing map is allocated afterwards, whatever
the state before. -/
theorem Carrier_UnmarshalJSON_allocates (d d1 : Carrier) (bz : List Nat)
    (h : d.UnmarshalJSON bz = .ok (none, d1)) (hnull : parseJSON bz ≠ some JValue.null) :
    ∃ m, d1.carrier = some m := by
  simp only [Carrier.UnmarshalJSON, jsonUnmarshal] at h
  cases hp : parseJSON bz with
  | none => rw [hp] at h; simp [Except.map] at h
  | some v =>
    rw [hp] at h hnull
    cases v with
    | null => exact absurd rfl hnull
    | bool b => simp [Except.map] at h
    | number => simp [Except.map] at h
    | array es => simp [Except.map] at h
    | string raw =>
      simp only [] at h
      cases hu : unquoteBytes raw with
      | none => rw [hu] at h; simp [Except.map] at h
      | some t => rw [hu] at h; simp [Except.map] at h
    | object ms =>
      simp only [] at h
      cases hd : decodeMembers ms (d.carrier.getD ∅) none with
      | error p => rw [hd] at h; simp [Except.map] at h
      | ok r =>
        rw [hd] at h
        simp only [Except.map, Except.ok.injEq, Prod.mk.injEq] at h
        exact ⟨r.1, by rw [← h.2]⟩

/-- Witness of C15 at the JSON text of the empty object, decoded into a
zero-valued Carrier. -/
theorem Carrier_UnmarshalJSON_allocates_witness :
    Carrier.UnmarshalJSON ⟨none⟩ [0x7B, 0x7D] = .ok (none, ⟨some ∅⟩) ∧
      ∃ m, (⟨some ∅⟩ : Carrier).carrier = some m :=
  ⟨rfl, Carrier_UnmarshalJSON_allocates ⟨none⟩ ⟨some ∅⟩ [0x7B, 0x7D] rfl
    (by
      rw [show parseJSON [0x7B, 0x7D] = some (JValue.object []) from rfl]
      intro h
      cases h)⟩

/-- C15 fails as stated: on the JSON text null between two spaces `UnmarshalJSON`
returns a nil error, and the Carrier, which held the entry `a -> b` before, has
a nil backing map afterwards. -/
theorem Carrier_UnmarshalJSON_null_leaves_nil :
    Carrier.UnmarshalJSON ⟨some (AList.insert [0x61] [0x62] ∅)⟩
        [0x20, 0x6E, 0x75, 0x6C, 0x6C, 0x20] = .ok (none, ⟨none⟩) ∧
      (⟨none⟩ : Carrier).carrier = none :=
  ⟨rfl, rfl⟩

/-- C16: `GetTraceParent` is `Get` of the key `traceparent`: the value stored
under that key, or the empty string when the key is absent or the backing map
is nil. -/
theorem Carrier_GetTraceParent_value (d : Carrier) :
    d.GetTraceParent = d.Get (asciiBytes "traceparent") ∧
      (d.carrier = none → d.GetTraceParent.1 = []) ∧
      (∀ m, d.carrier = some m → m.lookup (asciiBytes "traceparent") = none →
        d.GetTraceParent.1 = []) ∧
      (∀ m v, d.carrier = some m → m.lookup (asciiBytes "traceparent") = some v →
        d.GetTraceParent.1 = v) := by
  refine ⟨rfl, ?_, ?_, ?_⟩
  · intro h
    simp [Carrier.GetTraceParent, Carrier_Get_fst, h]
  · intro m h hk
    simp [Carrier.GetTraceParent, Carrier_Get_fst, h, hk]
  · intro m v h hk
    simp [Carrier.GetTraceParent, Carrier_Get_fst, h, hk]

/-- C17: on a message whose property mapping has `n >= 1` entries, `Keys` of both
adapters returns a slice of length `2 * n`: `n` empty strings followed by the
values of the `n` entries, not their keys. -/
theorem pulsar_Keys_actual (m : StrMap) (h : 1 ≤ m.entries.length) :
    ProducerMessageCarrier.Keys ⟨some ⟨some m⟩⟩
        = .ok (some (List.replicate m.entries.length [] ++ m.entries.map (fun e => e.2)),
            ⟨some ⟨some m⟩⟩) ∧
      ConsumerMessageCarrier.Keys ⟨some ⟨some m⟩⟩
        = .ok (some (List.replicate m.entries.length [] ++ m.entries.map (fun e => e.2)),
            ⟨some ⟨some m⟩⟩) ∧
      (List.replicate m.entries.length ([] : GoString) ++ m.entries.map (fun e => e.2)).length
        = 2 * m.entries.length := by
  have hne : ¬ mapLen (some m) = 0 := by
    simp only [mapLen]; omega
  refine ⟨?_, ?_, ?_⟩
  · simp only [ProducerMessageCarrier.Keys, hne, if_false, keysLoop_some]
  · simp only [ConsumerMessageCarrier.Keys, hne, if_false, keysLoop_some]
  · simp only [List.length_append, List.length_replicate, List.length_map]
    omega

/-- Witness of C17 at the mapping with the single entry `a -> 1`. -/
theorem pulsar_Keys_actual_witness :
    ProducerMessageCarrier.Keys ⟨some ⟨some (AList.insert [0x61] [0x31] ∅)⟩⟩
        = .ok (some (List.replicate (AList.insert [0x61] [0x31] (∅ : StrMap)).entries.length []
              ++ (AList.insert [0x61] [0x31] (∅ : StrMap)).entries.map (fun e => e.2)),
            ⟨some ⟨some (AList.insert [0x61] [0x31] ∅)⟩⟩) ∧
      ConsumerMessageCarrier.Keys ⟨some ⟨some (AList.insert [0x61] [0x31] ∅)⟩⟩
        = .ok (some (List.replicate (AList.insert [0x61] [0x31] (∅ : StrMap)).entries.length []
              ++ (AList.insert [0x61] [0x31] (∅ : StrMap)).entries.map (fun e => e.2)),
            ⟨some ⟨some (AList.insert [0x61] [0x31] ∅)⟩⟩) ∧
      (List.replicate (AList.insert [0x61] [0x31] (∅ : StrMap)).entries.length ([] : GoString)
          ++ (AList.insert [0x61] [0x31] (∅ : StrMap)).entries.map (fun e => e.2)).length
        = 2 * (AList.insert [0x61] [0x31] (∅ : StrMap)).entries.length :=
  pulsar_Keys_actual (AList.insert [0x61] [0x31] ∅) (by decide)

/-- C18: `Set(k, v)` of the read adapter never panics on a message; followed by
`Get(k)` it gives `v` back exactly when the message's property mapping is
present or `v` is the empty string. On an absent mapping `Set` leaves the
message without properties; on a present one it writes the entry into the
message's mapping. -/
theorem ConsumerMessageCarrier_Set_then_Get (msg : Message) (k v : GoString) :
    ∃ c1, ConsumerMessageCarrier.Set ⟨some msg⟩ k v = .ok c1 ∧
      (∃ r, ConsumerMessageCarrier.Get c1 k = .ok r ∧
        (r.1 = v ↔ (msg.Properties ≠ none ∨ v = []))) ∧
      (msg.Properties = none → c1 = ⟨some ⟨none⟩⟩) ∧
      (∀ p, msg.Properties = some p → c1 = ⟨some ⟨some (p.insert k v)⟩⟩) := by
  cases msg with
  | mk props =>
    cases props with
    | none =>
      refine ⟨⟨some ⟨none⟩⟩, rfl, ⟨_, rfl, ?_⟩, fun _ => rfl, ?_⟩
      · simp only [mapIndex]
        constructor
        · intro h; right; exact h.symm
        · intro h
          rcases h with h | h
          · exact absurd rfl h
          · rw [h]; rfl
      · intro p h; cases h
    | some p =>
      refine ⟨⟨some ⟨some (p.insert k v)⟩⟩, rfl, ⟨_, rfl, ?_⟩, ?_, ?_⟩
      · simp [mapIndex]
      · intro h; cases h
      · intro q h
        simp only [Option.some.injEq] at h
        rw [h]

/-- C19: the reading methods change no stored content. `Get`, `Keys` and
`GetTraceParent` leave the Carrier with the entries it had (allocating the map
if it was nil), `MarshalJSON` leaves the Carrier exactly as it was, and `Get`
and `Keys` of the write adapter leave the message exactly as it was, an absent
mapping staying absent. -/
theorem reads_change_nothing (d : Carrier) (k : GoString) :
    (d.Get k).2.carrier.getD ∅ = d.carrier.getD ∅ ∧
      d.Keys.2.carrier.getD ∅ = d.carrier.getD ∅ ∧
      d.GetTraceParent.2.carrier.getD ∅ = d.carrier.getD ∅ ∧
      d.MarshalJSON.2 = d ∧
      ∀ (msg : ProducerMessage),
        (∃ s, ProducerMessageCarrier.Get ⟨some msg⟩ k = .ok (s, ⟨some msg⟩)) ∧
        (∃ ks, ProducerMessageCarrier.Keys ⟨some msg⟩ = .ok (ks, ⟨some msg⟩)) := by
  refine ⟨?_, ?_, ?_, ?_, ?_⟩
  · simp [Carrier_Get_snd]
  · simp [Carrier_Keys_eq]
  · simp [Carrier.GetTraceParent, Carrier_Get_snd]
  · simp [Carrier_MarshalJSON_eq]
  · intro msg
    constructor
    · exact ⟨_, rfl⟩
    · simp only [ProducerMessageCarrier.Keys]
      split_ifs
      · exact ⟨_, rfl⟩
      · exact ⟨_, rfl⟩


/-- C13 (as amended): for every valid span context `S` (a trace id of sixteen
and a span id of eight bytes, not all zero, and a well-formed trace state) and
every context built from `S`. With a global propagator that, run after the
trace-context propagator, leaves the values under `traceparent` and
`tracestate` as they are on `Inject` and the trace id, span id and trace state
of the span context on `Extract`, `InjectContext` on a Carrier followed by
`PropagateIntoContext` on the same Carrier into a background context yields a
context whose span context has the trace id and the span id of `S`. With the
trace-context propagator alone, `Inject` into a `ProducerMessageCarrier` over a
message followed by `Extract` from a `ConsumerMessageCarrier` over the same
properties into a background context does the same. In both cases the trace
state of that span context is the trace state of `S` if and only if the trace
state of `S` has members or the `tracestate` value the carrier held before is
read as a trace state without members (no value, the empty one, or one that
`ParseTraceState` rejects or reads as empty). The default global propagator and
`propagation.TraceContext` are global propagators of that kind. -/
theorem TraceContext_roundtrip (S : SpanContext) (hT : S.TraceID.length = 16)
    (hTb : ∀ b ∈ S.TraceID, b < 256) (hS : S.SpanID.length = 8) (hSb : ∀ b ∈ S.SpanID, b < 256)
    (hvalid : S.IsValid = true) (hts : traceStateOk S.TraceState = true) (parent : Context) :
    (∀ global : TextMapPropagator,
      InjectKeepsTraceHeaders global (ContextWithSpanContext parent S) →
      ExtractKeepsSpanContext global Background → ∀ d : Carrier, ∃ d1 c2 d2,
        Carrier.InjectContext global d (ContextWithSpanContext parent S) = .ok d1 ∧
        Carrier.PropagateIntoContext global d1 Background = .ok (c2, d2) ∧
        (SpanContextFromContext c2).TraceID = S.TraceID ∧
        (SpanContextFromContext c2).SpanID = S.SpanID ∧
        ((SpanContextFromContext c2).TraceState = S.TraceState ↔
          (S.TraceState = [] → (ParseTraceState (d.Get tracestateHeader).1).getD [] = []))) ∧
    (∀ msg : ProducerMessage, ∃ p c2,
        (TraceContext.Inject (ContextWithSpanContext parent S)).runProducer ⟨some msg⟩
          = .ok ((), ⟨some ⟨p⟩⟩) ∧
        (TraceContext.Extract Background).runConsumer ⟨some ⟨p⟩⟩ = .ok (c2, ⟨some ⟨p⟩⟩) ∧
        (SpanContextFromContext c2).TraceID = S.TraceID ∧
        (SpanContextFromContext c2).SpanID = S.SpanID ∧
        ((SpanContextFromContext c2).TraceState = S.TraceState ↔
          (S.TraceState = [] →
            (ParseTraceState (mapIndex msg.Properties tracestateHeader)).getD [] = []))) ∧
    (∀ ctx : Context,
      InjectKeepsTraceHeaders noopTextMapPropagator ctx ∧
      ExtractKeepsSpanContext noopTextMapPropagator ctx ∧
      InjectKeepsTraceHeaders TraceContext ctx ∧ ExtractKeepsSpanContext TraceContext ctx) := by
  refine ⟨?_, ?_, fun ctx => ⟨noop_InjectKeepsTraceHeaders ctx, noop_ExtractKeepsSpanContext ctx,
    TraceContext_InjectKeepsTraceHeaders ctx, TraceContext_ExtractKeepsSpanContext ctx⟩⟩
  · intro global hI hE d
    obtain ⟨m, hrun, htp, hst⟩ := inject_runCarrier S hvalid parent d
    obtain ⟨d1, hg, hg1, hg2⟩ := hI d ⟨some m⟩ hrun
    have htp1 : (d1.Get traceparentHeader).1
        = [0x30, 0x30] ++ [0x2D] ++ hexEncode S.TraceID ++ [0x2D] ++ hexEncode S.SpanID
          ++ [0x2D] ++ hexEncode [S.TraceFlags % 2] := hg1.trans htp
    have hst1 : (d1.Get tracestateHeader).1
        = if traceStateString S.TraceState ≠ [] then traceStateString S.TraceState
          else (d.Get tracestateHeader).1 := hg2.trans hst
    have hex := extract_runCarrier S hT hTb hS hSb hvalid d1 htp1
    have hTC : (TraceContext.Extract Background).runCarrier d1
        = .ok (ContextWithRemoteSpanContext Background
            (SpanContext.mk S.TraceID S.SpanID (S.TraceFlags % 2)
              ((ParseTraceState (d1.Get tracestateHeader).1).getD []) true),
            ⟨some (d1.carrier.getD ∅)⟩) := by
      rw [TraceContext.Extract, runCarrier_bind, hex]
      simp only []
      rw [if_pos (show SpanContext.IsValid
        (SpanContext.mk S.TraceID S.SpanID (S.TraceFlags % 2)
          ((ParseTraceState (d1.Get tracestateHeader).1).getD []) true) = true from hvalid)]
      rfl
    obtain ⟨c2, d2, hx, e1, e2, e3⟩ := hE d1 _ _ hTC
    refine ⟨d1, c2, d2, ?_, ?_, e1, e2, ?_⟩
    · have h1 : (getPropagator global).Inject (ContextWithSpanContext parent S)
          = (TraceContext.Inject (ContextWithSpanContext parent S)).bind
              (fun _ => global.Inject (ContextWithSpanContext parent S)) := rfl
      rw [Carrier.InjectContext, h1, runCarrier_bind, hrun]
      simp only []
      rw [hg]
      rfl
    · have h1 : (getPropagator global).Extract Background
          = (TraceContext.Extract Background).bind (fun c => global.Extract c) := rfl
      rw [Carrier.PropagateIntoContext, h1, runCarrier_bind, hTC]
      exact hx
    · rw [e3]
      show (ParseTraceState (d1.Get tracestateHeader).1).getD [] = S.TraceState ↔ _
      rw [hst1]
      exact tracestate_read_iff S.TraceState hts _
  · intro msg
    obtain ⟨m, hrun, htp, hst⟩ := inject_runProducer S hvalid parent msg
    have hex := extract_runConsumer S hT hTb hS hSb hvalid m htp
    refine ⟨some m, ContextWithRemoteSpanContext Background
      (SpanContext.mk S.TraceID S.SpanID (S.TraceFlags % 2)
        ((ParseTraceState (mapIndex (some m) tracestateHeader)).getD []) true),
      hrun, ?_, rfl, rfl, ?_⟩
    · have h1 : TraceContext.Extract Background
          = TraceContext.extract.bind fun sc =>
              if sc.IsValid then CarrierProg.done (ContextWithRemoteSpanContext Background sc)
              else CarrierProg.done Background := rfl
      rw [h1, runConsumer_bind, hex]
      simp only []
      rw [if_pos (show SpanContext.IsValid
        (SpanContext.mk S.TraceID S.SpanID (S.TraceFlags % 2)
          ((ParseTraceState (mapIndex (some m) tracestateHeader)).getD []) true) = true
            from hvalid)]
      rfl
    · show (ParseTraceState (mapIndex (some m) tracestateHeader)).getD [] = S.TraceState ↔ _
      rw [hst]
      exact tracestate_read_iff S.TraceState hts _

/-- The amended C13 at the span context of `TestPulsarCarrier`, built on a
background context, with the default global propagator, which injects and
extracts nothing. -/
theorem TraceContext_roundtrip_witness :
    (∀ d : Carrier, ∃ d1 c2 d2,
        Carrier.InjectContext noopTextMapPropagator d
          (ContextWithSpanContext Background testSpanContext) = .ok d1 ∧
        Carrier.PropagateIntoContext noopTextMapPropagator d1 Background = .ok (c2, d2) ∧
        (SpanContextFromContext c2).TraceID = testSpanContext.TraceID ∧
        (SpanContextFromContext c2).SpanID = testSpanContext.SpanID ∧
        ((SpanContextFromContext c2).TraceState = testSpanContext.TraceState ↔
          (testSpanContext.TraceState = [] →
            (ParseTraceState (d.Get tracestateHeader).1).getD [] = []))) ∧
    (∀ msg : ProducerMessage, ∃ p c2,
        (TraceContext.Inject (ContextWithSpanContext Background testSpanContext)).runProducer
          ⟨some msg⟩ = .ok ((), ⟨some ⟨p⟩⟩) ∧
        (TraceContext.Extract Background).runConsumer ⟨some ⟨p⟩⟩ = .ok (c2, ⟨some ⟨p⟩⟩) ∧
        (SpanContextFromContext c2).TraceID = testSpanContext.TraceID ∧
        (SpanContextFromContext c2).SpanID = testSpanContext.SpanID ∧
        ((SpanContextFromContext c2).TraceState = testSpanContext.TraceState ↔
          (testSpanContext.TraceState = [] →
            (ParseTraceState (mapIndex msg.Properties tracestateHeader)).getD [] = []))) :=
  ⟨(TraceContext_roundtrip testSpanContext (by decide) (by decide) (by decide) (by decide)
      (by decide) (by decide) Background).1 noopTextMapPropagator
      (fun _ dT _ => ⟨dT, rfl, rfl, rfl⟩) (fun _ cT dT _ => ⟨cT, dT, rfl, rfl, rfl, rfl⟩),
    (TraceContext_roundtrip testSpanContext (by decide) (by decide) (by decide) (by decide)
      (by decide) (by decide) Background).2.1⟩

/-- C13 fails as stated: a Carrier that holds the `tracestate` value `x=y`
keeps it when the context of a valid span context with an empty trace state is
injected, and `PropagateIntoContext` on the same Carrier then yields a span
context whose trace state is the member `x=y`, not the empty trace state. -/
theorem TraceContext_roundtrip_fails_on_stale_tracestate :
    Carrier.InjectContext noopTextMapPropagator
        ⟨some (AList.insert tracestateHeader (asciiBytes "x=y") ∅)⟩
        (ContextWithSpanContext Background
          (SpanContext.mk (List.replicate 16 0x11) (List.replicate 8 0x22) 0 [] false))
      = .ok ⟨some (AList.insert traceparentHeader
          (asciiBytes "00-11111111111111111111111111111111-2222222222222222-00")
          (AList.insert tracestateHeader (asciiBytes "x=y") ∅))⟩ ∧
    Carrier.PropagateIntoContext noopTextMapPropagator
        ⟨some (AList.insert traceparentHeader
          (asciiBytes "00-11111111111111111111111111111111-2222222222222222-00")
          (AList.insert tracestateHeader (asciiBytes "x=y") ∅))⟩ Background
      = .ok (⟨some (SpanContext.mk (List.replicate 16 0x11) (List.replicate 8 0x22) 0
            [(asciiBytes "x", asciiBytes "y")] true)⟩,
          ⟨some (AList.insert traceparentHeader
            (asciiBytes "00-11111111111111111111111111111111-2222222222222222-00")
            (AList.insert tracestateHeader (asciiBytes "x=y") ∅))⟩) ∧
    SpanContext.IsValid
      (SpanContext.mk (List.replicate 16 0x11) (List.replicate 8 0x22) 0 [] false) = true ∧
    traceStateOk [] = true ∧
    [(asciiBytes "x", asciiBytes "y")] ≠ ([] : List (GoString × GoString)) :=
  ⟨rfl, rfl, rfl, rfl, by decide⟩

end OtelAdaptor
